import Mathlib

/-!
# libco: a cooperative coroutine runtime (`co.c`)

A shallow embedding of `co.c`.  Pointers are natural numbers (`Option Nat`
where the C code tests for `NULL`), the allocated descriptors form a partial
map from addresses to `struct co` values, and the two loops of the file take a
budget of loop tests so that they are total functions.

Control transfers (`setjmp`, `longjmp`, the stack switch) are modelled by the
return site stored in the descriptor's `context`: when `co_yield` resumes a
coroutine it reports the program point at which that coroutine continues.
-/

namespace Libco

/-! ## Data model -/

/-- The enumeration `enum co_status`. -/
inductive co_status
  | CO_NEW
  | CO_RUNNING
  | CO_WAITING
  | CO_DEAD
  deriving DecidableEq

/-- The content of a `jmp_buf` filled by the `setjmp` of `co_yield`: the call
site to which that `co_yield` returns once a `longjmp` resumes it. `user` is a
call from user code, `wait t` the call on line 168 inside `co_wait(t)`, and
`death` the call on line 151 made after the entry function returned. -/
inductive Site
  | user
  | wait (target : Nat)
  | death
  deriving DecidableEq

/-- The record `struct co`. `context` is `none` until the first `setjmp`;
`launched` abstracts the private stack: it is `true` once the entry function
has been called on it by `stack_switch_call`. -/
structure co where
  name : String
  func : Option Nat
  arg : Nat
  status : co_status
  waiter : Option Nat
  context : Option Site
  launched : Bool
  deriving DecidableEq

/-- Modelled from the spec: the ready-list container `Queue` of `list.h`, which
is not part of the sources. It is a bounded FIFO of items; an item is
represented by its `data` pointer. -/
structure Queue where
  items : List Nat
  cap : Nat
  deriving DecidableEq

/-- Modelled from the spec: `q_new` of `list.h`, an empty container of the
configured capacity. -/
def q_new (cap : Nat) : Queue := ⟨[], cap⟩

/-- Modelled from the spec: `q_is_empty` of `list.h`. -/
def q_is_empty (q : Queue) : Bool := q.items.isEmpty

/-- Modelled from the spec: `q_is_full` of `list.h`, true when the container
holds as many items as its capacity allows. -/
def q_is_full (q : Queue) : Bool := decide (q.cap ≤ q.items.length)

/-- Modelled from the spec: `q_push` of `list.h`, enqueue at the tail. -/
def q_push (q : Queue) (item : Nat) : Queue := ⟨q.items ++ [item], q.cap⟩

/-- Modelled from the spec: `q_pop` of `list.h`, dequeue from the front; the
result is `none` (a null item) on an empty container. -/
def q_pop (q : Queue) : Option Nat × Queue :=
  match q.items with
  | [] => (none, q)
  | x :: xs => (some x, ⟨xs, q.cap⟩)

/-- The allocated descriptors: address to `struct co`, `none` where nothing is
allocated (never allocated, or released by `free`). -/
abbrev Heap := Nat → Option co

/-- Write `v` at address `p`. -/
def store (h : Heap) (p : Nat) (v : Option co) : Heap :=
  fun a => if a = p then v else h a

/-- The global state of `co.c`: the descriptors, `current` and `queue`. -/
structure Runtime where
  heap : Heap
  current : Option Nat
  queue : Queue

/-- Outcome of running a piece of `co.c`. `abort` is a failed `assert` and
carries the state at that moment; `undef` is an access through a null or
released pointer; `spin` means the loop budget ran out. -/
inductive Res (α : Type)
  | ok (a : α)
  | abort (rt : Runtime)
  | undef
  | spin

/-- Where the coroutine that holds the processor continues: in user code, or on
line 171 of `co_wait t`, right after the `co_yield` of line 168 returned. -/
inductive Pc
  | user
  | reclaim (t : Nat)
  deriving DecidableEq

/-! ## `co_start` -/

/-- The function `co_start`. `m1` is the result of the first `malloc` (the
descriptor), `m2` tells whether the second `malloc` (the queue item)
succeeded. -/
def co_start (name : String) (func : Option Nat) (arg : Nat)
    (m1 : Option Nat) (m2 : Bool) (rt : Runtime) : Res (Option Nat × Runtime) :=
  match m1 with
  | none => .abort rt
  | some p =>
    let rt1 : Runtime :=
      ⟨store rt.heap p (some ⟨name, func, arg, .CO_NEW, none, none, false⟩),
        rt.current, rt.queue⟩
    if m2 = false then .ok (none, rt1)
    else if q_is_full rt1.queue then .abort rt1
    else .ok (some p, ⟨rt1.heap, rt1.current, q_push rt1.queue p⟩)

/-! ## `co_yield` -/

/-- The test `current->status == CO_NEW || current->status == CO_RUNNING`. -/
def runnable (s : co_status) : Bool :=
  s == .CO_NEW || s == .CO_RUNNING

/-- The body of the loop of lines 117-122: push the item back, pop the next. -/
def rotate (item : Nat) (q : Queue) : Option Nat × Queue :=
  q_pop (q_push q item)

/-- The loop of lines 117-122, started with the item just popped. The budget
counts evaluations of the loop test. The result is the item on which the loop
stopped and the queue at that moment. -/
def co_yield_scan (h : Heap) : Nat → Nat → Queue → Res (Nat × Queue)
  | 0, _, _ => .spin
  | fuel + 1, item, q =>
    match h item with
    | none => .undef
    | some c =>
      if runnable c.status then .ok (item, q)
      else
        match rotate item q with
        | (none, _) => .undef
        | (some next, q1) => co_yield_scan h fuel next q1

/-- Lines 112-124 of `co_yield`: the dispatch scan, up to and including the
push of the chosen coroutine's item at the tail. -/
def co_yield_pick (fuel : Nat) (rt : Runtime) : Res Runtime :=
  if q_is_empty rt.queue then .abort rt
  else
    match q_pop rt.queue with
    | (none, _) => .abort rt
    | (some item, q1) =>
      match co_yield_scan rt.heap fuel item q1 with
      | .ok (c, q2) => .ok ⟨rt.heap, some c, q_push q2 c⟩
      | .abort r => .abort r
      | .undef => .undef
      | .spin => .spin

/-- Lines 127-154 of `co_yield`: the transfer of control to the chosen
coroutine. A `CO_RUNNING` coroutine is resumed by `longjmp` at its saved site
(the site `death` leads to `assert(0)`); a `CO_NEW` one is marked `CO_RUNNING`
and its entry function is called on its own stack. -/
def co_yield_dispatch (rt : Runtime) : Res (Runtime × Pc) :=
  match rt.current with
  | none => .abort rt
  | some c =>
    match rt.heap c with
    | none => .undef
    | some cc =>
      match cc.status with
      | .CO_RUNNING =>
        match cc.context with
        | none => .undef
        | some .user => .ok (rt, .user)
        | some (.wait t) => .ok (rt, .reclaim t)
        | some .death => .abort rt
      | .CO_NEW =>
        match cc.func with
        | none => .undef
        | some _ =>
          .ok (⟨store rt.heap c
                  (some ⟨cc.name, cc.func, cc.arg, .CO_RUNNING, cc.waiter, cc.context, true⟩),
                rt.current, rt.queue⟩, .user)
      | _ => .abort rt

/-- The `setjmp(current->context)` of line 109, taken on the path where it
returns 0: the call site is recorded in the caller's descriptor. -/
def co_yield_save (site : Site) (rt : Runtime) : Option Runtime :=
  match rt.current with
  | none => none
  | some me =>
    match rt.heap me with
    | none => none
    | some mc =>
      some ⟨store rt.heap me
              (some ⟨mc.name, mc.func, mc.arg, mc.status, mc.waiter, some site, mc.launched⟩),
            rt.current, rt.queue⟩

/-- The function `co_yield`, called from `site`. The result is the state once
control has reached the dispatched coroutine, and the point at which that
coroutine continues. -/
def co_yield (fuel : Nat) (site : Site) (rt : Runtime) : Res (Runtime × Pc) :=
  match co_yield_save site rt with
  | none => .undef
  | some rt1 =>
    match co_yield_pick fuel rt1 with
    | .ok rt2 => co_yield_dispatch rt2
    | .abort r => .abort r
    | .undef => .undef
    | .spin => .spin

/-- Lines 145-150 of `co_yield`: the entry function of the current coroutine
has returned; it is marked `CO_DEAD` and its waiter, if any, `CO_RUNNING`. -/
def co_yield_death (rt : Runtime) : Option Runtime :=
  match rt.current with
  | none => none
  | some me =>
    match rt.heap me with
    | none => none
    | some mc =>
      let h1 := store rt.heap me
        (some ⟨mc.name, mc.func, mc.arg, .CO_DEAD, mc.waiter, mc.context, mc.launched⟩)
      match mc.waiter with
      | none => some ⟨h1, rt.current, rt.queue⟩
      | some w =>
        match h1 w with
        | none => none
        | some wc =>
          some ⟨store h1 w
                  (some ⟨wc.name, wc.func, wc.arg, .CO_RUNNING, wc.waiter, wc.context, wc.launched⟩),
                rt.current, rt.queue⟩

/-- Lines 139-152 of `co_yield`: the return of the entry function, followed by
the final `co_yield()` of line 151. -/
def co_yield_return (fuel : Nat) (rt : Runtime) : Res (Runtime × Pc) :=
  match co_yield_death rt with
  | none => .undef
  | some rt1 => co_yield fuel .death rt1

/-! ## `co_wait` -/

/-- Lines 166-167 of `co_wait`: `coroutine->waiter = current;
current->status = CO_WAITING`. -/
def co_wait_mark (t : Nat) (rt : Runtime) : Option Runtime :=
  match rt.heap t with
  | none => none
  | some tc =>
    let h1 := store rt.heap t
      (some ⟨tc.name, tc.func, tc.arg, tc.status, rt.current, tc.context, tc.launched⟩)
    match rt.current with
    | none => none
    | some me =>
      match h1 me with
      | none => none
      | some mc =>
        some ⟨store h1 me
                (some ⟨mc.name, mc.func, mc.arg, .CO_WAITING, mc.waiter, mc.context, mc.launched⟩),
              rt.current, rt.queue⟩

/-- The loop of lines 174-177, started with the item just popped. The budget
counts evaluations of the loop test; the result is the queue once the item of
`target` has been taken out. -/
def co_wait_scan (target : Nat) : Nat → Nat → Queue → Res Queue
  | 0, _, _ => .spin
  | fuel + 1, item, q =>
    if item = target then .ok q
    else
      match rotate item q with
      | (none, _) => .undef
      | (some next, q1) => co_wait_scan target fuel next q1

/-- Lines 171-181 of `co_wait`: find the item of `t` in the ready list, remove
it, and release the descriptor. -/
def co_wait_reclaim (fuel : Nat) (t : Nat) (rt : Runtime) : Res Runtime :=
  if q_is_empty rt.queue then .abort rt
  else
    match q_pop rt.queue with
    | (none, _) => .abort rt
    | (some item, q1) =>
      match co_wait_scan t fuel item q1 with
      | .ok q2 =>
        match rt.heap t with
        | none => .undef
        | some _ => .ok ⟨store rt.heap t none, rt.current, q2⟩
      | .abort r => .abort r
      | .undef => .undef
      | .spin => .spin

/-- The function `co_wait`, up to the point where control next reaches user
code or line 171. If the target is not `CO_DEAD` the caller is marked and
yields from site `wait t`; its lines 171-181 run when it is resumed. If the
target is `CO_DEAD` lines 171-181 run at once. -/
def co_wait (fuel : Nat) (coroutine : Option Nat) (rt : Runtime) : Res (Runtime × Pc) :=
  match coroutine with
  | none => .abort rt
  | some t =>
    match rt.heap t with
    | none => .undef
    | some tc =>
      if tc.status ≠ .CO_DEAD then
        match co_wait_mark t rt with
        | none => .undef
        | some rt1 => co_yield fuel (.wait t) rt1
      else
        match co_wait_reclaim fuel t rt with
        | .ok rt1 => .ok (rt1, .user)
        | .abort r => .abort r
        | .undef => .undef
        | .spin => .spin

/-! ## Startup -/

/-- The constructor `co_constructor`. `qn` is the result of `q_new` (`none`
for a null pointer), `m1` and `m2` the results of the two allocations made by
`co_start`. -/
def co_constructor (qn : Option Queue) (m1 : Option Nat) (m2 : Bool) : Res Runtime :=
  match qn with
  | none => .abort ⟨fun _ => none, none, q_new 0⟩
  | some q =>
    match co_start "main" none 0 m1 m2 ⟨fun _ => none, none, q⟩ with
    | .ok (none, rt) => .abort rt
    | .ok (some p, rt) =>
      match rt.heap p with
      | none => .undef
      | some c =>
        .ok ⟨store rt.heap p
               (some ⟨c.name, c.func, c.arg, .CO_RUNNING, c.waiter, c.context, c.launched⟩),
             some p, rt.queue⟩
    | .abort r => .abort r
    | .undef => .undef
    | .spin => .spin

/-- The state of the loop of lines 117-122 (the item in hand and the queue)
after `k` executions of its body, started with the item just popped. -/
def co_yield_scan_iter : Nat → Nat → Queue → Option (Nat × Queue)
  | 0, item, q => some (item, q)
  | k + 1, item, q =>
    match rotate item q with
    | (none, _) => none
    | (some next, q1) => co_yield_scan_iter k next q1

/-! ## Runs of calls -/

/-- The coroutine holding the processor calls `co_yield` from user code, and so
does each coroutine dispatched in turn, `n` calls in all. The result lists the
coroutines dispatched, in order. A coroutine resumed inside `co_wait` first
completes lines 171-181. -/
def co_yield_times (fuel : Nat) : Nat → Runtime → Res (List Nat × Runtime)
  | 0, rt => .ok ([], rt)
  | n + 1, rt =>
    match co_yield fuel .user rt with
    | .ok (rt1, pc) =>
      match rt1.current with
      | none => .undef
      | some c =>
        let next : Res Runtime :=
          match pc with
          | .user => .ok rt1
          | .reclaim t => co_wait_reclaim fuel t rt1
        match next with
        | .ok rt2 =>
          match co_yield_times fuel n rt2 with
          | .ok (l, rt3) => .ok (c :: l, rt3)
          | .abort r => .abort r
          | .undef => .undef
          | .spin => .spin
        | .abort r => .abort r
        | .undef => .undef
        | .spin => .spin
    | .abort r => .abort r
    | .undef => .undef
    | .spin => .spin

/-- Every coroutine of `l` is `CO_RUNNING` and, unless it holds the processor,
is suspended in a `co_yield` called from user code; the current coroutine is
allocated. -/
def AllYielding (rt : Runtime) (l : List Nat) : Prop :=
  (∃ me mc, rt.current = some me ∧ rt.heap me = some mc) ∧
  ∀ a ∈ l, ∃ ac, rt.heap a = some ac ∧ ac.status = .CO_RUNNING ∧
    (rt.current ≠ some a → ac.context = some .user)

/-! ## Executions -/

/-- What `malloc` guarantees of the block `p` it returns for a descriptor: the
block is not in use. It may be a block that `free` released earlier, whatever
pointers to it are still held. -/
def FreshBlock (rt : Runtime) (p : Nat) : Prop :=
  rt.heap p = none

/-- The states reachable from startup. In a state with program point `user`
the current coroutine runs user code, which may call `co_start` (`malloc`
returning any block that is not in use), `co_yield`, `co_wait` on a handle that
is in the ready list, or (when it was launched by `co_yield`) return from its
entry function. In a state with program point `reclaim t` the current
coroutine has just been resumed inside `co_wait(t)` and runs lines 171-181. -/
inductive Reachable : Runtime → Pc → Prop
  | startup (cap : Nat) (m1 : Option Nat) (m2 : Bool) (rt : Runtime) :
      co_constructor (some (q_new cap)) m1 m2 = .ok rt → Reachable rt .user
  | start (rt : Runtime) (name : String) (func : Option Nat) (arg p : Nat) (m2 : Bool)
      (h : Option Nat) (r : Runtime) :
      Reachable rt .user → FreshBlock rt p →
      co_start name func arg (some p) m2 rt = .ok (h, r) → Reachable r .user
  | yield (rt : Runtime) (fuel : Nat) (r : Runtime) (pc : Pc) :
      Reachable rt .user → co_yield fuel .user rt = .ok (r, pc) → Reachable r pc
  | wait (rt : Runtime) (fuel t : Nat) (r : Runtime) (pc : Pc) :
      Reachable rt .user → t ∈ rt.queue.items →
      co_wait fuel (some t) rt = .ok (r, pc) → Reachable r pc
  | ret (rt : Runtime) (fuel me : Nat) (mc : co) (r : Runtime) (pc : Pc) :
      Reachable rt .user → rt.current = some me → rt.heap me = some mc →
      mc.launched = true →
      co_yield_return fuel rt = .ok (r, pc) → Reachable r pc
  | reclaim (rt : Runtime) (fuel t : Nat) (r : Runtime) :
      Reachable rt (.reclaim t) → co_wait_reclaim fuel t rt = .ok r → Reachable r .user

/-- The coroutine `t` is allocated and has finished. -/
def Finished (rt : Runtime) (t : Nat) : Prop :=
  ∃ tc, rt.heap t = some tc ∧ tc.status = .CO_DEAD

/-- No coroutine that the death of `t` has woken is still suspended in the
`co_yield` of its `co_wait(t)`, waiting to run lines 171-181 on `t`. -/
def Settled (rt : Runtime) (t : Nat) : Prop :=
  ∀ a ac, rt.heap a = some ac → rt.current ≠ some a → ac.status = .CO_RUNNING →
    ac.context ≠ some (.wait t)

/-- Consistency of the ready list and of the waiter links: listed coroutines
are allocated and listed once, and the waiter recorded in an unfinished
coroutine `z` is blocked in `co_wait(z)`. -/
structure Sound (rt : Runtime) : Prop where
  qlive : ∀ a ∈ rt.queue.items, rt.heap a ≠ none
  nodup : rt.queue.items.Nodup
  waiter : ∀ z zc w, rt.heap z = some zc → zc.status ≠ .CO_DEAD → zc.waiter = some w →
    ∃ wc, rt.heap w = some wc ∧ wc.status = .CO_WAITING ∧ wc.context = some (.wait z)

/-- The state inside `co_yield` once the caller's context has been saved. -/
structure Saved (rt : Runtime) : Prop where
  sound : Sound rt
  cur : ∃ me mc, rt.current = some me ∧ rt.heap me = some mc ∧ me ∈ rt.queue.items
  pending : ∀ a ac t, rt.heap a = some ac → ac.status = .CO_RUNNING →
    ac.context = some (.wait t) → Finished rt t
  sole : ∀ a b ac bc t, rt.heap a = some ac → rt.heap b = some bc →
    ac.status = .CO_RUNNING → bc.status = .CO_RUNNING →
    ac.context = some (.wait t) → bc.context = some (.wait t) → a = b

/-- The invariant of the states reached by orderly executions: the ready list
and the waiter links are consistent, the current coroutine is `CO_RUNNING` and
listed, a coroutine woken inside `co_wait(t)` finds `t` finished and still
allocated, and it is the only one woken inside `co_wait(t)`. -/
structure Inv (rt : Runtime) (pc : Pc) : Prop where
  sound : Sound rt
  cur : ∃ me mc, rt.current = some me ∧ rt.heap me = some mc ∧
    mc.status = .CO_RUNNING ∧ me ∈ rt.queue.items
  pending : ∀ a ac t, rt.heap a = some ac → rt.current ≠ some a →
    ac.status = .CO_RUNNING → ac.context = some (.wait t) → Finished rt t
  resumed : ∀ t, pc = .reclaim t → Finished rt t ∧ Settled rt t
  sole : ∀ a b ac bc t, rt.heap a = some ac → rt.heap b = some bc →
    rt.current ≠ some a → rt.current ≠ some b →
    ac.status = .CO_RUNNING → bc.status = .CO_RUNNING →
    ac.context = some (.wait t) → bc.context = some (.wait t) → a = b

/-! ## Transitions -/

/-- What a transition does to the population of coroutines: nothing, the
creation of the coroutine at `p` by a `co_start` that returned its handle, or
the reclamation of `t` by lines 171-181 of `co_wait`. -/
inductive Label
  | quiet
  | created (p : Nat)
  | reclaimed (t : Nat)
  deriving DecidableEq

/-- The label of a `co_start` that returned `h`. -/
def Label.ofHandle : Option Nat → Label
  | none => .quiet
  | some p => .created p

/-- The handles created and not reclaimed, after a transition. -/
def Label.apply : Label → List Nat → List Nat
  | .quiet, live => live
  | .created p, live => live ++ [p]
  | .reclaimed t, live => live.erase t

/-- One transition between the states of `Reachable`: a call made by user code
(`co_start`; `co_yield`; `co_wait` on a listed handle, which either blocks or,
on a finished target, reclaims at once; the return of an entry function), or
the completion of a `co_wait` that has been resumed. -/
inductive Step : Runtime → Pc → Label → Runtime → Pc → Prop
  | start (rt : Runtime) (name : String) (func : Option Nat) (arg p : Nat) (m2 : Bool)
      (h : Option Nat) (r : Runtime) :
      FreshBlock rt p → co_start name func arg (some p) m2 rt = .ok (h, r) →
      Step rt .user (Label.ofHandle h) r .user
  | yield (rt : Runtime) (fuel : Nat) (r : Runtime) (pc : Pc) :
      co_yield fuel .user rt = .ok (r, pc) → Step rt .user .quiet r pc
  | block (rt : Runtime) (fuel t : Nat) (tc : co) (r : Runtime) (pc : Pc) :
      t ∈ rt.queue.items → rt.heap t = some tc → tc.status ≠ .CO_DEAD →
      co_wait fuel (some t) rt = .ok (r, pc) → Step rt .user .quiet r pc
  | join (rt : Runtime) (fuel t : Nat) (tc : co) (r : Runtime) (pc : Pc) :
      t ∈ rt.queue.items → rt.heap t = some tc → tc.status = .CO_DEAD →
      co_wait fuel (some t) rt = .ok (r, pc) → Step rt .user (.reclaimed t) r pc
  | ret (rt : Runtime) (fuel me : Nat) (mc : co) (r : Runtime) (pc : Pc) :
      rt.current = some me → rt.heap me = some mc → mc.launched = true →
      co_yield_return fuel rt = .ok (r, pc) → Step rt .user .quiet r pc
  | reclaim (rt : Runtime) (fuel t : Nat) (r : Runtime) :
      co_wait_reclaim fuel t rt = .ok r → Step rt (.reclaim t) (.reclaimed t) r .user

/-- A state reached from another by a sequence of transitions, with the labels
of these transitions in order. -/
inductive Later : Runtime → Pc → List Label → Runtime → Pc → Prop
  | refl (rt : Runtime) (pc : Pc) : Later rt pc [] rt pc
  | next (rt : Runtime) (pc : Pc) (ls : List Label) (r1 : Runtime) (pc1 : Pc) (l : Label)
      (r2 : Runtime) (pc2 : Pc) :
      Later rt pc ls r1 pc1 → Step r1 pc1 l r2 pc2 → Later rt pc (ls ++ [l]) r2 pc2

/-- A transition keeps to the single-waiter rule of `co_wait`: it is not a
`co_wait` called from user code on a finished coroutine `t` while the
coroutine that the death of `t` woke is still suspended inside its own
`co_wait(t)` (which would leave that coroutine with a released target). -/
def Orderly (rt : Runtime) (pc : Pc) (l : Label) : Prop :=
  pc = .user → ∀ t, l = .reclaimed t → Settled rt t

/-- The states reached from startup by orderly transitions. The allocator is
not constrained: `co_start` may receive any block that is not in use. -/
inductive Disciplined : Runtime → Pc → Prop
  | startup (cap : Nat) (m1 : Option Nat) (m2 : Bool) (rt : Runtime) :
      co_constructor (some (q_new cap)) m1 m2 = .ok rt → Disciplined rt .user
  | step (rt : Runtime) (pc : Pc) (l : Label) (r : Runtime) (pc1 : Pc) :
      Disciplined rt pc → Step rt pc l r pc1 → Orderly rt pc l → Disciplined r pc1

/-- A state reached from another by a sequence of orderly transitions, with
the labels of these transitions in order. -/
inductive Onward : Runtime → Pc → List Label → Runtime → Pc → Prop
  | refl (rt : Runtime) (pc : Pc) : Onward rt pc [] rt pc
  | next (rt : Runtime) (pc : Pc) (ls : List Label) (r1 : Runtime) (pc1 : Pc) (l : Label)
      (r2 : Runtime) (pc2 : Pc) :
      Onward rt pc ls r1 pc1 → Step r1 pc1 l r2 pc2 → Orderly r1 pc1 l →
      Onward rt pc (ls ++ [l]) r2 pc2

/-- A reachable state together with the handles created so far (main
included) and not yet reclaimed, in order of creation. -/
inductive Tracked : Runtime → Pc → List Nat → Prop
  | startup (cap : Nat) (m1 : Option Nat) (m2 : Bool) (rt : Runtime) (p : Nat) :
      co_constructor (some (q_new cap)) m1 m2 = .ok rt → rt.current = some p →
      Tracked rt .user [p]
  | step (rt : Runtime) (pc : Pc) (live : List Nat) (l : Label) (r : Runtime) (pc1 : Pc) :
      Tracked rt pc live → Step rt pc l r pc1 → Tracked r pc1 (l.apply live)

/-- What lines 166-167 of `co_wait`, or lines 145-150 of `co_yield`, do to the
descriptor at `a`, from the state `rt` in which the call is made to the state
`s` they leave: they leave it alone, or mark the caller `CO_WAITING` or
`CO_DEAD`, or wake the waiter of the dying caller, or record the caller as
waiter of an unfinished target. -/
structure Marks (rt s : Runtime) (a : Nat) (ac ac1 : co) : Prop where
  same : ac1.name = ac.name ∧ ac1.func = ac.func ∧ ac1.arg = ac.arg ∧
    ac1.context = ac.context ∧ ac1.launched = ac.launched
  status : ac1.status = ac.status ∨
    (rt.current = some a ∧ ac.status = .CO_RUNNING ∧
      (ac1.status = .CO_WAITING ∨ ac1.status = .CO_DEAD)) ∨
    (ac.status = .CO_WAITING ∧ ac1.status = .CO_RUNNING ∧
      ∃ me mc mc0, rt.current = some me ∧ me ≠ a ∧ rt.heap me = some mc ∧
        mc.waiter = some a ∧ s.heap me = some mc0 ∧ mc0.status = .CO_DEAD)
  waiter : ac1.waiter = ac.waiter ∨ (ac.status ≠ .CO_DEAD ∧ ac1.waiter = rt.current)

/-- What a `co_yield` called from `site` in state `s`, ending in state `r`,
does to the descriptor at `a`: the caller's context becomes `site`, and the
coroutine dispatched, if it was `CO_NEW`, becomes `CO_RUNNING` as its entry
function is called. -/
structure YieldMove (site : Site) (s r : Runtime) (a : Nat) (ac ac1 : co) : Prop where
  same : ac1.name = ac.name ∧ ac1.func = ac.func ∧ ac1.arg = ac.arg ∧
    ac1.waiter = ac.waiter
  ctx_other : s.current ≠ some a → ac1.context = ac.context
  ctx_caller : s.current = some a → ac1.context = some site
  move : (ac1.status = ac.status ∧ ac1.launched = ac.launched) ∨
    (ac.status = .CO_NEW ∧ ac1.status = .CO_RUNNING ∧ ac1.launched = true ∧
      r.current = some a)

/-- What one transition from state `rt` to state `r` does to a descriptor that
exists before and after it. -/
structure Evolves (rt r : Runtime) (a : Nat) (ac ac1 : co) : Prop where
  same : ac1.name = ac.name ∧ ac1.func = ac.func ∧ ac1.arg = ac.arg
  dead : ac.status = .CO_DEAD → ac1.status = .CO_DEAD
  fresh : ac1.status = .CO_NEW → ac.status = .CO_NEW
  launch : (ac.status = .CO_NEW ∧ ac1.status ≠ .CO_NEW) ∨ ac1.launched ≠ ac.launched →
    ac.status = .CO_NEW ∧ ac1.status = .CO_RUNNING ∧ ac1.launched = true ∧
      r.current = some a
  waiter : ac1.waiter ≠ ac.waiter → ac.status ≠ .CO_DEAD ∧ ac1.waiter = rt.current
  wake : ac.status = .CO_WAITING → ac1.status ≠ .CO_WAITING →
    ac1.status = .CO_RUNNING ∧ ∃ me mc mc1, rt.current = some me ∧ rt.heap me = some mc ∧
      mc.waiter = some a ∧ r.heap me = some mc1 ∧ mc1.status = .CO_DEAD
  ctx : (ac.context = some .death → ac.status = .CO_DEAD) →
    ac1.context = some .death → ac1.status = .CO_DEAD

/-- What lines 166-167 of `co_wait`, or lines 145-150 of `co_yield`, do to the
descriptor at `a` in any state whatever: the name, the entry, the argument and
the stack are kept, no status becomes `CO_NEW`, and the waiter field is
written only in an unfinished coroutine, with the current coroutine. -/
structure Marked (rt : Runtime) (a : Nat) (ac ac0 : co) : Prop where
  same : ac0.name = ac.name ∧ ac0.func = ac.func ∧ ac0.arg = ac.arg ∧
    ac0.launched = ac.launched
  fresh : ac0.status = .CO_NEW → ac.status = .CO_NEW
  waiter : ac0.waiter ≠ ac.waiter →
    ac.status ≠ .CO_DEAD ∧ ac0.waiter = rt.current ∧ rt.current ≠ none

/-- What one transition from state `rt` to state `r` does, in any state
whatever, to a descriptor that exists before and after it: the name, the entry
and the argument are kept; the status is `CO_NEW` afterwards only if it was
before; the entry function is called (the mark `launched` changes) only on a
`CO_NEW` coroutine not yet launched, which is then `CO_RUNNING` and current;
the waiter field is written only in an unfinished coroutine, with the
coroutine that is current when the transition starts. -/
structure Touched (rt r : Runtime) (a : Nat) (ac ac1 : co) : Prop where
  same : ac1.name = ac.name ∧ ac1.func = ac.func ∧ ac1.arg = ac.arg
  fresh : ac1.status = .CO_NEW → ac.status = .CO_NEW
  launch : ac1.launched ≠ ac.launched →
    ac.status = .CO_NEW ∧ ac.launched = false ∧ ac1.status = .CO_RUNNING ∧
      ac1.launched = true ∧ r.current = some a
  waiter : ac1.waiter ≠ ac.waiter →
    ac.status ≠ .CO_DEAD ∧ ac1.waiter = rt.current ∧ rt.current ≠ none

/-- A descriptor whose saved site is the post-death `co_yield` is `CO_DEAD`,
and one whose entry function has been called is no longer `CO_NEW`. -/
def Wf (c : co) : Prop :=
  (c.context = some .death → c.status = .CO_DEAD) ∧
  (c.launched = true → c.status ≠ .CO_NEW)

/-- The coroutine `a` is `CO_WAITING` and no unfinished coroutine records it as
its waiter: nothing can wake it. -/
def Orphan (rt : Runtime) (a : Nat) : Prop :=
  (∃ ac, rt.heap a = some ac ∧ ac.status = .CO_WAITING) ∧
  ∀ z zc, rt.heap z = some zc → zc.status ≠ .CO_DEAD → zc.waiter ≠ some a

/-! ## Sample states used to instantiate the theorems -/

/-- A descriptor with the given status, saved site and waiter. -/
def sampleCo (name : String) (st : co_status) (ctx : Option Site) (w : Option Nat) : co :=
  ⟨name, some 100, 0, st, w, ctx, true⟩

/-- Ready list `[1, 2, 3]`: coroutine 1 waits on 3, coroutines 2 and 3 are
suspended in a `co_yield` called from user code or running; 3 is current. -/
def sampleRt : Runtime :=
  ⟨store (store (store (fun _ => none)
      1 (some (sampleCo "a" .CO_WAITING (some (.wait 3)) none)))
      2 (some (sampleCo "b" .CO_RUNNING (some .user) none)))
      3 (some (sampleCo "c" .CO_RUNNING none (some 1))),
    some 3, ⟨[1, 2, 3], 8⟩⟩

/-- Ready list `[1, 2, 3]` of coroutines that only yield; 3 is current. -/
def sampleYielding : Runtime :=
  ⟨store (store (store (fun _ => none)
      1 (some (sampleCo "a" .CO_RUNNING (some .user) none)))
      2 (some (sampleCo "b" .CO_RUNNING (some .user) none)))
      3 (some (sampleCo "c" .CO_RUNNING none none)),
    some 3, ⟨[1, 2, 3], 8⟩⟩

/-- Ready list `[1, 2, 3]` in which coroutine 2 has finished; 3 is current. -/
def sampleDead : Runtime :=
  ⟨store (store (store (fun _ => none)
      1 (some (sampleCo "a" .CO_RUNNING (some .user) none)))
      2 (some (sampleCo "b" .CO_DEAD (some .death) none)))
      3 (some (sampleCo "c" .CO_RUNNING none none)),
    some 3, ⟨[1, 2, 3], 8⟩⟩

/-- The sample state `sampleRt` with a ready list of capacity 3, hence full. -/
def sampleFull : Runtime :=
  ⟨sampleRt.heap, sampleRt.current, ⟨[1, 2, 3], 3⟩⟩

/-- The state left by the startup constructor with capacity 8 and the main
descriptor at address 1. -/
def sampleRun0 : Runtime :=
  ⟨store (store (fun _ => none)
      1 (some ⟨"main", none, 0, .CO_NEW, none, none, false⟩))
      1 (some ⟨"main", none, 0, .CO_RUNNING, none, none, false⟩),
    some 1, ⟨[1], 8⟩⟩

/-- Then main has called `co_start("b", ...)`, which allocated address 2. -/
def sampleRun1 : Runtime :=
  ⟨store sampleRun0.heap 2 (some ⟨"b", some 100, 0, .CO_NEW, none, none, false⟩),
    some 1, ⟨[1, 2], 8⟩⟩

/-- Then main has called `co_wait` on 2: main is blocked and 2 was launched. -/
def sampleRun2 : Runtime :=
  ⟨store (store (store (store sampleRun1.heap
      2 (some ⟨"b", some 100, 0, .CO_NEW, some 1, none, false⟩))
      1 (some ⟨"main", none, 0, .CO_WAITING, none, none, false⟩))
      1 (some ⟨"main", none, 0, .CO_WAITING, none, some (.wait 2), false⟩))
      2 (some ⟨"b", some 100, 0, .CO_RUNNING, some 1, none, true⟩),
    some 2, ⟨[1, 2], 8⟩⟩

/-- Then the entry function of 2 has returned: 2 is finished and main has been
resumed inside its `co_wait`, at line 171. -/
def sampleRun3 : Runtime :=
  ⟨store (store (store sampleRun2.heap
      2 (some ⟨"b", some 100, 0, .CO_DEAD, some 1, none, true⟩))
      1 (some ⟨"main", none, 0, .CO_RUNNING, none, some (.wait 2), false⟩))
      2 (some ⟨"b", some 100, 0, .CO_DEAD, some 1, some .death, true⟩),
    some 1, ⟨[2, 1], 8⟩⟩

/-- Ready list `[1, 2]` in which coroutine 1 waits on 2 and coroutine 2 waits
on 1: nothing is runnable. -/
def sampleStuck : Runtime :=
  ⟨store (store (fun _ => none)
      1 (some (sampleCo "a" .CO_WAITING (some (.wait 2)) (some 2))))
      2 (some (sampleCo "b" .CO_WAITING (some (.wait 1)) (some 1))),
    some 2, ⟨[1, 2], 8⟩⟩

/-- After `sampleRun1`, main has also spawned coroutine 3. -/
def sampleWait2 : Runtime :=
  ⟨store sampleRun1.heap 3 (some ⟨"c", some 200, 0, .CO_NEW, none, none, false⟩),
    some 1, ⟨[1, 2, 3], 8⟩⟩

/-- Then main has called `co_wait` on 2: main is blocked, 2 was launched. -/
def sampleWait3 : Runtime :=
  ⟨store (store (store (store sampleWait2.heap
      2 (some ⟨"b", some 100, 0, .CO_NEW, some 1, none, false⟩))
      1 (some ⟨"main", none, 0, .CO_WAITING, none, none, false⟩))
      1 (some ⟨"main", none, 0, .CO_WAITING, none, some (.wait 2), false⟩))
      2 (some ⟨"b", some 100, 0, .CO_RUNNING, some 1, none, true⟩),
    some 2, ⟨[3, 1, 2], 8⟩⟩

/-- Then coroutine 2 has called `co_yield`: 3 was launched. -/
def sampleWait4 : Runtime :=
  ⟨store (store sampleWait3.heap
      2 (some ⟨"b", some 100, 0, .CO_RUNNING, some 1, some .user, true⟩))
      3 (some ⟨"c", some 200, 0, .CO_RUNNING, none, none, true⟩),
    some 3, ⟨[1, 2, 3], 8⟩⟩

/-- Then coroutine 3 has called `co_wait` on 2 as well: 3 is blocked, 2 has
been resumed, and the waiter recorded in 2 is now 3. -/
def sampleWait5 : Runtime :=
  ⟨store (store (store sampleWait4.heap
      2 (some ⟨"b", some 100, 0, .CO_RUNNING, some 3, some .user, true⟩))
      3 (some ⟨"c", some 200, 0, .CO_WAITING, none, none, true⟩))
      3 (some ⟨"c", some 200, 0, .CO_WAITING, none, some (.wait 2), true⟩),
    some 2, ⟨[3, 1, 2], 8⟩⟩

/-! ## A sample execution in which a released block is handed out again

Main (address 1) spawns `s` (2), `z` (3) and `t` (4). Coroutine `s` blocks in
`co_wait(t)`; `z` and `t` finish, and the death of `t` wakes `s`. Before `s`
is resumed main calls `co_wait(t)` itself, which releases block 4, and the
next `co_start` receives block 4 again, for a new coroutine `d`. -/

/-- The state in which a `co_yield`, a `co_wait` or an entry return leaves the
runtime when it returns (the empty state when it does not). -/
def stateOf : Res (Runtime × Pc) → Runtime
  | .ok (r, _) => r
  | _ => ⟨fun _ => none, none, ⟨[], 0⟩⟩

/-- The state in which a `co_start` that returns leaves the runtime. -/
def startedOf : Res (Option Nat × Runtime) → Runtime
  | .ok (_, r) => r
  | _ => ⟨fun _ => none, none, ⟨[], 0⟩⟩

/-- The state in which lines 171-181 leave the runtime when they complete. -/
def reclaimedOf : Res Runtime → Runtime
  | .ok r => r
  | _ => ⟨fun _ => none, none, ⟨[], 0⟩⟩

/-- Main spawns `s` at address 2. Ready list `[1, 2]`. -/
def reuse1 : Runtime := startedOf (co_start "s" (some 100) 0 (some 2) true sampleRun0)

/-- Main spawns `z` at address 3. Ready list `[1, 2, 3]`. -/
def reuse2 : Runtime := startedOf (co_start "z" (some 200) 0 (some 3) true reuse1)

/-- Main spawns `t` at address 4. Ready list `[1, 2, 3, 4]`. -/
def reuse3 : Runtime := startedOf (co_start "t" (some 300) 0 (some 4) true reuse2)

/-- Main calls `co_yield` and, being at the head, is resumed itself. Ready
list `[2, 3, 4, 1]`. -/
def reuse4 : Runtime := stateOf (co_yield 5 .user reuse3)

/-- Main calls `co_yield`: `s` is launched. Ready list `[3, 4, 1, 2]`. -/
def reuse5 : Runtime := stateOf (co_yield 5 .user reuse4)

/-- Coroutine `s` calls `co_wait(t)`: it is blocked, recorded as the waiter of
`t`, and `z` is launched. Ready list `[4, 1, 2, 3]`. -/
def reuse6 : Runtime := stateOf (co_wait 5 (some 4) reuse5)

/-- The entry function of `z` returns: `z` is `CO_DEAD` and `t` is launched.
Ready list `[1, 2, 3, 4]`. -/
def reuse7 : Runtime := stateOf (co_yield_return 5 reuse6)

/-- The entry function of `t` returns: `t` is `CO_DEAD`, its waiter `s` is
`CO_RUNNING` again, and main is resumed. Ready list `[2, 3, 4, 1]`. -/
def reuse8 : Runtime := stateOf (co_yield_return 5 reuse7)

/-- Leaving the sample execution after `reuse8`: main calls `co_wait(z)`, which
releases block 3. Ready list `[4, 1, 2]`. -/
def reuseJ9 : Runtime := stateOf (co_wait 5 (some 3) reuse8)

/-- Main calls `co_wait(t)` although `s`, woken inside its own `co_wait(t)`,
has not been resumed yet: block 4 is released. Ready list `[1, 2, 3]`. -/
def reuse9 : Runtime := stateOf (co_wait 5 (some 4) reuse8)

/-- Main spawns `d`, and `malloc` returns block 4 again. Ready list
`[1, 2, 3, 4]`. -/
def reuse10 : Runtime := startedOf (co_start "d" (some 400) 0 (some 4) true reuse9)

/-- Main calls `co_wait(z)`: block 3 is released. Ready list `[4, 1, 2]`. -/
def reuse11 : Runtime := stateOf (co_wait 5 (some 3) reuse10)

/-- Main calls `co_yield`: `d` is launched. Ready list `[1, 2, 4]`. -/
def reuse12 : Runtime := stateOf (co_yield 5 .user reuse11)

/-- Coroutine `d` calls `co_wait(s)`: it is blocked, recorded as the waiter of
`s`, and main is resumed. Ready list `[2, 4, 1]`. -/
def reuse13 : Runtime := stateOf (co_wait 5 (some 2) reuse12)

/-- Main calls `co_yield`: `s` is resumed inside its `co_wait(t)`, at line
171, with `coroutine` still equal to address 4. Ready list `[4, 1, 2]`. -/
def reuse14 : Runtime := stateOf (co_yield 5 .user reuse13)

/-- Lines 171-181 run in `s`: they find address 4 in the ready list and release
it, although it now holds the blocked coroutine `d`. Coroutine `s` still
records address 4 as its waiter. Ready list `[1, 2]`. -/
def reuse15 : Runtime := reclaimedOf (co_wait_reclaim 5 4 reuse14)

/-- Coroutine `s` calls `co_yield`: main is resumed. Ready list `[2, 1]`. -/
def reuse16 : Runtime := stateOf (co_yield 5 .user reuse15)

/-- Main spawns `e`, which again receives block 4. Ready list `[2, 1, 4]`. -/
def reuse17 : Runtime := startedOf (co_start "e" (some 500) 0 (some 4) true reuse16)

/-- Main calls `co_yield`: `s` is resumed. Ready list `[1, 4, 2]`. -/
def reuse18 : Runtime := stateOf (co_yield 5 .user reuse17)

/-- Coroutine `s` calls `co_yield`: main is resumed. Ready list `[4, 2, 1]`. -/
def reuse19 : Runtime := stateOf (co_yield 5 .user reuse18)

/-- Main calls `co_yield`: `e` is launched. Ready list `[2, 1, 4]`. -/
def reuse20 : Runtime := stateOf (co_yield 5 .user reuse19)

/-- First continuation: the entry function of `e` returns; `e` is `CO_DEAD`
and `s` is resumed. Ready list `[1, 4, 2]`. -/
def reuseD21 : Runtime := stateOf (co_yield_return 5 reuse20)

/-- Then the entry function of `s` returns: line 149 writes `CO_RUNNING` into
the waiter recorded in `s`, address 4, which is the finished coroutine `e`;
main is resumed. Ready list `[4, 2, 1]`. -/
def reuseD22 : Runtime := stateOf (co_yield_return 5 reuseD21)

/-- Second continuation: `e` calls `co_wait` on itself and is blocked; `s` is
resumed. Ready list `[1, 4, 2]`. -/
def reuseS21 : Runtime := stateOf (co_wait 5 (some 4) reuse20)

/-- Then the entry function of `s` returns: its recorded waiter, address 4, is
set `CO_RUNNING`; main is resumed. Ready list `[4, 2, 1]`. -/
def reuseS22 : Runtime := stateOf (co_yield_return 5 reuseS21)

/-- Main calls `co_yield`: `e` is resumed inside its `co_wait` on itself, at
line 171. Ready list `[2, 1, 4]`. -/
def reuseS23 : Runtime := stateOf (co_yield 5 .user reuseS22)

/-- Lines 171-181 run in `e` and release `e` itself. Ready list `[2, 1]`. -/
def reuseS24 : Runtime := reclaimedOf (co_wait_reclaim 5 4 reuseS23)

/-- Third continuation: `e` spawns `f` at address 3. Ready list
`[2, 1, 4, 3]`. -/
def reuseW21 : Runtime := startedOf (co_start "f" (some 600) 0 (some 3) true reuse20)

/-- Coroutine `e` calls `co_wait(f)`: it is blocked and `s` is resumed. Ready
list `[1, 4, 3, 2]`. -/
def reuseW22 : Runtime := stateOf (co_wait 5 (some 3) reuseW21)

/-- Coroutine `s` calls `co_yield`: main is resumed. Ready list
`[4, 3, 2, 1]`. -/
def reuseW23 : Runtime := stateOf (co_yield 5 .user reuseW22)

/-- Main calls `co_wait(f)` as well: main is blocked, the waiter recorded in
`f` is now main, and `f` is launched. Ready list `[2, 1, 4, 3]`. -/
def reuseW24 : Runtime := stateOf (co_wait 5 (some 3) reuseW23)

/-- Coroutine `f` calls `co_yield`: `s` is resumed. Ready list
`[1, 4, 3, 2]`. -/
def reuseW25 : Runtime := stateOf (co_yield 5 .user reuseW24)

/-- The entry function of `s` returns: its recorded waiter, address 4, is set
`CO_RUNNING`, and `e` is resumed inside its `co_wait(f)`, at line 171. Ready
list `[3, 2, 1, 4]`. -/
def reuseW26 : Runtime := stateOf (co_yield_return 5 reuseW25)

/-! # Properties -/

/-! ## The dispatch scan -/

theorem rotate_cons (a x : Nat) (xs : List Nat) (cap : Nat) :
    rotate a ⟨x :: xs, cap⟩ = (some x, ⟨xs ++ [a], cap⟩) := rfl

theorem runnable_iff (s : co_status) :
    runnable s = true ↔ (s = .CO_NEW ∨ s = .CO_RUNNING) := by
  cases s <;> simp [runnable]

theorem runnable_false_iff (s : co_status) :
    runnable s = false ↔ (s = .CO_WAITING ∨ s = .CO_DEAD) := by
  cases s <;> simp [runnable]

/-- The loop passes over a prefix of coroutines that are not runnable and
stops on the first runnable one; the items passed over are behind the rest. -/
theorem co_yield_scan_skip (h : Heap) (c : Nat) (cc : co) (hc : h c = some cc)
    (hr : runnable cc.status = true) (cap : Nat) :
    ∀ (pre post : List Nat) (fuel item : Nat) (rest : List Nat),
      (∀ a ∈ pre, ∃ ac, h a = some ac ∧ runnable ac.status = false) →
      item :: rest = pre ++ c :: post → pre.length < fuel →
      co_yield_scan h fuel item ⟨rest, cap⟩ = .ok (c, ⟨post ++ pre, cap⟩) := by
  intro pre
  induction pre with
  | nil =>
    intro post fuel item rest _ hl hf
    simp only [List.nil_append, List.cons.injEq] at hl
    obtain ⟨rfl, rfl⟩ := hl
    obtain ⟨f, rfl⟩ : ∃ f, fuel = f + 1 := ⟨fuel - 1, by simp at hf; omega⟩
    simp [co_yield_scan, hc, hr]
  | cons a pre ih =>
    intro post fuel item rest hpre hl hf
    simp only [List.cons_append, List.cons.injEq] at hl
    obtain ⟨rfl, rfl⟩ := hl
    obtain ⟨f, rfl⟩ : ∃ f, fuel = f + 1 := ⟨fuel - 1, by simp at hf; omega⟩
    obtain ⟨ac, ha, hna⟩ := hpre item (List.mem_cons_self _ _)
    obtain ⟨x, xs, hx⟩ : ∃ x xs, pre ++ c :: post = x :: xs := by
      cases pre <;> simp
    have hrec := ih (post ++ [item]) f x (xs ++ [item])
      (fun b hb => hpre b (List.mem_cons_of_mem _ hb))
      (by rw [← List.cons_append, ← hx]; simp)
      (by simp at hf; omega)
    simp only [co_yield_scan, ha, hna, hx, rotate_cons]
    simpa using hrec

/-- Whatever the loop stops on is allocated and runnable. -/
theorem co_yield_scan_runnable (h : Heap) :
    ∀ (fuel item : Nat) (q : Queue) (c : Nat) (q2 : Queue),
      co_yield_scan h fuel item q = .ok (c, q2) →
      ∃ cc, h c = some cc ∧ runnable cc.status = true := by
  intro fuel
  induction fuel with
  | zero => intro item q c q2 hs; simp [co_yield_scan] at hs
  | succ f ih =>
    intro item q c q2 hs
    unfold co_yield_scan at hs
    cases hi : h item with
    | none => simp [hi] at hs
    | some ic =>
      simp only [hi] at hs
      by_cases hr : runnable ic.status = true
      · simp only [hr, if_true, Res.ok.injEq, Prod.mk.injEq] at hs
        obtain ⟨rfl, _⟩ := hs
        exact ⟨ic, hi, hr⟩
      · simp only [hr] at hs
        cases hrot : rotate item q with
        | mk o q1 =>
          cases o with
          | none => simp [hrot] at hs
          | some next =>
            simp only [hrot] at hs
            exact ih next q1 c q2 hs

/-- The dispatch scan never writes a descriptor, and it leaves the chosen
coroutine in `current`. -/
theorem co_yield_pick_chosen (fuel : Nat) (s r : Runtime)
    (hp : co_yield_pick fuel s = .ok r) :
    r.heap = s.heap ∧
      ∃ x xc, r.current = some x ∧ s.heap x = some xc ∧ runnable xc.status = true := by
  unfold co_yield_pick at hp
  by_cases he : q_is_empty s.queue = true
  · simp [he] at hp
  · simp only [he] at hp
    cases hpop : q_pop s.queue with
    | mk o q1 =>
      cases o with
      | none => simp [hpop] at hp
      | some item =>
        simp only [hpop] at hp
        cases hs : co_yield_scan s.heap fuel item q1 with
        | ok a =>
          obtain ⟨c, q2⟩ := a
          simp only [hs, Bool.false_eq_true, if_false, Res.ok.injEq] at hp
          subst hp
          obtain ⟨cc, hc, hr⟩ := co_yield_scan_runnable s.heap fuel item q1 c q2 hs
          exact ⟨rfl, c, cc, rfl, hc, hr⟩
        | abort r0 => simp [hs] at hp
        | undef => simp [hs] at hp
        | spin => simp [hs] at hp

/-- The dispatch scan on a ready list `pre ++ [c] ++ post` whose prefix is not
runnable and whose `c` is runnable. -/
theorem co_yield_pick_eq (rt : Runtime) (pre post : List Nat) (c fuel : Nat)
    (hq : rt.queue.items = pre ++ [c] ++ post)
    (hpre : ∀ a ∈ pre, ∃ ac, rt.heap a = some ac ∧ runnable ac.status = false)
    (hc : ∃ cc, rt.heap c = some cc ∧ runnable cc.status = true)
    (hfuel : pre.length < fuel) :
    co_yield_pick fuel rt = .ok ⟨rt.heap, some c, ⟨post ++ pre ++ [c], rt.queue.cap⟩⟩ := by
  obtain ⟨cc, hcc, hr⟩ := hc
  obtain ⟨x, xs, hx⟩ : ∃ x xs, pre ++ [c] ++ post = x :: xs := by
    cases pre <;> simp
  have hitems : rt.queue.items = x :: xs := by rw [hq, hx]
  have hscan := co_yield_scan_skip rt.heap c cc hcc hr rt.queue.cap pre post fuel x xs hpre
    (by rw [← hx]; simp) hfuel
  have hpop : q_pop rt.queue = (some x, ⟨xs, rt.queue.cap⟩) := by
    simp [q_pop, hitems]
  have hne : q_is_empty rt.queue = false := by simp [q_is_empty, hitems]
  simp [co_yield_pick, hne, hpop, hscan, q_push]

/-- C1: on a ready list `pre ++ [c] ++ post` in which every coroutine of `pre`
is `CO_WAITING` or `CO_DEAD` and `c` is `CO_NEW` or `CO_RUNNING`, the dispatch
scan of `co_yield` (given a budget of more than `|pre|` loop tests) makes `c`
the current coroutine and leaves the ready list equal to `post ++ pre ++ [c]`,
without writing any descriptor; and in any state whatever, the coroutine the
scan chooses is allocated with status `CO_NEW` or `CO_RUNNING`, so never
`CO_WAITING` or `CO_DEAD`. -/
theorem co_yield_pick_rotates (rt : Runtime) (pre post : List Nat) (c fuel : Nat)
    (hq : rt.queue.items = pre ++ [c] ++ post)
    (hpre : ∀ a ∈ pre, ∃ ac, rt.heap a = some ac ∧
      (ac.status = .CO_WAITING ∨ ac.status = .CO_DEAD))
    (hc : ∃ cc, rt.heap c = some cc ∧ (cc.status = .CO_NEW ∨ cc.status = .CO_RUNNING))
    (hfuel : pre.length < fuel) :
    (∃ r, co_yield_pick fuel rt = .ok r ∧ r.current = some c ∧
        r.queue.items = post ++ pre ++ [c] ∧ r.heap = rt.heap) ∧
    (∀ (s r : Runtime) (n : Nat), co_yield_pick n s = .ok r →
        ∃ x xc, r.current = some x ∧ s.heap x = some xc ∧
          (xc.status = .CO_NEW ∨ xc.status = .CO_RUNNING) ∧
          xc.status ≠ .CO_WAITING ∧ xc.status ≠ .CO_DEAD) := by
  constructor
  · refine ⟨_, co_yield_pick_eq rt pre post c fuel hq ?_ ?_ hfuel, rfl, rfl, rfl⟩
    · intro a ha
      obtain ⟨ac, h1, h2⟩ := hpre a ha
      exact ⟨ac, h1, (runnable_false_iff _).2 h2⟩
    · obtain ⟨cc, h1, h2⟩ := hc
      exact ⟨cc, h1, (runnable_iff _).2 h2⟩
  · intro s r n hp
    obtain ⟨_, x, xc, h1, h2, h3⟩ := co_yield_pick_chosen n s r hp
    have h4 := (runnable_iff _).1 h3
    refine ⟨x, xc, h1, h2, h4, ?_, ?_⟩ <;>
      rcases h4 with h | h <;> simp [h]

/-- C1 at the sample state: coroutine 1 is passed over, coroutine 2 is
chosen. -/
theorem co_yield_pick_rotates_witness :
    (∃ r, co_yield_pick 2 sampleRt = .ok r ∧ r.current = some 2 ∧
        r.queue.items = [3] ++ [1] ++ [2] ∧ r.heap = sampleRt.heap) ∧
    (∀ (s r : Runtime) (n : Nat), co_yield_pick n s = .ok r →
        ∃ x xc, r.current = some x ∧ s.heap x = some xc ∧
          (xc.status = .CO_NEW ∨ xc.status = .CO_RUNNING) ∧
          xc.status ≠ .CO_WAITING ∧ xc.status ≠ .CO_DEAD) :=
  co_yield_pick_rotates sampleRt [1] [3] 2 2 rfl
    (by
      intro a ha
      simp only [List.mem_singleton] at ha
      subst ha
      exact ⟨_, rfl, Or.inl rfl⟩)
    ⟨_, rfl, Or.inr rfl⟩ (by decide)

/-! ## Round robin -/

theorem store_same (h : Heap) (p : Nat) (v : Option co) : store h p v p = v := by
  simp [store]

theorem store_other (h : Heap) (p a : Nat) (v : Option co) (hne : a ≠ p) :
    store h p v a = h a := by
  simp [store, hne]

/-- One `co_yield` from user code when the head of the ready list is
`CO_RUNNING` and suspended at a user call site (or is the caller itself). -/
theorem co_yield_head (rt : Runtime) (a : Nat) (rest : List Nat) (fuel : Nat)
    (hq : rt.queue.items = a :: rest) (hy : AllYielding rt (a :: rest)) (hf : 1 ≤ fuel) :
    ∃ r, co_yield fuel .user rt = .ok (r, .user) ∧ r.current = some a ∧
      r.queue.items = rest ++ [a] ∧ AllYielding r (rest ++ [a]) := by
  obtain ⟨⟨me, mc, hcur, hme⟩, hall⟩ := hy
  have hsave : co_yield_save .user rt = some ⟨store rt.heap me
      (some ⟨mc.name, mc.func, mc.arg, mc.status, mc.waiter, some .user, mc.launched⟩),
      rt.current, rt.queue⟩ := by
    simp [co_yield_save, hcur, hme]
  obtain ⟨ac, ha, hst, hctx⟩ := hall a (List.mem_cons_self _ _)
  -- the descriptor of `a` after the caller's context has been saved
  have hlive : ∀ b ∈ a :: rest, ∃ bc, store rt.heap me
      (some ⟨mc.name, mc.func, mc.arg, mc.status, mc.waiter, some .user, mc.launched⟩) b = some bc ∧
      bc.status = .CO_RUNNING ∧ (b ≠ a → bc.context = some .user) ∧
      (b = a → bc.context = some .user) := by
    intro b hb
    obtain ⟨bc, hb1, hb2, hb3⟩ := hall b hb
    by_cases hbm : b = me
    · subst hbm
      rw [hme] at hb1
      cases hb1
      exact ⟨_, store_same _ _ _, hb2, fun _ => rfl, fun _ => rfl⟩
    · refine ⟨bc, by rw [store_other _ _ _ _ hbm]; exact hb1, hb2, fun _ => ?_, fun _ => ?_⟩ <;>
        exact hb3 (by rw [hcur]; intro h; exact hbm (Option.some.inj h).symm)
  obtain ⟨ac1, ha1, hst1, _, hctx1⟩ := hlive a (List.mem_cons_self _ _)
  have hpick := co_yield_pick_eq ⟨store rt.heap me
      (some ⟨mc.name, mc.func, mc.arg, mc.status, mc.waiter, some .user, mc.launched⟩),
      rt.current, rt.queue⟩ [] rest a fuel (by simp [hq]) (by simp)
      ⟨ac1, ha1, by simp [hst1, runnable]⟩ (by simpa using hf)
  refine ⟨⟨store rt.heap me
      (some ⟨mc.name, mc.func, mc.arg, mc.status, mc.waiter, some .user, mc.launched⟩),
      some a, ⟨rest ++ [a], rt.queue.cap⟩⟩, ?_, rfl, rfl, ?_⟩
  · simp only [co_yield, hsave, hpick, co_yield_dispatch, ha1, hst1, hctx1 rfl]
    simp
  · refine ⟨⟨a, ac1, rfl, ha1⟩, ?_⟩
    intro b hb
    have hb' : b ∈ a :: rest := by
      simp only [List.mem_append, List.mem_singleton] at hb
      rcases hb with h | h
      · exact List.mem_cons_of_mem _ h
      · subst h; exact List.mem_cons_self _ _
    obtain ⟨bc, hb1, hb2, hb3, _⟩ := hlive b hb'
    refine ⟨bc, hb1, hb2, fun hne => hb3 ?_⟩
    intro h
    exact hne (by rw [h])

/-- After `|l1|` calls on a ready list `l1 ++ l2` of yielding coroutines, the
coroutines of `l1` have been dispatched in order and are behind `l2`. -/
theorem co_yield_times_prefix (fuel : Nat) (hf : 1 ≤ fuel) :
    ∀ (l1 l2 : List Nat) (rt : Runtime),
      rt.queue.items = l1 ++ l2 → AllYielding rt (l1 ++ l2) →
      ∃ r, co_yield_times fuel l1.length rt = .ok (l1, r) ∧
        r.queue.items = l2 ++ l1 ∧ (l1 ≠ [] → r.current = l1.getLast?) := by
  intro l1
  induction l1 with
  | nil =>
    intro l2 rt hq _
    exact ⟨rt, rfl, by simpa using hq, fun h => absurd rfl h⟩
  | cons a l1 ih =>
    intro l2 rt hq hy
    obtain ⟨r1, h1, hc1, hq1, hy1⟩ := co_yield_head rt a (l1 ++ l2) fuel hq hy hf
    have hq1' : r1.queue.items = l1 ++ (l2 ++ [a]) := by simp [hq1]
    have hy1' : AllYielding r1 (l1 ++ (l2 ++ [a])) := by
      simpa using hy1
    obtain ⟨r, h2, hq2, hc2⟩ := ih (l2 ++ [a]) r1 hq1' hy1'
    refine ⟨r, ?_, by simp [hq2], fun _ => ?_⟩
    · simp only [List.length_cons, co_yield_times, h1, hc1, h2]
    · cases l1 with
      | nil =>
        simp only [List.length_nil, co_yield_times, Res.ok.injEq, Prod.mk.injEq] at h2
        rw [← h2.2, hc1]
        rfl
      | cons b l =>
        rw [hc2 (by simp)]
        simp [List.getLast?_cons_cons]

/-- C2: on a ready list `l` of `N >= 1` distinct coroutines, all `CO_RUNNING`
and all suspended in (or about to call) `co_yield` from user code, `N`
consecutive `co_yield` calls dispatch exactly the coroutines of `l`, in
ready-list order, each once (the first `k` calls dispatch the first `k`
entries, for every `k <= N`), and after the `N` calls the ready list is `l`
again; the last one dispatched is the last entry, so for `N = 1` the single
coroutine resumes itself. -/
theorem co_yield_round_robin (rt : Runtime) (l : List Nat) (fuel : Nat)
    (hN : 1 ≤ l.length) (hq : rt.queue.items = l) (hnd : l.Nodup)
    (hy : AllYielding rt l) (hf : 1 ≤ fuel) :
    (∀ k, k ≤ l.length → ∃ r, co_yield_times fuel k rt = .ok (l.take k, r) ∧
        r.queue.items = l.drop k ++ l.take k) ∧
    (∃ trace r, co_yield_times fuel l.length rt = .ok (trace, r) ∧ trace = l ∧
        (∀ a ∈ l, trace.count a = 1) ∧ r.queue.items = l ∧ r.current = l.getLast?) := by
  constructor
  · intro k hk
    have hsplit : l = l.take k ++ l.drop k := (List.take_append_drop k l).symm
    obtain ⟨r, h1, h2, _⟩ := co_yield_times_prefix fuel hf (l.take k) (l.drop k) rt
      (by rw [hq]; exact hsplit) (by rw [← hsplit]; exact hy)
    rw [List.length_take, Nat.min_eq_left hk] at h1
    exact ⟨r, h1, h2⟩
  · obtain ⟨r, h1, h2, h3⟩ := co_yield_times_prefix fuel hf l [] rt
      (by simpa using hq) (by simpa using hy)
    refine ⟨l, r, h1, rfl, fun a ha => List.count_eq_one_of_mem hnd ha, by simpa using h2, ?_⟩
    apply h3
    intro h
    rw [h] at hN
    simp at hN

/-- C2 at the sample ready list `[1, 2, 3]`. -/
theorem co_yield_round_robin_witness :
    (∀ k, k ≤ [1, 2, 3].length → ∃ r, co_yield_times 1 k sampleYielding
        = .ok ([1, 2, 3].take k, r) ∧ r.queue.items = [1, 2, 3].drop k ++ [1, 2, 3].take k) ∧
    (∃ trace r, co_yield_times 1 [1, 2, 3].length sampleYielding = .ok (trace, r) ∧
        trace = [1, 2, 3] ∧ (∀ a ∈ [1, 2, 3], trace.count a = 1) ∧
        r.queue.items = [1, 2, 3] ∧ r.current = [1, 2, 3].getLast?) :=
  co_yield_round_robin sampleYielding [1, 2, 3] 1 (by decide) rfl (by decide)
    ⟨⟨3, _, rfl, rfl⟩, by
      intro a ha
      simp only [List.mem_cons, List.mem_singleton, List.not_mem_nil, or_false] at ha
      rcases ha with rfl | rfl | rfl
      · exact ⟨_, rfl, rfl, fun _ => rfl⟩
      · exact ⟨_, rfl, rfl, fun _ => rfl⟩
      · exact ⟨_, rfl, rfl, fun h => absurd rfl h⟩⟩
    (by decide)

/-! ## Marking in `co_wait` -/

/-- C4: when the target `t` is not `CO_DEAD`, `co_wait(t)` called by the
current coroutine `me` first writes `t.waiter = me` and `me.status =
CO_WAITING` and only then yields (from the site `wait t`); in that step every
descriptor other than those of `t` and `me` is untouched, the target keeps its
status and the caller its waiter (when they are two coroutines), no field other
than these two is written, and `current` and the ready list are unchanged. -/
theorem co_wait_mark_effect (fuel : Nat) (rt : Runtime) (t me : Nat) (tc mc : co)
    (hcur : rt.current = some me) (ht : rt.heap t = some tc) (hm : rt.heap me = some mc)
    (hnd : tc.status ≠ .CO_DEAD) :
    ∃ r, co_wait_mark t rt = some r ∧
      co_wait fuel (some t) rt = co_yield fuel (.wait t) r ∧
      (∃ tc1, r.heap t = some tc1 ∧ tc1.waiter = some me ∧
        (t ≠ me → tc1 = ⟨tc.name, tc.func, tc.arg, tc.status, some me, tc.context,
          tc.launched⟩)) ∧
      (∃ mc1, r.heap me = some mc1 ∧ mc1.status = .CO_WAITING ∧
        (t ≠ me → mc1 = ⟨mc.name, mc.func, mc.arg, .CO_WAITING, mc.waiter, mc.context,
          mc.launched⟩) ∧
        (t = me → mc1 = ⟨mc.name, mc.func, mc.arg, .CO_WAITING, some me, mc.context,
          mc.launched⟩)) ∧
      (∀ a, a ≠ t → a ≠ me → r.heap a = rt.heap a) ∧
      r.current = rt.current ∧ r.queue = rt.queue := by
  by_cases htm : t = me
  · subst htm
    rw [ht] at hm
    cases hm
    have hmark : co_wait_mark t rt = some ⟨store (store rt.heap t
        (some ⟨tc.name, tc.func, tc.arg, tc.status, some t, tc.context, tc.launched⟩)) t
        (some ⟨tc.name, tc.func, tc.arg, .CO_WAITING, some t, tc.context, tc.launched⟩),
        rt.current, rt.queue⟩ := by
      simp [co_wait_mark, ht, hcur, store_same]
    refine ⟨_, hmark, ?_, ?_, ?_, ?_, rfl, rfl⟩
    · simp [co_wait, ht, hnd, hmark]
    · exact ⟨_, store_same _ _ _, rfl, fun h => absurd rfl h⟩
    · exact ⟨_, store_same _ _ _, rfl, fun h => absurd rfl h, fun _ => rfl⟩
    · intro a h1 _
      simp [store, h1]
  · have hmt : me ≠ t := fun h => htm h.symm
    have hmark : co_wait_mark t rt = some ⟨store (store rt.heap t
        (some ⟨tc.name, tc.func, tc.arg, tc.status, some me, tc.context, tc.launched⟩)) me
        (some ⟨mc.name, mc.func, mc.arg, .CO_WAITING, mc.waiter, mc.context, mc.launched⟩),
        rt.current, rt.queue⟩ := by
      simp [co_wait_mark, ht, hcur, store_other _ _ _ _ hmt, hm]
    refine ⟨_, hmark, ?_, ?_, ?_, ?_, rfl, rfl⟩
    · simp [co_wait, ht, hnd, hmark]
    · exact ⟨_, by simp [store, htm], rfl, fun _ => rfl⟩
    · exact ⟨_, store_same _ _ _, rfl, fun _ => rfl, fun h => absurd h htm⟩
    · intro a h1 h2
      simp [store, h1, h2]

/-- C4 at the sample state: coroutine 3 waits on coroutine 2. -/
theorem co_wait_mark_effect_witness :
    ∃ r, co_wait_mark 2 sampleRt = some r ∧
      co_wait 5 (some 2) sampleRt = co_yield 5 (.wait 2) r ∧
      (∃ tc1, r.heap 2 = some tc1 ∧ tc1.waiter = some 3 ∧
        (2 ≠ 3 → tc1 = ⟨"b", some 100, 0, .CO_RUNNING, some 3, some .user, true⟩)) ∧
      (∃ mc1, r.heap 3 = some mc1 ∧ mc1.status = .CO_WAITING ∧
        (2 ≠ 3 → mc1 = ⟨"c", some 100, 0, .CO_WAITING, some 1, none, true⟩) ∧
        (2 = 3 → mc1 = ⟨"c", some 100, 0, .CO_WAITING, some 3, none, true⟩)) ∧
      (∀ a, a ≠ 2 → a ≠ 3 → r.heap a = sampleRt.heap a) ∧
      r.current = sampleRt.current ∧ r.queue = sampleRt.queue :=
  co_wait_mark_effect 5 sampleRt 2 3 (sampleCo "b" .CO_RUNNING (some .user) none)
    (sampleCo "c" .CO_RUNNING none (some 1)) rfl rfl rfl (by decide)

/-! ## The reclamation scan -/

/-- The loop of `co_wait` passes over a prefix that does not hold the target
and stops on the target; the items passed over are behind the rest. -/
theorem co_wait_scan_skip (t cap : Nat) :
    ∀ (pre post : List Nat) (fuel item : Nat) (rest : List Nat),
      t ∉ pre → item :: rest = pre ++ t :: post → pre.length < fuel →
      co_wait_scan t fuel item ⟨rest, cap⟩ = .ok ⟨post ++ pre, cap⟩ := by
  intro pre
  induction pre with
  | nil =>
    intro post fuel item rest _ hl hf
    simp only [List.nil_append, List.cons.injEq] at hl
    obtain ⟨rfl, rfl⟩ := hl
    obtain ⟨f, rfl⟩ : ∃ f, fuel = f + 1 := ⟨fuel - 1, by simp at hf; omega⟩
    simp [co_wait_scan]
  | cons a pre ih =>
    intro post fuel item rest hpre hl hf
    simp only [List.cons_append, List.cons.injEq] at hl
    obtain ⟨rfl, rfl⟩ := hl
    obtain ⟨f, rfl⟩ : ∃ f, fuel = f + 1 := ⟨fuel - 1, by simp at hf; omega⟩
    have hne : item ≠ t := fun h => hpre (by simp [h])
    obtain ⟨x, xs, hx⟩ : ∃ x xs, pre ++ t :: post = x :: xs := by
      cases pre <;> simp
    have hrec := ih (post ++ [item]) f x (xs ++ [item])
      (fun h => hpre (List.mem_cons_of_mem _ h))
      (by rw [← List.cons_append, ← hx]; simp)
      (by simp at hf; omega)
    simp only [co_wait_scan, hne, if_false, hx, rotate_cons]
    simpa using hrec

/-- The loop of `co_wait` never ends when the target is not in the list. -/
theorem co_wait_scan_absent (t : Nat) :
    ∀ (fuel item : Nat) (q : Queue), item ≠ t → t ∉ q.items →
      co_wait_scan t fuel item q = .spin := by
  intro fuel
  induction fuel with
  | zero => intro item q _ _; rfl
  | succ f ih =>
    intro item q hi hq
    obtain ⟨items, cap⟩ := q
    cases items with
    | nil =>
      simp only [co_wait_scan, hi, if_false, rotate, q_push, q_pop, List.nil_append]
      exact ih item ⟨[], cap⟩ hi (by simp)
    | cons x xs =>
      simp only [co_wait_scan, hi, if_false, rotate_cons]
      simp only [List.mem_cons, not_or] at hq
      exact ih x ⟨xs ++ [item], cap⟩ (fun h => hq.1 h.symm)
        (by simp [hq.2]; exact fun h => hi h.symm)

/-- Lines 171-181 on a ready list `pre ++ [t] ++ post` with `t` not in `pre`. -/
theorem co_wait_reclaim_eq (rt : Runtime) (pre post : List Nat) (t fuel : Nat) (tc : co)
    (hq : rt.queue.items = pre ++ [t] ++ post) (hpre : t ∉ pre)
    (ht : rt.heap t = some tc) (hfuel : pre.length < fuel) :
    co_wait_reclaim fuel t rt
      = .ok ⟨store rt.heap t none, rt.current, ⟨post ++ pre, rt.queue.cap⟩⟩ := by
  obtain ⟨x, xs, hx⟩ : ∃ x xs, pre ++ [t] ++ post = x :: xs := by
    cases pre <;> simp
  have hitems : rt.queue.items = x :: xs := by rw [hq, hx]
  have hscan := co_wait_scan_skip t rt.queue.cap pre post fuel x xs hpre
    (by rw [← hx]; simp) hfuel
  have hpop : q_pop rt.queue = (some x, ⟨xs, rt.queue.cap⟩) := by
    simp [q_pop, hitems]
  have hne : q_is_empty rt.queue = false := by simp [q_is_empty, hitems]
  simp [co_wait_reclaim, hne, hpop, hscan, ht]

/-- C5: on a ready list `pre ++ [t] ++ post` with `t` not in `pre`, the
reclamation scan of `co_wait(t)` (the pop of line 172 and the loop of lines
174-177, with a budget of more than `|pre|` loop tests) terminates with the
ready list equal to `post ++ pre`: the first entry of `t` is the one removed,
the length drops by one, and the other entries are kept in the same cyclic
order. When `t` is allocated, lines 171-181 as a whole end with that ready
list, release `t` and touch nothing else. -/
theorem co_wait_reclaim_rotates (rt : Runtime) (pre post : List Nat) (t fuel : Nat)
    (hq : rt.queue.items = pre ++ [t] ++ post) (hpre : t ∉ pre)
    (hfuel : pre.length < fuel) :
    (∃ x xs, q_pop rt.queue = (some x, ⟨xs, rt.queue.cap⟩) ∧
      co_wait_scan t fuel x ⟨xs, rt.queue.cap⟩ = .ok ⟨post ++ pre, rt.queue.cap⟩) ∧
    (post ++ pre).length + 1 = rt.queue.items.length ∧
    List.IsRotated (rt.queue.items.erase t) (post ++ pre) ∧
    List.Perm (t :: (post ++ pre)) rt.queue.items ∧
    (rt.heap t ≠ none →
      ∃ r, co_wait_reclaim fuel t rt = .ok r ∧ r.queue = ⟨post ++ pre, rt.queue.cap⟩ ∧
        r.current = rt.current ∧ r.heap t = none ∧ ∀ a, a ≠ t → r.heap a = rt.heap a) := by
  refine ⟨?_, ?_, ?_, ?_, ?_⟩
  · obtain ⟨x, xs, hx⟩ : ∃ x xs, pre ++ [t] ++ post = x :: xs := by
      cases pre <;> simp
    refine ⟨x, xs, by simp [q_pop, hq, hx], ?_⟩
    exact co_wait_scan_skip t rt.queue.cap pre post fuel x xs hpre (by rw [← hx]; simp) hfuel
  · simp only [hq, List.length_append, List.length_cons, List.length_nil]
    omega
  · have he : rt.queue.items.erase t = pre ++ post := by
      rw [hq, List.append_assoc, List.erase_append_right _ hpre]
      simp
    rw [he]
    exact List.isRotated_append
  · rw [hq]
    simp only [List.append_assoc, List.singleton_append]
    refine List.Perm.trans (List.Perm.cons t List.perm_append_comm) ?_
    exact List.perm_middle.symm
  · intro ht
    obtain ⟨tc, htc⟩ := Option.ne_none_iff_exists'.1 ht
    refine ⟨_, co_wait_reclaim_eq rt pre post t fuel tc hq hpre htc hfuel, rfl, rfl,
      store_same _ _ _, fun a ha => store_other _ _ _ _ ha⟩

/-- C5 at the sample state: coroutine 2 is taken out of `[1, 2, 3]`. -/
theorem co_wait_reclaim_rotates_witness :
    (∃ x xs, q_pop sampleDead.queue = (some x, ⟨xs, sampleDead.queue.cap⟩) ∧
      co_wait_scan 2 2 x ⟨xs, sampleDead.queue.cap⟩
        = .ok ⟨[3] ++ [1], sampleDead.queue.cap⟩) ∧
    ([3] ++ [1]).length + 1 = sampleDead.queue.items.length ∧
    List.IsRotated (sampleDead.queue.items.erase 2) ([3] ++ [1]) ∧
    List.Perm (2 :: ([3] ++ [1])) sampleDead.queue.items ∧
    (sampleDead.heap 2 ≠ none →
      ∃ r, co_wait_reclaim 2 2 sampleDead = .ok r ∧
        r.queue = ⟨[3] ++ [1], sampleDead.queue.cap⟩ ∧
        r.current = sampleDead.current ∧ r.heap 2 = none ∧
        ∀ a, a ≠ 2 → r.heap a = sampleDead.heap a) :=
  co_wait_reclaim_rotates sampleDead [1] [3] 2 2 rfl (by decide) (by decide)

/-! ## `co_wait` on a finished target -/

/-- With a `CO_DEAD` target `co_wait` is lines 171-181 alone. -/
theorem co_wait_dead_eq (rt : Runtime) (pre post : List Nat) (t fuel : Nat) (tc : co)
    (ht : rt.heap t = some tc) (hd : tc.status = .CO_DEAD)
    (hq : rt.queue.items = pre ++ [t] ++ post) (hpre : t ∉ pre)
    (hfuel : pre.length < fuel) :
    co_wait fuel (some t) rt
      = .ok (⟨store rt.heap t none, rt.current, ⟨post ++ pre, rt.queue.cap⟩⟩, .user) := by
  have hrec := co_wait_reclaim_eq rt pre post t fuel tc hq hpre ht hfuel
  simp [co_wait, ht, hd, hrec]

/-- C6: when the target `t` is already `CO_DEAD`, `co_wait(t)` runs lines
171-181 at once and returns to its caller: no context is saved and no
coroutine is dispatched (`current` is unchanged and control stays in user
code), every descriptor other than the one of `t` is left as it was (status,
waiter and all other fields), and the effect is that `t` is released and its
entry removed from the ready list `pre ++ [t] ++ post`, which becomes
`post ++ pre`: the list without `t`, in the same cyclic order. -/
theorem co_wait_dead_target (rt : Runtime) (pre post : List Nat) (t fuel : Nat) (tc : co)
    (ht : rt.heap t = some tc) (hd : tc.status = .CO_DEAD)
    (hq : rt.queue.items = pre ++ [t] ++ post) (hpre : t ∉ pre)
    (hfuel : pre.length < fuel) :
    ∃ r, co_wait fuel (some t) rt = .ok (r, .user) ∧
      r.current = rt.current ∧
      (∀ a, a ≠ t → r.heap a = rt.heap a) ∧
      r.heap t = none ∧
      r.queue.items = post ++ pre ∧
      List.IsRotated (rt.queue.items.erase t) r.queue.items ∧
      r.queue.cap = rt.queue.cap := by
  refine ⟨⟨store rt.heap t none, rt.current, ⟨post ++ pre, rt.queue.cap⟩⟩, ?_, rfl, ?_, ?_,
    rfl, ?_, rfl⟩
  · exact co_wait_dead_eq rt pre post t fuel tc ht hd hq hpre hfuel
  · intro a ha
    exact store_other _ _ _ _ ha
  · exact store_same _ _ _
  · have he : rt.queue.items.erase t = pre ++ post := by
      rw [hq, List.append_assoc, List.erase_append_right _ hpre]
      simp
    rw [he]
    exact List.isRotated_append

/-- C6 at the sample state: coroutine 3 waits on the finished coroutine 2. -/
theorem co_wait_dead_target_witness :
    ∃ r, co_wait 2 (some 2) sampleDead = .ok (r, .user) ∧
      r.current = sampleDead.current ∧
      (∀ a, a ≠ 2 → r.heap a = sampleDead.heap a) ∧
      r.heap 2 = none ∧
      r.queue.items = [3] ++ [1] ∧
      List.IsRotated (sampleDead.queue.items.erase 2) r.queue.items ∧
      r.queue.cap = sampleDead.queue.cap :=
  co_wait_dead_target sampleDead [1] [3] 2 2 (sampleCo "b" .CO_DEAD (some .death) none)
    rfl rfl rfl (by decide) (by decide)

/-! ## `co_start` -/

/-- C8: when both allocations succeed (the descriptor at a block `p` that is
not in use) and the ready list is not full, `co_start(name, func, arg)`
returns the handle `p` of a descriptor with status `CO_NEW`, no waiter, and
the given name, entry and argument; the ready list afterwards is the list
before with `p` appended at the tail; `current` is unchanged and every
descriptor that existed before is unchanged. -/
theorem co_start_success (name : String) (func : Option Nat) (arg p : Nat) (rt : Runtime)
    (hfresh : rt.heap p = none) (hroom : q_is_full rt.queue = false) :
    ∃ r, co_start name func arg (some p) true rt = .ok (some p, r) ∧
      (∃ c, r.heap p = some c ∧ c.status = .CO_NEW ∧ c.waiter = none ∧
        c.name = name ∧ c.func = func ∧ c.arg = arg) ∧
      r.queue.items = rt.queue.items ++ [p] ∧
      r.current = rt.current ∧
      (∀ a ac, rt.heap a = some ac → r.heap a = some ac) ∧
      (∀ a, a ≠ p → r.heap a = rt.heap a) := by
  refine ⟨⟨store rt.heap p (some ⟨name, func, arg, .CO_NEW, none, none, false⟩),
    rt.current, q_push rt.queue p⟩, ?_, ?_, rfl, rfl, ?_, ?_⟩
  · simp [co_start, hroom]
  · exact ⟨_, store_same _ _ _, rfl, rfl, rfl, rfl, rfl⟩
  · intro a ac ha
    have hne : a ≠ p := by
      intro h
      rw [h, hfresh] at ha
      cases ha
    simp only [store_other _ _ _ _ hne]
    exact ha
  · intro a ha
    exact store_other _ _ _ _ ha

/-- C8 at the sample state: a fourth coroutine is spawned at address 4. -/
theorem co_start_success_witness :
    ∃ r, co_start "d" (some 200) 7 (some 4) true sampleRt = .ok (some 4, r) ∧
      (∃ c, r.heap 4 = some c ∧ c.status = .CO_NEW ∧ c.waiter = none ∧
        c.name = "d" ∧ c.func = some 200 ∧ c.arg = 7) ∧
      r.queue.items = sampleRt.queue.items ++ [4] ∧
      r.current = sampleRt.current ∧
      (∀ a ac, sampleRt.heap a = some ac → r.heap a = some ac) ∧
      (∀ a, a ≠ 4 → r.heap a = sampleRt.heap a) :=
  co_start_success "d" (some 200) 7 4 sampleRt rfl rfl

/-- C9 fails for the queue-entry allocation: when the second `malloc` fails,
`co_start` does not abort but returns a null handle to its caller. -/
theorem co_start_item_failure_returns :
    (∃ r, co_start "d" (some 200) 7 (some 4) false sampleRt = .ok (none, r) ∧
      r.queue = sampleRt.queue) ∧
    ¬ ∃ r, co_start "d" (some 200) 7 (some 4) false sampleRt = .abort r := by
  constructor
  · exact ⟨_, rfl, rfl⟩
  · rintro ⟨r, h⟩
    simp [co_start] at h

/-- C9, amended: when the descriptor allocation fails `co_start` aborts on a
failed assertion with the state untouched; otherwise, when the queue-entry
allocation fails, it returns a null handle to its caller; otherwise, when the
ready list is at capacity, it aborts on a failed assertion. In all three cases
the ready list and `current` are left unchanged. -/
theorem co_start_failure (name : String) (func : Option Nat) (arg : Nat)
    (m1 : Option Nat) (m2 : Bool) (rt : Runtime)
    (hfail : m1 = none ∨ m2 = false ∨ q_is_full rt.queue = true) :
    (m1 = none → co_start name func arg m1 m2 rt = .abort rt) ∧
    (∀ p, m1 = some p → m2 = false →
      ∃ r, co_start name func arg m1 m2 rt = .ok (none, r) ∧
        r.queue = rt.queue ∧ r.current = rt.current) ∧
    (∀ p, m1 = some p → m2 = true →
      ∃ r, co_start name func arg m1 m2 rt = .abort r ∧
        r.queue = rt.queue ∧ r.current = rt.current) := by
  refine ⟨?_, ?_, ?_⟩
  · rintro rfl
    rfl
  · rintro p rfl rfl
    exact ⟨_, rfl, rfl, rfl⟩
  · rintro p rfl rfl
    have hfull : q_is_full rt.queue = true := by
      rcases hfail with h | h | h
      · cases h
      · cases h
      · exact h
    exact ⟨⟨store rt.heap p (some ⟨name, func, arg, .CO_NEW, none, none, false⟩),
      rt.current, rt.queue⟩, by simp [co_start, hfull], rfl, rfl⟩

/-- C9, amended, at the sample state whose ready list is full. -/
theorem co_start_failure_witness :
    (some 4 = none → co_start "d" (some 200) 7 (some 4) true sampleFull = .abort sampleFull) ∧
    (∀ p, some 4 = some p → true = false →
      ∃ r, co_start "d" (some 200) 7 (some 4) true sampleFull = .ok (none, r) ∧
        r.queue = sampleFull.queue ∧ r.current = sampleFull.current) ∧
    (∀ p, some 4 = some p → true = true →
      ∃ r, co_start "d" (some 200) 7 (some 4) true sampleFull = .abort r ∧
        r.queue = sampleFull.queue ∧ r.current = sampleFull.current) :=
  co_start_failure "d" (some 200) 7 (some 4) true sampleFull (Or.inr (Or.inr rfl))

/-! ## `co_wait` on a bad handle -/

/-- Lines 171-181 never end for a target that is not in the ready list. -/
theorem co_wait_reclaim_absent (rt : Runtime) (t fuel : Nat)
    (hne : rt.queue.items ≠ []) (ht : t ∉ rt.queue.items) :
    co_wait_reclaim fuel t rt = .spin := by
  obtain ⟨x, xs, hx⟩ : ∃ x xs, rt.queue.items = x :: xs := by
    cases h : rt.queue.items with
    | nil => exact absurd h hne
    | cons x xs => exact ⟨x, xs, rfl⟩
  have hpop : q_pop rt.queue = (some x, ⟨xs, rt.queue.cap⟩) := by
    simp [q_pop, hx]
  have hemp : q_is_empty rt.queue = false := by simp [q_is_empty, hx]
  rw [hx] at ht
  simp only [List.mem_cons, not_or] at ht
  have hscan := co_wait_scan_absent t fuel x ⟨xs, rt.queue.cap⟩ (fun h => ht.1 h.symm) ht.2
  simp [co_wait_reclaim, hemp, hpop, hscan]

/-- C10 fails for a reclaimed handle: after `co_wait(2)` has reclaimed the
finished coroutine 2, a second `co_wait(2)` meets no failing assertion; it
reads the released descriptor, and its scan of the ready list never finds the
handle, whatever the budget. -/
theorem co_wait_reclaimed_no_assert :
    ∃ r, co_wait 2 (some 2) sampleDead = .ok (r, .user) ∧
      2 ∉ r.queue.items ∧
      ∀ fuel, co_wait fuel (some 2) r = .undef ∧ co_wait_reclaim fuel 2 r = .spin ∧
        ¬ ∃ s, co_wait fuel (some 2) r = .abort s := by
  have h1 := co_wait_dead_eq sampleDead [1] [3] 2 2
    (sampleCo "b" .CO_DEAD (some .death) none) rfl rfl rfl (by decide) (by decide)
  have hu : ∀ fuel, co_wait fuel (some 2)
      ⟨store sampleDead.heap 2 none, sampleDead.current, ⟨[3] ++ [1], sampleDead.queue.cap⟩⟩
      = .undef := by
    intro fuel
    simp [co_wait, store_same]
  refine ⟨_, h1, by simp, fun fuel => ⟨hu fuel, ?_, ?_⟩⟩
  · exact co_wait_reclaim_absent _ 2 fuel (by simp) (by simp)
  · rintro ⟨s, hs⟩
    rw [hu fuel] at hs
    cases hs

/-- C10, amended: `co_wait` on a null handle fails an assertion with the
state (ready list, statuses) untouched; on a handle that has been reclaimed
(released, and no longer in the ready list) no assertion fails: the read of
the released descriptor is undefined, and the scan of lines 171-181 for such a
handle never ends on a non-empty ready list. -/
theorem co_wait_bad_handle (fuel : Nat) (rt : Runtime) :
    co_wait fuel none rt = .abort rt ∧
    ∀ t, rt.heap t = none → t ∉ rt.queue.items →
      co_wait fuel (some t) rt = .undef ∧
      (rt.queue.items ≠ [] → co_wait_reclaim fuel t rt = .spin) := by
  refine ⟨rfl, fun t ht hq => ⟨by simp [co_wait, ht], fun hne => ?_⟩⟩
  exact co_wait_reclaim_absent rt t fuel hne hq

/-- C10, amended, at the sample state with the unallocated handle 9. -/
theorem co_wait_bad_handle_witness :
    co_wait 4 none sampleRt = .abort sampleRt ∧
    (co_wait 4 (some 9) sampleRt = .undef ∧
      (sampleRt.queue.items ≠ [] → co_wait_reclaim 4 9 sampleRt = .spin)) :=
  ⟨(co_wait_bad_handle 4 sampleRt).1,
    (co_wait_bad_handle 4 sampleRt).2 9 rfl (by decide)⟩

/-! ## What one call does to the state -/

theorem rotate_some (item : Nat) (q : Queue) (next : Nat) (q1 : Queue)
    (h : rotate item q = (some next, q1)) :
    next :: q1.items = q.items ++ [item] ∧ q1.cap = q.cap := by
  obtain ⟨items, cap⟩ := q
  cases items with
  | nil =>
    simp only [rotate, q_push, q_pop, List.nil_append, Prod.mk.injEq, Option.some.injEq] at h
    obtain ⟨rfl, rfl⟩ := h
    simp
  | cons x xs =>
    simp only [rotate_cons, Prod.mk.injEq, Option.some.injEq] at h
    obtain ⟨rfl, rfl⟩ := h
    simp

theorem q_pop_some (q : Queue) (item : Nat) (q1 : Queue)
    (h : q_pop q = (some item, q1)) : q.items = item :: q1.items ∧ q1.cap = q.cap := by
  obtain ⟨items, cap⟩ := q
  cases items with
  | nil => simp [q_pop] at h
  | cons x xs =>
    simp only [q_pop, Prod.mk.injEq, Option.some.injEq] at h
    obtain ⟨rfl, rfl⟩ := h
    simp

/-- The loop of `co_yield` only permutes the items. -/
theorem co_yield_scan_perm (h : Heap) :
    ∀ (fuel item : Nat) (q : Queue) (c : Nat) (q2 : Queue),
      co_yield_scan h fuel item q = .ok (c, q2) →
      List.Perm (c :: q2.items) (item :: q.items) ∧ q2.cap = q.cap := by
  intro fuel
  induction fuel with
  | zero => intro item q c q2 hs; simp [co_yield_scan] at hs
  | succ f ih =>
    intro item q c q2 hs
    unfold co_yield_scan at hs
    cases hi : h item with
    | none => simp [hi] at hs
    | some ic =>
      simp only [hi] at hs
      by_cases hr : runnable ic.status = true
      · simp only [hr, if_true, Res.ok.injEq, Prod.mk.injEq] at hs
        obtain ⟨rfl, rfl⟩ := hs
        exact ⟨List.Perm.refl _, rfl⟩
      · simp only [hr] at hs
        cases hrot : rotate item q with
        | mk o q1 =>
          cases o with
          | none => simp [hrot] at hs
          | some next =>
            simp only [hrot] at hs
            obtain ⟨h1, h2⟩ := ih next q1 c q2 hs
            obtain ⟨h3, h4⟩ := rotate_some item q next q1 hrot
            refine ⟨?_, h2.trans h4⟩
            rw [h3] at h1
            exact h1.trans (List.perm_append_singleton _ _)

/-- The loop of `co_wait` only takes the target out of the items. -/
theorem co_wait_scan_perm (t : Nat) :
    ∀ (fuel item : Nat) (q q2 : Queue),
      co_wait_scan t fuel item q = .ok q2 →
      List.Perm (t :: q2.items) (item :: q.items) ∧ q2.cap = q.cap := by
  intro fuel
  induction fuel with
  | zero => intro item q q2 hs; simp [co_wait_scan] at hs
  | succ f ih =>
    intro item q q2 hs
    unfold co_wait_scan at hs
    by_cases hr : item = t
    · simp only [hr, if_true, Res.ok.injEq] at hs
      subst hs
      subst hr
      exact ⟨List.Perm.refl _, rfl⟩
    · simp only [hr, if_false] at hs
      cases hrot : rotate item q with
      | mk o q1 =>
        cases o with
        | none => simp [hrot] at hs
        | some next =>
          simp only [hrot] at hs
          obtain ⟨h1, h2⟩ := ih next q1 q2 hs
          obtain ⟨h3, h4⟩ := rotate_some item q next q1 hrot
          refine ⟨?_, h2.trans h4⟩
          rw [h3] at h1
          exact h1.trans (List.perm_append_singleton _ _)

/-- The dispatch scan: the state it leaves. -/
theorem co_yield_pick_ok (fuel : Nat) (s r : Runtime) (hp : co_yield_pick fuel s = .ok r) :
    r.heap = s.heap ∧ List.Perm r.queue.items s.queue.items ∧ r.queue.cap = s.queue.cap ∧
      ∃ x xc, r.current = some x ∧ s.heap x = some xc ∧ runnable xc.status = true ∧
        x ∈ r.queue.items := by
  unfold co_yield_pick at hp
  by_cases he : q_is_empty s.queue = true
  · simp [he] at hp
  · simp only [he] at hp
    cases hpop : q_pop s.queue with
    | mk o q1 =>
      cases o with
      | none => simp [hpop] at hp
      | some item =>
        simp only [hpop] at hp
        cases hs : co_yield_scan s.heap fuel item q1 with
        | ok a =>
          obtain ⟨c, q2⟩ := a
          simp only [hs, Bool.false_eq_true, if_false, Res.ok.injEq] at hp
          subst hp
          obtain ⟨cc, hc, hr⟩ := co_yield_scan_runnable s.heap fuel item q1 c q2 hs
          obtain ⟨hperm, hcap⟩ := co_yield_scan_perm s.heap fuel item q1 c q2 hs
          obtain ⟨hitems, hcap1⟩ := q_pop_some s.queue item q1 hpop
          refine ⟨rfl, ?_, hcap.trans hcap1, c, cc, rfl, hc, hr, by simp [q_push]⟩
          rw [hitems]
          simp only [q_push]
          exact (List.perm_append_singleton _ _).trans hperm
        | abort r0 => simp [hs] at hp
        | undef => simp [hs] at hp
        | spin => simp [hs] at hp

/-- The transfer of control: the state it leaves. -/
theorem co_yield_dispatch_ok (s r : Runtime) (pc : Pc)
    (hd : co_yield_dispatch s = .ok (r, pc)) :
    ∃ c cc, s.current = some c ∧ s.heap c = some cc ∧
      r.current = s.current ∧ r.queue = s.queue ∧
      ((cc.status = .CO_RUNNING ∧ r.heap = s.heap ∧
          ((cc.context = some .user ∧ pc = .user) ∨
            ∃ t, cc.context = some (.wait t) ∧ pc = .reclaim t)) ∨
        (cc.status = .CO_NEW ∧ pc = .user ∧
          r.heap = store s.heap c
            (some ⟨cc.name, cc.func, cc.arg, .CO_RUNNING, cc.waiter, cc.context, true⟩))) := by
  unfold co_yield_dispatch at hd
  cases hc : s.current with
  | none => simp [hc] at hd
  | some c =>
    simp only [hc] at hd
    cases hcc : s.heap c with
    | none => simp [hcc] at hd
    | some cc =>
      simp only [hcc] at hd
      refine ⟨c, cc, rfl, hcc, ?_⟩
      cases hst : cc.status with
      | CO_RUNNING =>
        simp only [hst] at hd
        cases hctx : cc.context with
        | none => simp [hctx] at hd
        | some site =>
          cases site with
          | user =>
            simp only [hctx, Res.ok.injEq, Prod.mk.injEq] at hd
            obtain ⟨rfl, rfl⟩ := hd
            exact ⟨hc, rfl, Or.inl ⟨rfl, rfl, Or.inl ⟨rfl, rfl⟩⟩⟩
          | wait t =>
            simp only [hctx, Res.ok.injEq, Prod.mk.injEq] at hd
            obtain ⟨rfl, rfl⟩ := hd
            exact ⟨hc, rfl, Or.inl ⟨rfl, rfl, Or.inr ⟨t, rfl, rfl⟩⟩⟩
          | death => simp [hctx] at hd
      | CO_NEW =>
        simp only [hst] at hd
        cases hf : cc.func with
        | none => simp [hf] at hd
        | some f =>
          simp only [hf, Res.ok.injEq, Prod.mk.injEq] at hd
          obtain ⟨rfl, rfl⟩ := hd
          exact ⟨rfl, rfl, Or.inr ⟨rfl, rfl, by simp [hf]⟩⟩
      | CO_WAITING => simp [hst] at hd
      | CO_DEAD => simp [hst] at hd

/-- Lines 171-181: the state they leave. -/
theorem co_wait_reclaim_ok (fuel t : Nat) (s r : Runtime)
    (hr : co_wait_reclaim fuel t s = .ok r) :
    r.heap = store s.heap t none ∧ s.heap t ≠ none ∧ r.current = s.current ∧
      List.Perm (t :: r.queue.items) s.queue.items ∧ r.queue.cap = s.queue.cap := by
  unfold co_wait_reclaim at hr
  by_cases he : q_is_empty s.queue = true
  · simp [he] at hr
  · simp only [he] at hr
    cases hpop : q_pop s.queue with
    | mk o q1 =>
      cases o with
      | none => simp [hpop] at hr
      | some item =>
        simp only [hpop] at hr
        cases hs : co_wait_scan t fuel item q1 with
        | ok q2 =>
          simp only [hs, Bool.false_eq_true, if_false] at hr
          cases ht : s.heap t with
          | none => simp [ht] at hr
          | some tc =>
            simp only [ht, Res.ok.injEq] at hr
            subst hr
            obtain ⟨hperm, hcap⟩ := co_wait_scan_perm t fuel item q1 q2 hs
            obtain ⟨hitems, hcap1⟩ := q_pop_some s.queue item q1 hpop
            refine ⟨rfl, by simp, rfl, ?_, hcap.trans hcap1⟩
            rw [hitems]
            exact hperm
        | abort r0 => simp [hs] at hr
        | undef => simp [hs] at hr
        | spin => simp [hs] at hr

/-! ## The invariant -/

/-- From the state in which the caller's context is saved, the dispatch scan
and the transfer of control lead to a state satisfying the invariant. -/
theorem Saved.dispatch (fuel : Nat) (s s2 r : Runtime) (pc : Pc) (hs : Saved s)
    (hp : co_yield_pick fuel s = .ok s2) (hd : co_yield_dispatch s2 = .ok (r, pc)) :
    Inv r pc := by
  obtain ⟨hheap, hperm, _, x, xc, hx, hxc, hxr, hxq⟩ := co_yield_pick_ok fuel s s2 hp
  obtain ⟨c, cc, hc, hcc, hrc, hrq, hcase⟩ := co_yield_dispatch_ok s2 r pc hd
  have hcx : c = x := by
    rw [hx] at hc
    exact (Option.some.inj hc).symm
  subst hcx
  rw [hheap] at hcc
  have hmem : ∀ a, a ∈ r.queue.items ↔ a ∈ s.queue.items := by
    intro a
    rw [hrq]
    exact hperm.mem_iff
  have hnd : r.queue.items.Nodup := by
    rw [hrq]
    exact hperm.nodup_iff.2 hs.sound.nodup
  have hcur : r.current = some c := by rw [hrc, hc]
  have hcq : c ∈ r.queue.items := by rw [hrq]; exact hxq
  rcases hcase with ⟨hst, hrh, hpc⟩ | ⟨hst, hpc, hrh⟩
  · -- a suspended coroutine is resumed
    rw [hheap] at hrh
    have hfin : ∀ t, Finished s t → Finished r t := by
      rintro t ⟨tc, h1, h2⟩
      exact ⟨tc, by rw [hrh]; exact h1, h2⟩
    refine ⟨⟨?_, hnd, ?_⟩, ⟨c, cc, hcur, by rw [hrh]; exact hcc, hst, hcq⟩, ?_, ?_, ?_⟩
    · intro a ha
      rw [hrh]
      exact hs.sound.qlive a ((hmem a).1 ha)
    · intro z zc w hz hzd hzw
      rw [hrh] at hz ⊢
      exact hs.sound.waiter z zc w hz hzd hzw
    · intro a ac t ha _ hast hactx
      rw [hrh] at ha
      exact hfin t (hs.pending a ac t ha hast hactx)
    · intro t ht
      rcases hpc with ⟨_, h2⟩ | ⟨t1, h1, h2⟩
      · rw [h2] at ht
        cases ht
      · rw [h2] at ht
        cases ht
        refine ⟨hfin t (hs.pending c cc t hcc hst h1), ?_⟩
        intro a ac ha hne hast hactx
        rw [hrh] at ha
        have hac := hs.sole a c ac cc t ha hcc hast hst hactx h1
        exact hne (by rw [hcur, hac])
    · intro a b ac bc t ha hb _ _ h1 h2 h3 h4
      rw [hrh] at ha hb
      exact hs.sole a b ac bc t ha hb h1 h2 h3 h4
  · -- a new coroutine is launched
    rw [hheap] at hrh
    have hlive : ∀ a, s.heap a ≠ none → r.heap a ≠ none := by
      intro a ha
      rw [hrh]
      by_cases hac : a = c
      · subst hac
        simp [store_same]
      · rw [store_other _ _ _ _ hac]
        exact ha
    have hfin : ∀ t, Finished s t → Finished r t := by
      rintro t ⟨tc, h1, h2⟩
      have htc : t ≠ c := by
        intro h
        subst h
        rw [hcc] at h1
        cases h1
        rw [hst] at h2
        cases h2
      exact ⟨tc, by rw [hrh, store_other _ _ _ _ htc]; exact h1, h2⟩
    refine ⟨⟨?_, hnd, ?_⟩, ⟨c, _, hcur, by rw [hrh]; exact store_same _ _ _, rfl, hcq⟩, ?_, ?_,
      ?_⟩
    · intro a ha
      exact hlive a (hs.sound.qlive a ((hmem a).1 ha))
    · intro z zc w hz hzd hzw
      have hold : ∃ zc0, s.heap z = some zc0 ∧ zc0.status ≠ .CO_DEAD ∧ zc0.waiter = some w := by
        by_cases hzc : z = c
        · subst hzc
          rw [hrh, store_same] at hz
          cases hz
          exact ⟨cc, hcc, by simp [hst], hzw⟩
        · rw [hrh, store_other _ _ _ _ hzc] at hz
          exact ⟨zc, hz, hzd, hzw⟩
      obtain ⟨zc0, h1, h2, h3⟩ := hold
      obtain ⟨wc, hw1, hw2, hw3⟩ := hs.sound.waiter z zc0 w h1 h2 h3
      have hwc : w ≠ c := by
        intro h
        subst h
        rw [hcc] at hw1
        cases hw1
        rw [hst] at hw2
        cases hw2
      exact ⟨wc, by rw [hrh, store_other _ _ _ _ hwc]; exact hw1, hw2, hw3⟩
    · intro a ac t ha hne hast hactx
      have hac : a ≠ c := by
        intro h
        exact hne (by rw [hcur, h])
      rw [hrh, store_other _ _ _ _ hac] at ha
      exact hfin t (hs.pending a ac t ha hast hactx)
    · intro t ht
      rw [hpc] at ht
      cases ht
    · intro a b ac bc t ha hb hna hnb h1 h2 h3 h4
      have hac : a ≠ c := fun h => hna (by rw [hcur, h])
      have hbc : b ≠ c := fun h => hnb (by rw [hcur, h])
      rw [hrh, store_other _ _ _ _ hac] at ha
      rw [hrh, store_other _ _ _ _ hbc] at hb
      exact hs.sole a b ac bc t ha hb h1 h2 h3 h4

/-- Lines 171-181 keep the invariant when the target is finished and no woken
coroutine other than the caller is waiting to reclaim it. -/
theorem Inv.reclaim (fuel t : Nat) (s r : Runtime) (pc : Pc) (hs : Inv s pc)
    (hg : Finished s t) (hset : Settled s t) (hr : co_wait_reclaim fuel t s = .ok r) :
    Inv r .user := by
  obtain ⟨hrh, _, hrc, hperm, _⟩ := co_wait_reclaim_ok fuel t s r hr
  have htq : t ∈ s.queue.items := hperm.mem_iff.1 (List.mem_cons_self _ _)
  obtain ⟨tc, htc, htd⟩ := hg
  have hnd2 : (t :: r.queue.items).Nodup := hperm.nodup_iff.2 hs.sound.nodup
  have htr : t ∉ r.queue.items := (List.nodup_cons.1 hnd2).1
  have hsub : ∀ a, a ∈ r.queue.items → a ∈ s.queue.items ∧ a ≠ t := by
    intro a ha
    refine ⟨hperm.mem_iff.1 (List.mem_cons_of_mem _ ha), ?_⟩
    intro h
    subst h
    exact htr ha
  have hkeep : ∀ a, a ∈ s.queue.items → a ≠ t → a ∈ r.queue.items := by
    intro a ha hne
    have := hperm.mem_iff.2 ha
    simp only [List.mem_cons] at this
    rcases this with h | h
    · exact absurd h hne
    · exact h
  have hfin : ∀ u, u ≠ t → Finished s u → Finished r u := by
    rintro u hut ⟨uc, h1, h2⟩
    exact ⟨uc, by rw [hrh, store_other _ _ _ _ hut]; exact h1, h2⟩
  obtain ⟨me, mc, hm1, hm2, hm3, hm4⟩ := hs.cur
  have hmt : me ≠ t := by
    intro h
    subst h
    rw [htc] at hm2
    cases hm2
    rw [htd] at hm3
    cases hm3
  refine ⟨⟨?_, (List.nodup_cons.1 hnd2).2, ?_⟩,
    ⟨me, mc, by rw [hrc]; exact hm1, by rw [hrh, store_other _ _ _ _ hmt]; exact hm2, hm3,
      hkeep me hm4 hmt⟩, ?_, ?_, ?_⟩
  · intro a ha
    obtain ⟨h1, h2⟩ := hsub a ha
    rw [hrh, store_other _ _ _ _ h2]
    exact hs.sound.qlive a h1
  · intro z zc w hz hzd hzw
    have hzt : z ≠ t := by
      intro h
      subst h
      rw [hrh, store_same] at hz
      cases hz
    rw [hrh, store_other _ _ _ _ hzt] at hz
    obtain ⟨wc, hw1, hw2, hw3⟩ := hs.sound.waiter z zc w hz hzd hzw
    have hwt : w ≠ t := by
      intro h
      subst h
      rw [htc] at hw1
      cases hw1
      rw [htd] at hw2
      cases hw2
    exact ⟨wc, by rw [hrh, store_other _ _ _ _ hwt]; exact hw1, hw2, hw3⟩
  · intro a ac u ha hne hast hactx
    have hat : a ≠ t := by
      intro h
      subst h
      rw [hrh, store_same] at ha
      cases ha
    rw [hrh, store_other _ _ _ _ hat] at ha
    rw [hrc] at hne
    have hut : u ≠ t := by
      intro h
      subst h
      exact hset a ac ha hne hast hactx
    exact hfin u hut (hs.pending a ac u ha hne hast hactx)
  · intro u hu
    cases hu
  · intro a b ac bc u ha hb hna hnb h1 h2 h3 h4
    have hat : a ≠ t := by
      intro h
      subst h
      rw [hrh, store_same] at ha
      cases ha
    have hbt : b ≠ t := by
      intro h
      subst h
      rw [hrh, store_same] at hb
      cases hb
    rw [hrh, store_other _ _ _ _ hat] at ha
    rw [hrh, store_other _ _ _ _ hbt] at hb
    rw [hrc] at hna hnb
    exact hs.sole a b ac bc u ha hb hna hnb h1 h2 h3 h4

/-- The function `co_yield` is the save of the context, the dispatch scan and
the transfer of control, in this order. -/
theorem co_yield_ok (fuel : Nat) (site : Site) (s r : Runtime) (pc : Pc)
    (hy : co_yield fuel site s = .ok (r, pc)) :
    ∃ me mc s2, s.current = some me ∧ s.heap me = some mc ∧
      co_yield_pick fuel ⟨store s.heap me
          (some ⟨mc.name, mc.func, mc.arg, mc.status, mc.waiter, some site, mc.launched⟩),
        s.current, s.queue⟩ = .ok s2 ∧
      co_yield_dispatch s2 = .ok (r, pc) := by
  unfold co_yield co_yield_save at hy
  rcases Option.eq_none_or_eq_some s.current with hc | ⟨me, hc⟩
  · simp [hc] at hy
  · rcases Option.eq_none_or_eq_some (s.heap me) with hm | ⟨mc, hm⟩
    · simp [hc, hm] at hy
    · simp only [hc, hm] at hy
      cases hp : co_yield_pick fuel ⟨store s.heap me
          (some ⟨mc.name, mc.func, mc.arg, mc.status, mc.waiter, some site, mc.launched⟩),
          some me, s.queue⟩ with
      | ok s2 =>
        rw [hp] at hy
        exact ⟨me, mc, s2, hc, hm, by rw [hc]; exact hp, hy⟩
      | abort r0 => rw [hp] at hy; cases hy
      | undef => rw [hp] at hy; cases hy
      | spin => rw [hp] at hy; cases hy

/-- Saving the caller's context gives a state from which the dispatch keeps
the invariant, provided the waiter links and the pending wake-ups are
consistent up to the caller's own context. -/
theorem Saved.of_save (site : Site) (s : Runtime) (me : Nat) (mc : co)
    (hcur : s.current = some me) (hme : s.heap me = some mc) (hmq : me ∈ s.queue.items)
    (hql : ∀ a ∈ s.queue.items, s.heap a ≠ none) (hnd : s.queue.items.Nodup)
    (hw : ∀ z zc w, s.heap z = some zc → zc.status ≠ .CO_DEAD → zc.waiter = some w →
      ∃ wc, s.heap w = some wc ∧ wc.status = .CO_WAITING ∧
        (w ≠ me → wc.context = some (.wait z)) ∧ (w = me → site = .wait z))
    (hp : ∀ a ac t, s.heap a = some ac → a ≠ me → ac.status = .CO_RUNNING →
      ac.context = some (.wait t) → Finished s t)
    (hsole : ∀ a b ac bc t, s.heap a = some ac → s.heap b = some bc → a ≠ me → b ≠ me →
      ac.status = .CO_RUNNING → bc.status = .CO_RUNNING →
      ac.context = some (.wait t) → bc.context = some (.wait t) → a = b)
    (hps : mc.status = .CO_RUNNING → ∀ t, site ≠ .wait t) :
    Saved ⟨store s.heap me
        (some ⟨mc.name, mc.func, mc.arg, mc.status, mc.waiter, some site, mc.launched⟩),
      s.current, s.queue⟩ := by
  have hfin : ∀ t, Finished s t → Finished ⟨store s.heap me
      (some ⟨mc.name, mc.func, mc.arg, mc.status, mc.waiter, some site, mc.launched⟩),
      s.current, s.queue⟩ t := by
    rintro t ⟨tc, h1, h2⟩
    by_cases htm : t = me
    · subst htm
      rw [hme] at h1
      cases h1
      exact ⟨_, store_same _ _ _, h2⟩
    · exact ⟨tc, by simp only [store_other _ _ _ _ htm]; exact h1, h2⟩
  refine ⟨⟨?_, hnd, ?_⟩, ⟨me, _, hcur, store_same _ _ _, hmq⟩, ?_, ?_⟩
  · intro a ha
    by_cases ham : a = me
    · subst ham
      simp [store_same]
    · simp only [store_other _ _ _ _ ham]
      exact hql a ha
  · intro z zc w hz hzd hzw
    have hold : ∃ zc0, s.heap z = some zc0 ∧ zc0.status ≠ .CO_DEAD ∧ zc0.waiter = some w := by
      by_cases hzm : z = me
      · subst hzm
        simp only [store_same] at hz
        cases hz
        exact ⟨mc, hme, hzd, hzw⟩
      · simp only [store_other _ _ _ _ hzm] at hz
        exact ⟨zc, hz, hzd, hzw⟩
    obtain ⟨zc0, h1, h2, h3⟩ := hold
    obtain ⟨wc, hw1, hw2, hw3, hw4⟩ := hw z zc0 w h1 h2 h3
    by_cases hwm : w = me
    · subst hwm
      rw [hme] at hw1
      cases hw1
      exact ⟨_, store_same _ _ _, hw2, by rw [hw4 rfl]⟩
    · exact ⟨wc, by simp only [store_other _ _ _ _ hwm]; exact hw1, hw2, hw3 hwm⟩
  · intro a ac t ha hast hactx
    by_cases ham : a = me
    · subst ham
      simp only [store_same] at ha
      cases ha
      simp only [Option.some.injEq] at hactx
      exact absurd hactx (hps hast t)
    · simp only [store_other _ _ _ _ ham] at ha
      exact hfin t (hp a ac t ha ham hast hactx)
  · intro a b ac bc t ha hb h1 h2 h3 h4
    have hnot : ∀ x xc, store s.heap me
        (some ⟨mc.name, mc.func, mc.arg, mc.status, mc.waiter, some site, mc.launched⟩) x
          = some xc → xc.status = .CO_RUNNING → xc.context = some (.wait t) →
        x ≠ me ∧ s.heap x = some xc := by
      intro x xc hx hxs hxc
      by_cases hxm : x = me
      · subst hxm
        rw [store_same] at hx
        cases hx
        simp only [Option.some.injEq] at hxc
        exact absurd hxc (hps hxs t)
      · rw [store_other _ _ _ _ hxm] at hx
        exact ⟨hxm, hx⟩
    obtain ⟨ha1, ha2⟩ := hnot a ac ha h1 h3
    obtain ⟨hb1, hb2⟩ := hnot b bc hb h2 h4
    exact hsole a b ac bc t ha2 hb2 ha1 hb1 h1 h2 h3 h4

/-- A `co_yield` from user code keeps the invariant. -/
theorem Inv.yield (fuel : Nat) (s r : Runtime) (pc : Pc) (hs : Inv s .user)
    (hy : co_yield fuel .user s = .ok (r, pc)) : Inv r pc := by
  obtain ⟨me, mc, s2, hc, hm, hp, hd⟩ := co_yield_ok fuel .user s r pc hy
  obtain ⟨me1, mc1, hc1, hm1, hst1, hq1⟩ := hs.cur
  have hmm : me1 = me := by
    rw [hc] at hc1
    exact (Option.some.inj hc1).symm
  subst hmm
  rw [hm] at hm1
  cases hm1
  refine Saved.dispatch fuel _ s2 r pc ?_ hp hd
  refine Saved.of_save .user s me1 mc hc hm hq1 hs.sound.qlive hs.sound.nodup ?_ ?_ ?_ ?_
  · intro z zc w hz hzd hzw
    obtain ⟨wc, hw1, hw2, hw3⟩ := hs.sound.waiter z zc w hz hzd hzw
    refine ⟨wc, hw1, hw2, fun _ => hw3, ?_⟩
    intro h
    subst h
    rw [hm] at hw1
    cases hw1
    rw [hst1] at hw2
    cases hw2
  · intro a ac t ha ham hast hactx
    exact hs.pending a ac t ha (by rw [hc]; intro h; exact ham (Option.some.inj h).symm)
      hast hactx
  · intro a b ac bc t ha hb ham hbm h1 h2 h3 h4
    exact hs.sole a b ac bc t ha hb
      (by rw [hc]; intro h; exact ham (Option.some.inj h).symm)
      (by rw [hc]; intro h; exact hbm (Option.some.inj h).symm) h1 h2 h3 h4
  · intro _ t ht
    cases ht

/-- A `co_start` that returns keeps the invariant, whatever unused block
`malloc` hands out. -/
theorem Inv.start (name : String) (func : Option Nat) (arg p : Nat) (m2 : Bool)
    (h : Option Nat) (s r : Runtime) (hs : Inv s .user) (hf : FreshBlock s p)
    (hst : co_start name func arg (some p) m2 s = .ok (h, r)) : Inv r .user := by
  have hfree : s.heap p = none := hf
  have hpq : p ∉ s.queue.items := fun hp => hs.sound.qlive p hp hfree
  have hview : r.heap = store s.heap p (some ⟨name, func, arg, .CO_NEW, none, none, false⟩) ∧
      r.current = s.current ∧
      (r.queue.items = s.queue.items ∨ r.queue.items = s.queue.items ++ [p]) := by
    unfold co_start at hst
    by_cases hm : m2 = false
    · simp only [hm, if_true, Res.ok.injEq, Prod.mk.injEq] at hst
      obtain ⟨_, rfl⟩ := hst
      exact ⟨rfl, rfl, Or.inl rfl⟩
    · simp only [hm, if_false] at hst
      by_cases hfull : q_is_full s.queue = true
      · simp [hfull] at hst
      · simp only [hfull, Bool.false_eq_true, if_false, Res.ok.injEq, Prod.mk.injEq] at hst
        obtain ⟨_, rfl⟩ := hst
        exact ⟨rfl, rfl, Or.inr rfl⟩
  obtain ⟨hrh, hrc, hrq⟩ := hview
  have hold : ∀ a ac, s.heap a = some ac → r.heap a = some ac := by
    intro a ac ha
    have hap : a ≠ p := by
      intro h
      subst h
      rw [hfree] at ha
      cases ha
    rw [hrh, store_other _ _ _ _ hap]
    exact ha
  have hmem : ∀ a, a ∈ r.queue.items → a ∈ s.queue.items ∨ a = p := by
    intro a ha
    rcases hrq with h | h
    · exact Or.inl (h ▸ ha)
    · rw [h] at ha
      simpa using ha
  have hmem2 : ∀ a, a ∈ s.queue.items → a ∈ r.queue.items := by
    intro a ha
    rcases hrq with h | h
    · exact h ▸ ha
    · rw [h]
      exact List.mem_append_left _ ha
  obtain ⟨me, mc, hm1, hm2, hm3, hm4⟩ := hs.cur
  have hback : ∀ a ac, a ≠ p → r.heap a = some ac → s.heap a = some ac := by
    intro a ac hap ha
    rw [hrh, store_other _ _ _ _ hap] at ha
    exact ha
  have hnew : ∀ ac, r.heap p = some ac → ac.status = .CO_NEW := by
    intro ac ha
    rw [hrh, store_same] at ha
    cases ha
    rfl
  refine ⟨⟨?_, ?_, ?_⟩, ⟨me, mc, by rw [hrc]; exact hm1, hold me mc hm2, hm3, hmem2 me hm4⟩,
    ?_, ?_, ?_⟩
  · intro a ha
    rcases hmem a ha with h | h
    · obtain ⟨ac, hac⟩ := Option.ne_none_iff_exists'.1 (hs.sound.qlive a h)
      rw [hold a ac hac]
      simp
    · subst h
      rw [hrh, store_same]
      simp
  · rcases hrq with h | h
    · rw [h]
      exact hs.sound.nodup
    · rw [h]
      refine List.Nodup.append hs.sound.nodup (List.nodup_singleton p) ?_
      intro a ha hb
      simp only [List.mem_singleton] at hb
      subst hb
      exact hpq ha
  · intro z zc w hz hzd hzw
    by_cases hzp : z = p
    · subst hzp
      rw [hrh, store_same] at hz
      cases hz
      cases hzw
    · rw [hrh, store_other _ _ _ _ hzp] at hz
      obtain ⟨wc, hw1, hw2, hw3⟩ := hs.sound.waiter z zc w hz hzd hzw
      exact ⟨wc, hold w wc hw1, hw2, hw3⟩
  · intro a ac t ha hne hast hactx
    by_cases hap : a = p
    · subst hap
      rw [hrh, store_same] at ha
      cases ha
      cases hast
    · rw [hrh, store_other _ _ _ _ hap] at ha
      rw [hrc] at hne
      obtain ⟨tc, h1, h2⟩ := hs.pending a ac t ha hne hast hactx
      exact ⟨tc, hold t tc h1, h2⟩
  · intro t ht
    cases ht
  · intro a b ac bc t ha hb hna hnb h1 h2 h3 h4
    have hap : a ≠ p := by
      intro h
      subst h
      rw [hnew ac ha] at h1
      cases h1
    have hbp : b ≠ p := by
      intro h
      subst h
      rw [hnew bc hb] at h2
      cases h2
    rw [hrc] at hna hnb
    exact hs.sole a b ac bc t (hback a ac hap ha) (hback b bc hbp hb) hna hnb h1 h2 h3 h4

/-- The state left by the startup constructor satisfies the invariant. -/
theorem Inv.startup (cap : Nat) (m1 : Option Nat) (m2 : Bool) (rt : Runtime)
    (hc : co_constructor (some (q_new cap)) m1 m2 = .ok rt) : Inv rt .user := by
  unfold co_constructor co_start at hc
  cases m1 with
  | none => simp at hc
  | some p =>
    cases m2 with
    | false => simp at hc
    | true =>
      by_cases hfull : q_is_full (q_new cap) = true
      · simp [hfull] at hc
      · simp only [hfull, if_false, Bool.false_eq_true, store_same, Res.ok.injEq,
          Bool.true_eq_false] at hc
        subst hc
        refine ⟨⟨?_, ?_, ?_⟩, ⟨p, _, rfl, store_same _ _ _, rfl, by simp [q_push, q_new]⟩,
          ?_, ?_, ?_⟩
        · intro a ha
          simp only [q_push, q_new, List.nil_append, List.mem_singleton] at ha
          subst ha
          simp [store_same]
        · simp [q_push, q_new]
        · intro z zc w hz _ hzw
          by_cases hzp : z = p
          · subst hzp
            simp only [store_same, Option.some.injEq] at hz
            subst hz
            cases hzw
          · simp [store, hzp] at hz
        · intro a ac t ha hne _ _
          by_cases hap : a = p
          · subst hap
            exact absurd rfl hne
          · simp [store, hap] at ha
        · intro t ht
          cases ht
        · intro a b ac bc t ha _ hne _ _ _ _ _
          by_cases hap : a = p
          · subst hap
            exact absurd rfl hne
          · simp [store, hap] at ha

/-- Lines 166-167 seen from each descriptor: the caller becomes `CO_WAITING`,
the target records the caller, and nothing else changes. -/
theorem co_wait_mark_view (s : Runtime) (t me : Nat) (tc mc : co)
    (hcur : s.current = some me) (ht : s.heap t = some tc) (hm : s.heap me = some mc) :
    ∃ s1, co_wait_mark t s = some s1 ∧ s1.current = s.current ∧ s1.queue = s.queue ∧
      (∃ mc1, s1.heap me = some mc1 ∧ mc1.status = .CO_WAITING ∧
        (t ≠ me → mc1.waiter = mc.waiter) ∧ (t = me → mc1.waiter = some me)) ∧
      (∀ a ac, a ≠ me → s.heap a = some ac → ∃ ac1, s1.heap a = some ac1 ∧
        ac1.status = ac.status ∧ ac1.context = ac.context ∧
        (a ≠ t → ac1.waiter = ac.waiter) ∧ (a = t → ac1.waiter = some me)) ∧
      (∀ a, s.heap a = none → s1.heap a = none) := by
  by_cases htm : t = me
  · subst htm
    rw [ht] at hm
    cases hm
    refine ⟨⟨store (store s.heap t
        (some ⟨tc.name, tc.func, tc.arg, tc.status, some t, tc.context, tc.launched⟩)) t
        (some ⟨tc.name, tc.func, tc.arg, .CO_WAITING, some t, tc.context, tc.launched⟩),
        s.current, s.queue⟩, ?_, rfl, rfl, ?_, ?_, ?_⟩
    · simp [co_wait_mark, ht, hcur, store_same]
    · exact ⟨_, store_same _ _ _, rfl, fun h => absurd rfl h, fun _ => rfl⟩
    · intro a ac ha hsa
      refine ⟨ac, by simp only [store_other _ _ _ _ ha]; exact hsa, rfl, rfl, fun _ => rfl,
        fun h => absurd h ha⟩
    · intro a ha
      have hat : a ≠ t := by
        intro h
        subst h
        rw [ht] at ha
        cases ha
      simp only [store_other _ _ _ _ hat]
      exact ha
  · have hmt : me ≠ t := fun h => htm h.symm
    refine ⟨⟨store (store s.heap t
        (some ⟨tc.name, tc.func, tc.arg, tc.status, some me, tc.context, tc.launched⟩)) me
        (some ⟨mc.name, mc.func, mc.arg, .CO_WAITING, mc.waiter, mc.context, mc.launched⟩),
        s.current, s.queue⟩, ?_, rfl, rfl, ?_, ?_, ?_⟩
    · simp [co_wait_mark, ht, hcur, store_other _ _ _ _ hmt, hm]
    · exact ⟨_, store_same _ _ _, rfl, fun _ => rfl, fun h => absurd h htm⟩
    · intro a ac ha hsa
      by_cases hat : a = t
      · have hac : ac = tc := by
          rw [hat, ht] at hsa
          exact (Option.some.inj hsa).symm
        subst hac
        refine ⟨⟨ac.name, ac.func, ac.arg, ac.status, some me, ac.context, ac.launched⟩, ?_,
          rfl, rfl, fun h => absurd hat h, fun _ => rfl⟩
        rw [hat]
        show store (store s.heap t _) me _ t = _
        rw [store_other _ _ _ _ htm, store_same]
      · refine ⟨ac, by simp only [store_other _ _ _ _ ha, store_other _ _ _ _ hat]; exact hsa,
          rfl, rfl, fun _ => rfl, fun h => absurd h hat⟩
    · intro a ha
      have hat : a ≠ t := by
        intro h
        subst h
        rw [ht] at ha
        cases ha
      have ham : a ≠ me := by
        intro h
        subst h
        rw [hm] at ha
        cases ha
      simp only [store_other _ _ _ _ ham, store_other _ _ _ _ hat]
      exact ha

/-- Lines 145-150 seen from each descriptor: the current coroutine becomes
`CO_DEAD`, its waiter `CO_RUNNING`, and nothing else changes. -/
theorem co_yield_death_view (s : Runtime) (me : Nat) (mc : co)
    (hcur : s.current = some me) (hm : s.heap me = some mc)
    (hw : ∀ w, mc.waiter = some w → w ≠ me ∧ ∃ wc, s.heap w = some wc) :
    ∃ s1, co_yield_death s = some s1 ∧ s1.current = s.current ∧ s1.queue = s.queue ∧
      s1.heap me = some ⟨mc.name, mc.func, mc.arg, .CO_DEAD, mc.waiter, mc.context,
        mc.launched⟩ ∧
      (∀ w wc, mc.waiter = some w → s.heap w = some wc →
        s1.heap w = some ⟨wc.name, wc.func, wc.arg, .CO_RUNNING, wc.waiter, wc.context,
          wc.launched⟩) ∧
      (∀ a, a ≠ me → mc.waiter ≠ some a → s1.heap a = s.heap a) := by
  rcases Option.eq_none_or_eq_some mc.waiter with hmw | ⟨w, hmw⟩
  · refine ⟨⟨store s.heap me
        (some ⟨mc.name, mc.func, mc.arg, .CO_DEAD, mc.waiter, mc.context, mc.launched⟩),
        s.current, s.queue⟩, ?_, rfl, rfl, ?_, ?_, ?_⟩
    · simp [co_yield_death, hcur, hm, hmw]
    · exact store_same _ _ _
    · intro w wc h
      rw [hmw] at h
      cases h
    · intro a ha _
      exact store_other _ _ _ _ ha
  · obtain ⟨hwm, wc, hwc⟩ := hw w hmw
    refine ⟨⟨store (store s.heap me
        (some ⟨mc.name, mc.func, mc.arg, .CO_DEAD, mc.waiter, mc.context, mc.launched⟩)) w
        (some ⟨wc.name, wc.func, wc.arg, .CO_RUNNING, wc.waiter, wc.context, wc.launched⟩),
        s.current, s.queue⟩, ?_, rfl, rfl, ?_, ?_, ?_⟩
    · simp [co_yield_death, hcur, hm, hmw, store_other _ _ _ _ hwm, hwc]
    · show store (store s.heap me _) w _ me = _
      rw [store_other _ _ _ _ (fun h => hwm h.symm), store_same]
    · intro w1 wc1 h1 h2
      rw [hmw] at h1
      cases h1
      rw [hwc] at h2
      cases h2
      exact store_same _ _ _
    · intro a ha hne
      have haw : a ≠ w := fun h => hne (by rw [h, hmw])
      show store (store s.heap me _) w _ a = _
      rw [store_other _ _ _ _ haw, store_other _ _ _ _ ha]

/-- None of the steps of `co_yield` releases a descriptor. -/
theorem co_yield_keeps (fuel : Nat) (site : Site) (s r : Runtime) (pc : Pc)
    (hy : co_yield fuel site s = .ok (r, pc)) (x : Nat) (hx : s.heap x ≠ none) :
    r.heap x ≠ none := by
  obtain ⟨me, mc, s2, _, _, hp, hd⟩ := co_yield_ok fuel site s r pc hy
  obtain ⟨hheap, _⟩ := co_yield_pick_ok fuel _ s2 hp
  obtain ⟨c, cc, _, _, _, _, hcase⟩ := co_yield_dispatch_ok s2 r pc hd
  have h2 : s2.heap x ≠ none := by
    rw [hheap]
    by_cases hxm : x = me
    · subst hxm
      simp [store_same]
    · simp only [store_other _ _ _ _ hxm]
      exact hx
  rcases hcase with ⟨_, hrh, _⟩ | ⟨_, _, hrh⟩
  · rw [hrh]
    exact h2
  · rw [hrh]
    by_cases hxc : x = c
    · subst hxc
      simp [store_same]
    · rw [store_other _ _ _ _ hxc]
      exact h2

/-- The two paths of `co_wait`. -/
theorem co_wait_ok (fuel t : Nat) (s r : Runtime) (pc : Pc)
    (hw : co_wait fuel (some t) s = .ok (r, pc)) :
    ∃ tc, s.heap t = some tc ∧
      ((tc.status ≠ .CO_DEAD ∧ ∃ s1, co_wait_mark t s = some s1 ∧
          co_yield fuel (.wait t) s1 = .ok (r, pc)) ∨
        (tc.status = .CO_DEAD ∧ pc = .user ∧ co_wait_reclaim fuel t s = .ok r)) := by
  unfold co_wait at hw
  rcases Option.eq_none_or_eq_some (s.heap t) with ht | ⟨tc, ht⟩
  · simp [ht] at hw
  · refine ⟨tc, ht, ?_⟩
    simp only [ht] at hw
    by_cases hd : tc.status = .CO_DEAD
    · right
      simp only [hd, ne_eq, not_true_eq_false, if_false] at hw
      cases hr : co_wait_reclaim fuel t s with
      | ok r1 =>
        rw [hr] at hw
        simp only [Res.ok.injEq, Prod.mk.injEq] at hw
        obtain ⟨rfl, rfl⟩ := hw
        exact ⟨hd, rfl, rfl⟩
      | abort r0 => rw [hr] at hw; cases hw
      | undef => rw [hr] at hw; cases hw
      | spin => rw [hr] at hw; cases hw
    · left
      simp only [ne_eq, hd, not_false_eq_true, if_true] at hw
      rcases Option.eq_none_or_eq_some (co_wait_mark t s) with hm | ⟨s1, hm⟩
      · simp [hm] at hw
      · simp only [hm] at hw
        exact ⟨hd, s1, hm, hw⟩

/-- A `co_wait` on a listed handle keeps the invariant, provided that, when
the target has finished, no coroutine woken by its death is still waiting to
reclaim it. -/
theorem Inv.wait (fuel t : Nat) (s r : Runtime) (pc : Pc) (hs : Inv s .user)
    (ho : Finished s t → Settled s t)
    (hw : co_wait fuel (some t) s = .ok (r, pc)) : Inv r pc := by
  obtain ⟨tc, ht, hcase⟩ := co_wait_ok fuel t s r pc hw
  rcases hcase with ⟨hnd, s1, hmark, hy⟩ | ⟨hd, hpc, hr⟩
  swap
  · subst hpc
    exact Inv.reclaim fuel t s r .user hs ⟨tc, ht, hd⟩ (ho ⟨tc, ht, hd⟩) hr
  obtain ⟨me, mc, hc, hm, hst, hq⟩ := hs.cur
  obtain ⟨s1', hmark', h1c, h1q, ⟨mc1, hm1, hst1, hwn, hws⟩, hfwd, hnone⟩ :=
    co_wait_mark_view s t me tc mc hc ht hm
  rw [hmark] at hmark'
  cases hmark'
  have hback : ∀ a ac1, a ≠ me → s1.heap a = some ac1 → ∃ ac, s.heap a = some ac ∧
      ac1.status = ac.status ∧ ac1.context = ac.context ∧
      (a ≠ t → ac1.waiter = ac.waiter) ∧ (a = t → ac1.waiter = some me) := by
    intro a ac1 ha h1
    rcases Option.eq_none_or_eq_some (s.heap a) with hsa | ⟨ac, hsa⟩
    · rw [hnone a hsa] at h1
      cases h1
    · obtain ⟨ac1', h2, h3⟩ := hfwd a ac ha hsa
      rw [h1] at h2
      cases h2
      exact ⟨ac, hsa, h3⟩
  have hnotw : ∀ w wc, s.heap w = some wc → wc.status = .CO_WAITING → w ≠ me := by
    intro w wc h1 h2 h
    subst h
    rw [hm] at h1
    cases h1
    rw [hst] at h2
    cases h2
  obtain ⟨me2, mc2, s2, hc2, hm2, hp, hd⟩ := co_yield_ok fuel (.wait t) s1 r pc hy
  have hme2 : me2 = me := by
    rw [h1c, hc] at hc2
    exact (Option.some.inj hc2).symm
  subst hme2
  rw [hm1] at hm2
  cases hm2
  refine Saved.dispatch fuel _ s2 r pc ?_ hp hd
  refine Saved.of_save (.wait t) s1 me2 mc1 (by rw [h1c, hc]) hm1 (by rw [h1q]; exact hq)
    ?_ (by rw [h1q]; exact hs.sound.nodup) ?_ ?_ ?_ ?_
  · intro a ha
    rw [h1q] at ha
    by_cases ham : a = me2
    · subst ham
      rw [hm1]
      simp
    · obtain ⟨ac, hac⟩ := Option.ne_none_iff_exists'.1 (hs.sound.qlive a ha)
      obtain ⟨ac1, h2, _⟩ := hfwd a ac ham hac
      rw [h2]
      simp
  · intro z zc w hz hzd hzw
    by_cases hzm : z = me2
    · subst hzm
      rw [hm1] at hz
      cases hz
      by_cases htm : t = z
      · subst htm
        have hwz : w = t := by
          rw [hws rfl] at hzw
          exact (Option.some.inj hzw).symm
        subst hwz
        exact ⟨_, hm1, hst1, fun h => absurd rfl h, fun _ => rfl⟩
      · rw [hwn htm] at hzw
        obtain ⟨wc, hw1, hw2, hw3⟩ := hs.sound.waiter z mc w hm (by rw [hst]; simp) hzw
        have hwm := hnotw w wc hw1 hw2
        obtain ⟨wc1, h2, h3, h4, _⟩ := hfwd w wc hwm hw1
        exact ⟨wc1, h2, by rw [h3, hw2], fun _ => by rw [h4, hw3], fun h => absurd h hwm⟩
    · obtain ⟨zc0, h1, h2, h3, h4, h5⟩ := hback z zc hzm hz
      by_cases hzt : z = t
      · have hwz : w = me2 := by
          rw [h5 hzt] at hzw
          exact (Option.some.inj hzw).symm
        subst hwz
        exact ⟨_, hm1, hst1, fun h => absurd rfl h, fun _ => by rw [hzt]⟩
      · rw [h4 hzt] at hzw
        obtain ⟨wc, hw1, hw2, hw3⟩ := hs.sound.waiter z zc0 w h1 (by rw [← h2]; exact hzd) hzw
        have hwm := hnotw w wc hw1 hw2
        obtain ⟨wc1, h6, h7, h8, _⟩ := hfwd w wc hwm hw1
        exact ⟨wc1, h6, by rw [h7, hw2], fun _ => by rw [h8, hw3], fun h => absurd h hwm⟩
  · intro a ac u ha ham hast hactx
    obtain ⟨ac0, h1, h2, h3, _⟩ := hback a ac ham ha
    have hg := hs.pending a ac0 u h1 (by rw [hc]; intro h; exact ham (Option.some.inj h).symm)
      (by rw [← h2]; exact hast) (by rw [← h3]; exact hactx)
    obtain ⟨uc, h4, h5⟩ := hg
    have hum : u ≠ me2 := by
      intro h
      subst h
      rw [hm] at h4
      cases h4
      rw [hst] at h5
      cases h5
    obtain ⟨uc1, h6, h7, _⟩ := hfwd u uc hum h4
    exact ⟨uc1, h6, by rw [h7, h5]⟩
  · intro a b ac bc u ha hb ham hbm k1 k2 k3 k4
    obtain ⟨ac0, a1, a2, a3, _⟩ := hback a ac ham ha
    obtain ⟨bc0, b1, b2, b3, _⟩ := hback b bc hbm hb
    exact hs.sole a b ac0 bc0 u a1 b1
      (by rw [hc]; intro h; exact ham (Option.some.inj h).symm)
      (by rw [hc]; intro h; exact hbm (Option.some.inj h).symm)
      (by rw [← a2]; exact k1) (by rw [← b2]; exact k2)
      (by rw [← a3]; exact k3) (by rw [← b3]; exact k4)
  · intro h
    rw [hst1] at h
    cases h

/-- The return of an entry function keeps the invariant. -/
theorem Inv.ret (fuel : Nat) (s r : Runtime) (pc : Pc) (hs : Inv s .user)
    (hr : co_yield_return fuel s = .ok (r, pc)) : Inv r pc := by
  obtain ⟨me, mc, hc, hm, hst, hq⟩ := hs.cur
  have hnotw : ∀ w wc, s.heap w = some wc → wc.status = .CO_WAITING → w ≠ me := by
    intro w wc h1 h2 h
    subst h
    rw [hm] at h1
    cases h1
    rw [hst] at h2
    cases h2
  have hwait : ∀ w, mc.waiter = some w →
      w ≠ me ∧ ∃ wc, s.heap w = some wc ∧ wc.status = .CO_WAITING ∧
        wc.context = some (.wait me) := by
    intro w hw
    obtain ⟨wc, hw1, hw2, hw3⟩ := hs.sound.waiter me mc w hm (by rw [hst]; simp) hw
    exact ⟨hnotw w wc hw1 hw2, wc, hw1, hw2, hw3⟩
  obtain ⟨s1, hdeath, h1c, h1q, hm1, hwoken, hsame⟩ :=
    co_yield_death_view s me mc hc hm (fun w hw => ⟨(hwait w hw).1, by
      obtain ⟨wc, h, _⟩ := (hwait w hw).2
      exact ⟨wc, h⟩⟩)
  have hy : co_yield fuel .death s1 = .ok (r, pc) := by
    unfold co_yield_return at hr
    rw [hdeath] at hr
    exact hr
  obtain ⟨me2, mc2, s2, hc2, hm2, hp, hd⟩ := co_yield_ok fuel .death s1 r pc hy
  have hme2 : me2 = me := by
    rw [h1c, hc] at hc2
    exact (Option.some.inj hc2).symm
  subst hme2
  rw [hm1] at hm2
  cases hm2
  -- every descriptor of the state after lines 145-150 comes from one before
  have hback : ∀ a ac1, a ≠ me2 → s1.heap a = some ac1 →
      (mc.waiter ≠ some a ∧ s.heap a = some ac1) ∨
      (mc.waiter = some a ∧ ac1.status = .CO_RUNNING ∧ ac1.context = some (.wait me2) ∧
        ∃ ac, s.heap a = some ac ∧ ac.status = .CO_WAITING ∧ ac1.waiter = ac.waiter) := by
    intro a ac1 ha h1
    by_cases hwa : mc.waiter = some a
    · obtain ⟨_, wc, hw1, hw2, hw3⟩ := hwait a hwa
      rw [hwoken a wc hwa hw1] at h1
      cases h1
      exact Or.inr ⟨hwa, rfl, hw3, wc, hw1, hw2, rfl⟩
    · rw [hsame a ha hwa] at h1
      exact Or.inl ⟨hwa, h1⟩
  refine Saved.dispatch fuel _ s2 r pc ?_ hp hd
  refine Saved.of_save .death s1 me2 _ (by rw [h1c, hc]) hm1 (by rw [h1q]; exact hq)
    ?_ (by rw [h1q]; exact hs.sound.nodup) ?_ ?_ ?_ ?_
  · intro a ha
    rw [h1q] at ha
    by_cases ham : a = me2
    · subst ham
      rw [hm1]
      simp
    · obtain ⟨ac, hac⟩ := Option.ne_none_iff_exists'.1 (hs.sound.qlive a ha)
      by_cases hwa : mc.waiter = some a
      · rw [hwoken a ac hwa hac]
        simp
      · rw [hsame a ham hwa, hac]
        simp
  · intro z zc w hz hzd hzw
    have hzm : z ≠ me2 := by
      intro h
      subst h
      rw [hm1] at hz
      cases hz
      exact hzd rfl
    have hold : ∃ zc0, s.heap z = some zc0 ∧ zc0.status ≠ .CO_DEAD ∧ zc0.waiter = some w := by
      rcases hback z zc hzm hz with ⟨_, h⟩ | ⟨_, _, _, ac, h1, h2, h3⟩
      · exact ⟨zc, h, hzd, hzw⟩
      · exact ⟨ac, h1, by rw [h2]; simp, by rw [← h3]; exact hzw⟩
    obtain ⟨zc0, h1, h2, h3⟩ := hold
    obtain ⟨wc, hw1, hw2, hw3⟩ := hs.sound.waiter z zc0 w h1 h2 h3
    have hwm := hnotw w wc hw1 hw2
    have hnw : mc.waiter ≠ some w := by
      intro h
      obtain ⟨_, wc', h4, _, h5⟩ := hwait w h
      rw [hw1] at h4
      cases h4
      rw [hw3] at h5
      simp only [Option.some.injEq, Site.wait.injEq] at h5
      exact hzm h5
    exact ⟨wc, by rw [hsame w hwm hnw]; exact hw1, hw2, fun _ => hw3, fun h => absurd h hwm⟩
  · intro a ac u ha ham hast hactx
    rcases hback a ac ham ha with ⟨_, h⟩ | ⟨_, _, h2, _⟩
    · have hg := hs.pending a ac u h
        (by rw [hc]; intro h'; exact ham (Option.some.inj h').symm) hast hactx
      obtain ⟨uc, h4, h5⟩ := hg
      have hum : u ≠ me2 := by
        intro h'
        subst h'
        rw [hm] at h4
        cases h4
        rw [hst] at h5
        cases h5
      have hnu : mc.waiter ≠ some u := by
        intro h'
        obtain ⟨_, wc', h6, h7, _⟩ := hwait u h'
        rw [h4] at h6
        cases h6
        rw [h5] at h7
        cases h7
      exact ⟨uc, by rw [hsame u hum hnu]; exact h4, h5⟩
    · rw [hactx] at h2
      simp only [Option.some.injEq, Site.wait.injEq] at h2
      subst h2
      exact ⟨_, hm1, rfl⟩
  · intro a b ac bc u ha hb ham hbm k1 k2 k3 k4
    have hcura : s.current ≠ some a := by
      rw [hc]
      intro h
      exact ham (Option.some.inj h).symm
    have hcurb : s.current ≠ some b := by
      rw [hc]
      intro h
      exact hbm (Option.some.inj h).symm
    -- a coroutine already woken cannot wait on the coroutine that now dies
    have hnot : ∀ x xc, s.heap x = some xc → s.current ≠ some x →
        xc.status = .CO_RUNNING → xc.context ≠ some (.wait me2) := by
      intro x xc hx hxc hxs hxw
      obtain ⟨mc', h4, h5⟩ := hs.pending x xc me2 hx hxc hxs hxw
      rw [hm] at h4
      cases h4
      rw [hst] at h5
      cases h5
    rcases hback a ac ham ha with ⟨_, a1⟩ | ⟨a1, _, a2, _⟩
    · rcases hback b bc hbm hb with ⟨_, b1⟩ | ⟨b1, _, b2, _⟩
      · exact hs.sole a b ac bc u a1 b1 hcura hcurb k1 k2 k3 k4
      · rw [k4] at b2
        simp only [Option.some.injEq, Site.wait.injEq] at b2
        subst b2
        exact absurd k3 (hnot a ac a1 hcura k1)
    · rcases hback b bc hbm hb with ⟨_, b1⟩ | ⟨b1, _, _⟩
      · rw [k3] at a2
        simp only [Option.some.injEq, Site.wait.injEq] at a2
        subst a2
        exact absurd k4 (hnot b bc b1 hcurb k2)
      · rw [a1] at b1
        exact Option.some.inj b1
  · intro h
    cases h

/-- An orderly transition keeps the invariant. -/
theorem Inv.orderly_step (rt : Runtime) (pc : Pc) (l : Label) (r : Runtime) (pc1 : Pc)
    (hinv : Inv rt pc) (hs : Step rt pc l r pc1) (ho : Orderly rt pc l) : Inv r pc1 := by
  cases hs with
  | start name func arg p m2 h0 _ hf hst0 => exact Inv.start name func arg p m2 h0 rt r hinv hf hst0
  | yield fuel _ _ hy => exact Inv.yield fuel rt r pc1 hinv hy
  | block fuel t tc _ _ _ htc hnd hw =>
    refine Inv.wait fuel t rt r pc1 hinv ?_ hw
    rintro ⟨tc1, h1, h2⟩
    rw [htc] at h1
    cases h1
    exact absurd h2 hnd
  | join fuel t tc _ _ _ htc hd hw =>
    exact Inv.wait fuel t rt r pc1 hinv (fun _ => ho rfl t rfl) hw
  | ret fuel me0 mc0 _ _ _ _ _ hr => exact Inv.ret fuel rt r pc1 hinv hr
  | reclaim fuel t _ hr =>
    exact Inv.reclaim fuel t rt r (.reclaim t) hinv (hinv.resumed t rfl).1
      (hinv.resumed t rfl).2 hr

/-- Every state reached by an orderly execution satisfies the invariant. -/
theorem Disciplined.inv (rt : Runtime) (pc : Pc) (h : Disciplined rt pc) : Inv rt pc := by
  induction h with
  | startup cap m1 m2 rt hc => exact Inv.startup cap m1 m2 rt hc
  | step rt pc l r pc1 _ hs ho ih => exact Inv.orderly_step rt pc l r pc1 ih hs ho

/-! ## Transitions and reachability -/

/-- A transition from a reachable state leads to a reachable state. -/
theorem Reachable.step (rt : Runtime) (pc : Pc) (l : Label) (r : Runtime) (pc1 : Pc)
    (h : Reachable rt pc) (hs : Step rt pc l r pc1) : Reachable r pc1 := by
  cases hs with
  | start => exact Reachable.start _ _ _ _ _ _ _ _ h (by assumption) (by assumption)
  | yield => exact Reachable.yield _ _ _ _ h (by assumption)
  | block => exact Reachable.wait _ _ _ _ _ h (by assumption) (by assumption)
  | join => exact Reachable.wait _ _ _ _ _ h (by assumption) (by assumption)
  | ret =>
    exact Reachable.ret _ _ _ _ _ _ h (by assumption) (by assumption) (by assumption)
      (by assumption)
  | reclaim => exact Reachable.reclaim _ _ _ _ h (by assumption)

/-- Induction over the reachable states, one transition at a time. -/
theorem Reachable.induct (P : Runtime → Pc → Prop)
    (h0 : ∀ cap m1 m2 rt, co_constructor (some (q_new cap)) m1 m2 = .ok rt → P rt .user)
    (hs : ∀ rt pc l r pc1, Reachable rt pc → P rt pc → Step rt pc l r pc1 → P r pc1) :
    ∀ rt pc, Reachable rt pc → P rt pc := by
  intro rt pc h
  induction h with
  | startup cap m1 m2 rt hc => exact h0 cap m1 m2 rt hc
  | start rt name func arg p m2 h r hr hf hst ih =>
    exact hs rt .user _ r .user hr ih (Step.start rt name func arg p m2 h r hf hst)
  | yield rt fuel r pc hr hy ih => exact hs rt .user _ r pc hr ih (Step.yield rt fuel r pc hy)
  | wait rt fuel t r pc hr ht hw ih =>
    obtain ⟨tc, htc, _⟩ := co_wait_ok fuel t rt r pc hw
    by_cases hd : tc.status = .CO_DEAD
    · exact hs rt .user _ r pc hr ih (Step.join rt fuel t tc r pc ht htc hd hw)
    · exact hs rt .user _ r pc hr ih (Step.block rt fuel t tc r pc ht htc hd hw)
  | ret rt fuel me mc r pc hr h1 h2 h3 hret ih =>
    exact hs rt .user _ r pc hr ih (Step.ret rt fuel me mc r pc h1 h2 h3 hret)
  | reclaim rt fuel t r hr hrec ih =>
    exact hs rt (.reclaim t) _ r .user hr ih (Step.reclaim rt fuel t r hrec)

/-- A state reached later from a reachable state is reachable. -/
theorem Later.reachable (rt : Runtime) (pc : Pc) (ls : List Label) (r : Runtime) (pc1 : Pc)
    (h : Reachable rt pc) (hl : Later rt pc ls r pc1) : Reachable r pc1 := by
  induction hl with
  | refl => exact h
  | next ls r1 pc1 l r2 pc2 _ hs ih => exact Reachable.step r1 pc1 l r2 pc2 ih hs

/-- An orderly execution is an execution. -/
theorem Disciplined.is_reachable (rt : Runtime) (pc : Pc) (h : Disciplined rt pc) :
    Reachable rt pc := by
  induction h with
  | startup cap m1 m2 rt hc => exact Reachable.startup cap m1 m2 rt hc
  | step rt pc l r pc1 _ hs _ ih => exact Reachable.step rt pc l r pc1 ih hs

/-- A sequence of orderly transitions is a sequence of transitions. -/
theorem Onward.to_later (rt : Runtime) (pc : Pc) (ls : List Label) (r : Runtime) (pc1 : Pc)
    (h : Onward rt pc ls r pc1) : Later rt pc ls r pc1 := by
  induction h with
  | refl => exact Later.refl _ _
  | next ls r1 pc1 l r2 pc2 _ hs _ ih => exact Later.next _ _ ls r1 pc1 l r2 pc2 ih hs

/-- Orderly transitions from the state of an orderly execution continue it. -/
theorem Onward.disciplined (rt : Runtime) (pc : Pc) (ls : List Label) (r : Runtime) (pc1 : Pc)
    (h : Disciplined rt pc) (hl : Onward rt pc ls r pc1) : Disciplined r pc1 := by
  induction hl with
  | refl => exact h
  | next ls r1 pc1 l r2 pc2 _ hs ho ih => exact Disciplined.step r1 pc1 l r2 pc2 ih hs ho

/-- A transition that reclaims nothing is orderly. -/
theorem orderly_quiet (rt : Runtime) (pc : Pc) : Orderly rt pc .quiet :=
  fun _ _ h => by cases h

/-- A `co_start` is orderly. -/
theorem orderly_created (rt : Runtime) (pc : Pc) (p : Nat) : Orderly rt pc (.created p) :=
  fun _ _ h => by cases h

/-- The completion of a resumed `co_wait` is orderly. -/
theorem orderly_resumed (rt : Runtime) (t : Nat) (l : Label) : Orderly rt (.reclaim t) l :=
  fun h => by cases h

/-! ## A sample execution -/

theorem sampleRun0_reachable : Reachable sampleRun0 .user :=
  Reachable.startup 8 (some 1) true sampleRun0 rfl

theorem sampleRun1_reachable : Reachable sampleRun1 .user :=
  Reachable.start sampleRun0 "b" (some 100) 0 2 true (some 2) sampleRun1
    sampleRun0_reachable rfl rfl

theorem sampleRun2_reachable : Reachable sampleRun2 .user :=
  Reachable.wait sampleRun1 2 2 sampleRun2 .user sampleRun1_reachable (by decide) rfl

theorem sampleRun3_reachable : Reachable sampleRun3 (.reclaim 2) :=
  Reachable.ret sampleRun2 2 2 ⟨"b", some 100, 0, .CO_RUNNING, some 1, none, true⟩
    sampleRun3 (.reclaim 2) sampleRun2_reachable rfl rfl rfl rfl

theorem sampleRun01_step : Step sampleRun0 .user (.created 2) sampleRun1 .user :=
  Step.start sampleRun0 "b" (some 100) 0 2 true (some 2) sampleRun1 rfl rfl

theorem sampleRun12_step : Step sampleRun1 .user .quiet sampleRun2 .user :=
  Step.block sampleRun1 2 2 ⟨"b", some 100, 0, .CO_NEW, none, none, false⟩ sampleRun2 .user
    (by decide) rfl (by decide) rfl

theorem sampleRun23_step : Step sampleRun2 .user .quiet sampleRun3 (.reclaim 2) :=
  Step.ret sampleRun2 2 2 ⟨"b", some 100, 0, .CO_RUNNING, some 1, none, true⟩
    sampleRun3 (.reclaim 2) rfl rfl rfl rfl

theorem sampleRun2_disciplined : Disciplined sampleRun2 .user :=
  Disciplined.step sampleRun1 .user .quiet sampleRun2 .user
    (Disciplined.step sampleRun0 .user (.created 2) sampleRun1 .user
      (Disciplined.startup 8 (some 1) true sampleRun0 rfl) sampleRun01_step
      (orderly_created _ _ _))
    sampleRun12_step (orderly_quiet _ _)

theorem sampleRun3_disciplined : Disciplined sampleRun3 (.reclaim 2) :=
  Disciplined.step sampleRun2 .user .quiet sampleRun3 (.reclaim 2) sampleRun2_disciplined
    sampleRun23_step (orderly_quiet _ _)

/-! ## The sample execution with a recycled block -/

theorem reuse1_step : Step sampleRun0 .user (.created 2) reuse1 .user :=
  Step.start sampleRun0 "s" (some 100) 0 2 true (some 2) reuse1 rfl rfl

theorem reuse2_step : Step reuse1 .user (.created 3) reuse2 .user :=
  Step.start reuse1 "z" (some 200) 0 3 true (some 3) reuse2 rfl rfl

theorem reuse3_step : Step reuse2 .user (.created 4) reuse3 .user :=
  Step.start reuse2 "t" (some 300) 0 4 true (some 4) reuse3 rfl rfl

theorem reuse4_step : Step reuse3 .user .quiet reuse4 .user :=
  Step.yield reuse3 5 reuse4 .user rfl

theorem reuse5_step : Step reuse4 .user .quiet reuse5 .user :=
  Step.yield reuse4 5 reuse5 .user rfl

theorem reuse6_step : Step reuse5 .user .quiet reuse6 .user :=
  Step.block reuse5 5 4 ⟨"t", some 300, 0, .CO_NEW, none, none, false⟩ reuse6 .user
    (by decide) rfl (by decide) rfl

theorem reuse7_step : Step reuse6 .user .quiet reuse7 .user :=
  Step.ret reuse6 5 3 ⟨"z", some 200, 0, .CO_RUNNING, none, none, true⟩ reuse7 .user
    rfl rfl rfl rfl

theorem reuse8_step : Step reuse7 .user .quiet reuse8 .user :=
  Step.ret reuse7 5 4 ⟨"t", some 300, 0, .CO_RUNNING, some 2, none, true⟩ reuse8 .user
    rfl rfl rfl rfl

theorem reuse1_disciplined : Disciplined reuse1 .user :=
  Disciplined.step sampleRun0 .user (.created 2) reuse1 .user
    (Disciplined.startup 8 (some 1) true sampleRun0 rfl) reuse1_step (orderly_created _ _ _)

theorem reuse2_disciplined : Disciplined reuse2 .user :=
  Disciplined.step reuse1 .user (.created 3) reuse2 .user reuse1_disciplined reuse2_step
    (orderly_created _ _ _)

theorem reuse3_disciplined : Disciplined reuse3 .user :=
  Disciplined.step reuse2 .user (.created 4) reuse3 .user reuse2_disciplined reuse3_step
    (orderly_created _ _ _)

theorem reuse4_disciplined : Disciplined reuse4 .user :=
  Disciplined.step reuse3 .user .quiet reuse4 .user reuse3_disciplined reuse4_step
    (orderly_quiet _ _)

theorem reuse5_disciplined : Disciplined reuse5 .user :=
  Disciplined.step reuse4 .user .quiet reuse5 .user reuse4_disciplined reuse5_step
    (orderly_quiet _ _)

theorem reuse6_disciplined : Disciplined reuse6 .user :=
  Disciplined.step reuse5 .user .quiet reuse6 .user reuse5_disciplined reuse6_step
    (orderly_quiet _ _)

theorem reuse7_disciplined : Disciplined reuse7 .user :=
  Disciplined.step reuse6 .user .quiet reuse7 .user reuse6_disciplined reuse7_step
    (orderly_quiet _ _)

theorem reuse8_disciplined : Disciplined reuse8 .user :=
  Disciplined.step reuse7 .user .quiet reuse8 .user reuse7_disciplined reuse8_step
    (orderly_quiet _ _)

theorem reuse8_reachable : Reachable reuse8 .user :=
  Disciplined.is_reachable _ _ reuse8_disciplined

theorem reuse9_reachable : Reachable reuse9 .user :=
  Reachable.wait reuse8 5 4 reuse9 .user reuse8_reachable (by decide) rfl

theorem reuse10_reachable : Reachable reuse10 .user :=
  Reachable.start reuse9 "d" (some 400) 0 4 true (some 4) reuse10 reuse9_reachable rfl rfl

theorem reuse11_reachable : Reachable reuse11 .user :=
  Reachable.wait reuse10 5 3 reuse11 .user reuse10_reachable (by decide) rfl

theorem reuse12_reachable : Reachable reuse12 .user :=
  Reachable.yield reuse11 5 reuse12 .user reuse11_reachable rfl

theorem reuse13_reachable : Reachable reuse13 .user :=
  Reachable.wait reuse12 5 2 reuse13 .user reuse12_reachable (by decide) rfl

theorem reuse14_reachable : Reachable reuse14 (.reclaim 4) :=
  Reachable.yield reuse13 5 reuse14 (.reclaim 4) reuse13_reachable rfl

theorem reuse15_reachable : Reachable reuse15 .user :=
  Reachable.reclaim reuse14 5 4 reuse15 reuse14_reachable rfl

theorem reuse16_reachable : Reachable reuse16 .user :=
  Reachable.yield reuse15 5 reuse16 .user reuse15_reachable rfl

theorem reuse17_reachable : Reachable reuse17 .user :=
  Reachable.start reuse16 "e" (some 500) 0 4 true (some 4) reuse17 reuse16_reachable rfl rfl

theorem reuse18_reachable : Reachable reuse18 .user :=
  Reachable.yield reuse17 5 reuse18 .user reuse17_reachable rfl

theorem reuse19_reachable : Reachable reuse19 .user :=
  Reachable.yield reuse18 5 reuse19 .user reuse18_reachable rfl

theorem reuse20_reachable : Reachable reuse20 .user :=
  Reachable.yield reuse19 5 reuse20 .user reuse19_reachable rfl

theorem reuseD21_reachable : Reachable reuseD21 .user :=
  Reachable.ret reuse20 5 4 ⟨"e", some 500, 0, .CO_RUNNING, none, none, true⟩ reuseD21 .user
    reuse20_reachable rfl rfl rfl rfl

theorem reuseS21_reachable : Reachable reuseS21 .user :=
  Reachable.wait reuse20 5 4 reuseS21 .user reuse20_reachable (by decide) rfl

theorem reuseS22_reachable : Reachable reuseS22 .user :=
  Reachable.ret reuseS21 5 2 ⟨"s", some 100, 0, .CO_RUNNING, some 4, some .user, true⟩ reuseS22 .user
    reuseS21_reachable rfl rfl rfl rfl

theorem reuseS23_reachable : Reachable reuseS23 (.reclaim 4) :=
  Reachable.yield reuseS22 5 reuseS23 (.reclaim 4) reuseS22_reachable rfl

theorem reuseS24_reachable : Reachable reuseS24 .user :=
  Reachable.reclaim reuseS23 5 4 reuseS24 reuseS23_reachable rfl

theorem reuseW21_reachable : Reachable reuseW21 .user :=
  Reachable.start reuse20 "f" (some 600) 0 3 true (some 3) reuseW21 reuse20_reachable rfl rfl

theorem reuseW22_reachable : Reachable reuseW22 .user :=
  Reachable.wait reuseW21 5 3 reuseW22 .user reuseW21_reachable (by decide) rfl

theorem reuseW23_reachable : Reachable reuseW23 .user :=
  Reachable.yield reuseW22 5 reuseW23 .user reuseW22_reachable rfl

/-! ## Waiting and reclaiming -/

/-- C3 fails once a released block is handed out again. In the sample
execution every `co_wait` is called on a handle that is in the ready list.
Coroutine `s` (2), blocked in `co_wait(t)` with `t` at address 4, is woken by
the death of `t`; main reclaims `t` first, and `co_start` then places the new
coroutine `d` at address 4. When `s` is resumed at line 171, address 4 holds
`d`, which is blocked in `co_wait(s)` with status `CO_WAITING`: lines 171-181
take it out of the ready list and free it. -/
theorem co_wait_reclaims_live :
    Reachable reuse14 (.reclaim 4) ∧ reuse14.current = some 2 ∧
    reuse14.heap 4 = some ⟨"d", some 400, 0, .CO_WAITING, none, some (.wait 2), true⟩ ∧
    4 ∈ reuse14.queue.items ∧
    co_wait_reclaim 5 4 reuse14 = .ok reuse15 ∧
    reuse15.heap 4 = none ∧ 4 ∉ reuse15.queue.items :=
  ⟨reuse14_reachable, rfl, rfl, by decide, rfl, rfl, by decide⟩

/-- C3, amended: in every state reached by an orderly execution (through
`co_start` with any unused block, `co_yield`, `co_wait` on handles in the ready
list, and entry returns, no `co_wait` being called on a finished coroutine
whose woken waiter has not yet completed its own `co_wait` on it): when a
caller blocked in `co_wait(t)` has been resumed past its yield (program point
`reclaim t`), `t` is allocated with status `CO_DEAD`; when lines 171-181 then
remove and release `t`, its status is `CO_DEAD`; and a `co_wait` called from
user code releases a descriptor only if it is the target and its status is
`CO_DEAD`. A live coroutine is never reclaimed. -/
theorem co_wait_reclaims_only_dead (rt : Runtime) (pc : Pc) (h : Disciplined rt pc) :
    (∀ t, pc = .reclaim t → ∃ tc, rt.heap t = some tc ∧ tc.status = .CO_DEAD) ∧
    (∀ t fuel r, pc = .reclaim t → co_wait_reclaim fuel t rt = .ok r →
      ∃ tc, rt.heap t = some tc ∧ tc.status = .CO_DEAD ∧ r.heap t = none) ∧
    (∀ t fuel r pc1 x, pc = .user → co_wait fuel (some t) rt = .ok (r, pc1) →
      rt.heap x ≠ none → r.heap x = none →
      x = t ∧ ∃ xc, rt.heap x = some xc ∧ xc.status = .CO_DEAD) := by
  have hinv := Disciplined.inv rt pc h
  refine ⟨fun t ht => (hinv.resumed t ht).1, ?_, ?_⟩
  · intro t fuel r ht hr
    obtain ⟨tc, h1, h2⟩ := (hinv.resumed t ht).1
    obtain ⟨hrh, _⟩ := co_wait_reclaim_ok fuel t rt r hr
    exact ⟨tc, h1, h2, by rw [hrh]; exact store_same _ _ _⟩
  · intro t fuel r pc1 x _ hw hx hrx
    obtain ⟨tc, ht, hcase⟩ := co_wait_ok fuel t rt r pc1 hw
    rcases hcase with ⟨_, s1, hmark, hy⟩ | ⟨hd, _, hr⟩
    · exfalso
      obtain ⟨me, mc, hc, hm, _, _⟩ := hinv.cur
      obtain ⟨s1', hmark', _, _, ⟨mc1, hm1, _⟩, hfwd, _⟩ :=
        co_wait_mark_view rt t me tc mc hc ht hm
      rw [hmark] at hmark'
      cases hmark'
      have h1 : s1.heap x ≠ none := by
        by_cases hxm : x = me
        · subst hxm
          rw [hm1]
          simp
        · obtain ⟨xc, hxc⟩ := Option.ne_none_iff_exists'.1 hx
          obtain ⟨xc1, h2, _⟩ := hfwd x xc hxm hxc
          rw [h2]
          simp
      exact co_yield_keeps fuel (.wait t) s1 r pc1 hy x h1 hrx
    · obtain ⟨hrh, _⟩ := co_wait_reclaim_ok fuel t rt r hr
      have hxt : x = t := by
        by_contra hne
        rw [hrh, store_other _ _ _ _ hne] at hrx
        exact hx hrx
      subst hxt
      exact ⟨rfl, tc, ht, hd⟩

/-- C3 at two states of orderly executions: main, blocked in `co_wait(2)`, is
resumed at line 171 once coroutine 2 is `CO_DEAD`, and lines 171-181, which
complete, release that `CO_DEAD` coroutine; and in the state `reuse8` the
`co_wait(z)` of main releases block 3, which held the finished coroutine
`z`. -/
theorem co_wait_reclaims_only_dead_witness :
    (∃ tc, sampleRun3.heap 2 = some tc ∧ tc.status = .CO_DEAD) ∧
    (co_wait_reclaim 5 2 sampleRun3 = .ok (reclaimedOf (co_wait_reclaim 5 2 sampleRun3)) ∧
      ∃ tc, sampleRun3.heap 2 = some tc ∧ tc.status = .CO_DEAD ∧
        (reclaimedOf (co_wait_reclaim 5 2 sampleRun3)).heap 2 = none) ∧
    (co_wait 5 (some 3) reuse8 = .ok (reuseJ9, .user) ∧
      reuse8.heap 3 = some ⟨"z", some 200, 0, .CO_DEAD, none, some .death, true⟩ ∧
      reuseJ9.heap 3 = none ∧
      (3 = 3 ∧ ∃ xc, reuse8.heap 3 = some xc ∧ xc.status = .CO_DEAD)) :=
  ⟨(co_wait_reclaims_only_dead sampleRun3 (.reclaim 2) sampleRun3_disciplined).1 2 rfl,
    ⟨rfl, (co_wait_reclaims_only_dead sampleRun3 (.reclaim 2) sampleRun3_disciplined).2.1 2 5
      (reclaimedOf (co_wait_reclaim 5 2 sampleRun3)) rfl rfl⟩,
    ⟨rfl, rfl, rfl,
      (co_wait_reclaims_only_dead reuse8 .user reuse8_disciplined).2.2 3 5 reuseJ9 .user 3 rfl
        rfl
        (fun h0 => Option.noConfusion
          (h0.symm.trans
            (rfl : reuse8.heap 3 = some ⟨"z", some 200, 0, .CO_DEAD, none, some .death, true⟩)))
        rfl⟩⟩

/-! ## The return of an entry function -/

/-- C7 fails in the sample execution: coroutine `s` (2) runs user code in
`reuse15` with address 4 recorded as its waiter, but block 4 was released by
lines 171-181 and holds no coroutine. When the entry function of `s` returns,
line 149 writes through that pointer: no coroutine's status becomes
`CO_RUNNING`, and the model reports an access to a released block. -/
theorem co_yield_death_released_waiter :
    Reachable reuse15 .user ∧ reuse15.current = some 2 ∧
    reuse15.heap 2 = some ⟨"s", some 100, 0, .CO_RUNNING, some 4, some (.wait 4), true⟩ ∧
    reuse15.heap 4 = none ∧
    co_yield_death reuse15 = none ∧ ∀ fuel, co_yield_return fuel reuse15 = .undef :=
  ⟨reuse15_reachable, rfl, rfl, rfl, rfl, fun _ => rfl⟩

/-- C7, amended: in a state reached by an orderly execution, when the entry
function of the current coroutine `c` returns, lines 145-150 make `c`'s status
`CO_DEAD`; if `c.waiter` is a coroutine `w` (which is then another coroutine,
blocked in `CO_WAITING`), the status of `w` becomes `CO_RUNNING` and no other
descriptor changes; if `c.waiter` is unset no other descriptor changes at
all; and the ready list is untouched and still contains `c` when the final
`co_yield` of line 151 has saved the context and starts its dispatch. -/
theorem co_yield_death_effect (rt : Runtime) (c : Nat) (cc : co) (h : Disciplined rt .user)
    (hcur : rt.current = some c) (hc : rt.heap c = some cc) :
    ∃ r, co_yield_death rt = some r ∧
      (∀ fuel, co_yield_return fuel rt = co_yield fuel .death r) ∧
      (∃ cc1, r.heap c = some cc1 ∧ cc1.status = .CO_DEAD) ∧
      (∀ w, cc.waiter = some w → w ≠ c ∧
        (∃ wc, rt.heap w = some wc ∧ wc.status = .CO_WAITING) ∧
        (∃ wc1, r.heap w = some wc1 ∧ wc1.status = .CO_RUNNING) ∧
        ∀ a, a ≠ c → a ≠ w → r.heap a = rt.heap a) ∧
      (cc.waiter = none → ∀ a, a ≠ c → r.heap a = rt.heap a) ∧
      r.queue = rt.queue ∧ c ∈ r.queue.items ∧
      ∃ s1, co_yield_save .death r = some s1 ∧ c ∈ s1.queue.items := by
  have hinv := Disciplined.inv rt .user h
  obtain ⟨me, mc, hm1, hm2, hst, hq⟩ := hinv.cur
  have hme : me = c := by
    rw [hcur] at hm1
    exact (Option.some.inj hm1).symm
  subst hme
  rw [hc] at hm2
  cases hm2
  have hwait : ∀ w, cc.waiter = some w →
      w ≠ me ∧ ∃ wc, rt.heap w = some wc ∧ wc.status = .CO_WAITING := by
    intro w hw
    obtain ⟨wc, hw1, hw2, _⟩ := hinv.sound.waiter me cc w hc (by rw [hst]; simp) hw
    refine ⟨?_, wc, hw1, hw2⟩
    intro hwm
    subst hwm
    rw [hc] at hw1
    cases hw1
    rw [hst] at hw2
    cases hw2
  obtain ⟨r, hdeath, h1c, h1q, hr1, hwoken, hsame⟩ :=
    co_yield_death_view rt me cc hcur hc (fun w hw => ⟨(hwait w hw).1, by
      obtain ⟨wc, hx, _⟩ := (hwait w hw).2
      exact ⟨wc, hx⟩⟩)
  refine ⟨r, hdeath, ?_, ⟨_, hr1, rfl⟩, ?_, ?_, h1q, by rw [h1q]; exact hq, ?_⟩
  · intro fuel
    simp [co_yield_return, hdeath]
  · intro w hw
    obtain ⟨hwm, wc, hw1, hw2⟩ := hwait w hw
    refine ⟨hwm, ⟨wc, hw1, hw2⟩, ⟨_, hwoken w wc hw hw1, rfl⟩, ?_⟩
    intro a ha haw
    exact hsame a ha (by rw [hw]; intro h'; exact haw (Option.some.inj h').symm)
  · intro hw a ha
    exact hsame a ha (by rw [hw]; simp)
  · refine ⟨⟨store r.heap me (some ⟨cc.name, cc.func, cc.arg, .CO_DEAD, cc.waiter,
      some .death, cc.launched⟩), r.current, r.queue⟩, ?_, by rw [h1q]; exact hq⟩
    simp [co_yield_save, h1c, hcur, hr1]

/-- C7 at two states of orderly executions: in `sampleRun2` coroutine 2, on
which main waits, returns from its entry function, and main becomes
`CO_RUNNING`; in `reuse6` coroutine `z` (3), on which nobody waits, returns,
and no other descriptor changes. -/
theorem co_yield_death_effect_witness :
    (∃ r, co_yield_death sampleRun2 = some r ∧
      (∃ cc1, r.heap 2 = some cc1 ∧ cc1.status = .CO_DEAD) ∧
      (∃ wc, sampleRun2.heap 1 = some wc ∧ wc.status = .CO_WAITING) ∧
      (∃ wc1, r.heap 1 = some wc1 ∧ wc1.status = .CO_RUNNING) ∧
      (∀ a, a ≠ 2 → a ≠ 1 → r.heap a = sampleRun2.heap a) ∧
      r.queue = sampleRun2.queue ∧ 2 ∈ r.queue.items) ∧
    (∃ r, co_yield_death reuse6 = some r ∧
      (∃ cc1, r.heap 3 = some cc1 ∧ cc1.status = .CO_DEAD) ∧
      (∀ a, a ≠ 3 → r.heap a = reuse6.heap a) ∧
      r.queue = reuse6.queue ∧ 3 ∈ r.queue.items) := by
  constructor
  · obtain ⟨r, h1, _, h3, h4, _, h6, h7, _⟩ :=
      co_yield_death_effect sampleRun2 2 ⟨"b", some 100, 0, .CO_RUNNING, some 1, none, true⟩
        sampleRun2_disciplined rfl rfl
    exact ⟨r, h1, h3, (h4 1 rfl).2.1, (h4 1 rfl).2.2.1, (h4 1 rfl).2.2.2, h6, h7⟩
  · obtain ⟨r, h1, _, h3, _, h5, h6, h7, _⟩ :=
      co_yield_death_effect reuse6 3 ⟨"z", some 200, 0, .CO_RUNNING, none, none, true⟩
        reuse6_disciplined rfl rfl
    exact ⟨r, h1, h3, h5 rfl, h6, h7⟩

/-! ## Startup -/

/-- C15: when `q_new` returns a container with room for one item and both
allocations of `co_start` succeed, the startup constructor completes, and
whenever it completes the ready list holds exactly one coroutine, named
"main", with status `CO_RUNNING` and no waiter, which is the current
coroutine; no other descriptor exists. -/
theorem co_constructor_main (cap p : Nat) (hcap : 1 ≤ cap) :
    (∃ rt, co_constructor (some (q_new cap)) (some p) true = .ok rt) ∧
    (∀ m1 m2 rt, co_constructor (some (q_new cap)) m1 m2 = .ok rt →
      ∃ m c, m1 = some m ∧ m2 = true ∧ rt.queue.items = [m] ∧ rt.current = some m ∧
        rt.heap m = some c ∧ c.name = "main" ∧ c.status = .CO_RUNNING ∧ c.waiter = none ∧
        c.func = none ∧ ∀ a, a ≠ m → rt.heap a = none) := by
  have hroom : q_is_full (q_new cap) = false := by
    simp only [q_is_full, q_new, List.length_nil, decide_eq_false_iff_not]
    omega
  constructor
  · refine ⟨⟨store (store (fun _ => none) p
        (some ⟨"main", none, 0, .CO_NEW, none, none, false⟩)) p
        (some ⟨"main", none, 0, .CO_RUNNING, none, none, false⟩),
      some p, q_push (q_new cap) p⟩, ?_⟩
    simp [co_constructor, co_start, hroom, store_same]
  · intro m1 m2 rt hc
    unfold co_constructor co_start at hc
    cases m1 with
    | none => simp at hc
    | some m =>
      cases m2 with
      | false => simp at hc
      | true =>
        simp only [hroom, if_false, Bool.false_eq_true, store_same, Res.ok.injEq,
          Bool.true_eq_false] at hc
        subst hc
        refine ⟨m, _, rfl, rfl, by simp [q_push, q_new], rfl, store_same _ _ _, rfl, rfl, rfl,
          rfl, ?_⟩
        intro a ha
        simp [store, ha]

/-- C15 with capacity 8 and the main descriptor at address 1. -/
theorem co_constructor_main_witness :
    (∃ rt, co_constructor (some (q_new 8)) (some 1) true = .ok rt) ∧
    (∀ m1 m2 rt, co_constructor (some (q_new 8)) m1 m2 = .ok rt →
      ∃ m c, m1 = some m ∧ m2 = true ∧ rt.queue.items = [m] ∧ rt.current = some m ∧
        rt.heap m = some c ∧ c.name = "main" ∧ c.status = .CO_RUNNING ∧ c.waiter = none ∧
        c.func = none ∧ ∀ a, a ≠ m → rt.heap a = none) :=
  co_constructor_main 8 1 (by decide)

/-! ## Who is dispatched -/

/-- C16 fails right after startup: main (address 1) has spawned coroutine 2,
which is `CO_NEW` and in the ready list, yet the `co_yield` of main dispatches
main itself, because main is still at the head of the list. -/
theorem co_yield_dispatches_caller :
    Reachable sampleRun1 .user ∧ sampleRun1.current = some 1 ∧
    (2 ∈ sampleRun1.queue.items ∧
      ∃ c, sampleRun1.heap 2 = some c ∧ c.status = .CO_NEW) ∧
    ∃ r, co_yield 1 .user sampleRun1 = .ok (r, .user) ∧ r.current = some 1 :=
  ⟨sampleRun1_reachable, rfl, ⟨by decide, _, rfl, rfl⟩, _, rfl, rfl⟩

/-- Saving the context does not change any status. -/
theorem co_yield_save_status (site : Site) (s s1 : Runtime) (hs : co_yield_save site s = some s1) :
    s1.current = s.current ∧ s1.queue = s.queue ∧
    ∀ a ac, s.heap a = some ac → ∃ ac1, s1.heap a = some ac1 ∧ ac1.status = ac.status ∧
      (s.current = some a → ac1.context = some site) := by
  unfold co_yield_save at hs
  rcases Option.eq_none_or_eq_some s.current with hc | ⟨me, hc⟩
  · simp [hc] at hs
  · rcases Option.eq_none_or_eq_some (s.heap me) with hm | ⟨mc, hm⟩
    · simp [hc, hm] at hs
    · simp only [hc, hm, Option.some.injEq] at hs
      subst hs
      refine ⟨hc.symm, rfl, ?_⟩
      intro a ac ha
      by_cases ham : a = me
      · subst ham
        rw [hm] at ha
        cases ha
        exact ⟨_, store_same _ _ _, rfl, fun _ => rfl⟩
      · refine ⟨ac, by simp only [store_other _ _ _ _ ham]; exact ha, rfl, ?_⟩
        intro h
        rw [hc] at h
        exact absurd (Option.some.inj h).symm ham

/-- C16, amended: `co_yield` hands control to the first coroutine in
ready-list order whose status is `CO_NEW` or `CO_RUNNING`. On a ready list
`pre ++ [c] ++ post` whose prefix is not runnable and whose `c` is runnable,
the dispatch scan chooses `c` whatever `post` holds; so the coroutine
dispatched differs from the caller exactly when the caller is not that first
runnable coroutine, and a `CO_RUNNING` caller that is the first one is resumed
itself. -/
theorem co_yield_first_runnable (rt : Runtime) (pre post : List Nat) (c me fuel : Nat)
    (mc : co) (hcur : rt.current = some me) (hme : rt.heap me = some mc)
    (hq : rt.queue.items = pre ++ [c] ++ post)
    (hpre : ∀ a ∈ pre, ∃ ac, rt.heap a = some ac ∧
      (ac.status = .CO_WAITING ∨ ac.status = .CO_DEAD))
    (hc : ∃ cc, rt.heap c = some cc ∧ (cc.status = .CO_NEW ∨ cc.status = .CO_RUNNING))
    (hfuel : pre.length < fuel) :
    (∃ s1 s2, co_yield_save .user rt = some s1 ∧ co_yield_pick fuel s1 = .ok s2 ∧
      s2.current = some c ∧ s2.queue.items = post ++ pre ++ [c] ∧
      co_yield fuel .user rt = co_yield_dispatch s2) ∧
    (∀ r pc, co_yield fuel .user rt = .ok (r, pc) →
      r.current = some c ∧ (r.current ≠ rt.current ↔ c ≠ me)) ∧
    (c = me → mc.status = .CO_RUNNING →
      ∃ r, co_yield fuel .user rt = .ok (r, .user) ∧ r.current = rt.current) := by
  have hsave : co_yield_save .user rt = some ⟨store rt.heap me
      (some ⟨mc.name, mc.func, mc.arg, mc.status, mc.waiter, some .user, mc.launched⟩),
      rt.current, rt.queue⟩ := by
    simp [co_yield_save, hcur, hme]
  obtain ⟨_, _, hst⟩ := co_yield_save_status .user rt _ hsave
  have hpick := co_yield_pick_eq ⟨store rt.heap me
      (some ⟨mc.name, mc.func, mc.arg, mc.status, mc.waiter, some .user, mc.launched⟩),
      rt.current, rt.queue⟩ pre post c fuel hq
      (by
        intro a ha
        obtain ⟨ac, h1, h2⟩ := hpre a ha
        obtain ⟨ac1, h3, h4, _⟩ := hst a ac h1
        exact ⟨ac1, h3, by rw [h4]; exact (runnable_false_iff _).2 h2⟩)
      (by
        obtain ⟨cc, h1, h2⟩ := hc
        obtain ⟨cc1, h3, h4, _⟩ := hst c cc h1
        exact ⟨cc1, h3, by rw [h4]; exact (runnable_iff _).2 h2⟩)
      hfuel
  have hy : co_yield fuel .user rt = co_yield_dispatch ⟨store rt.heap me
      (some ⟨mc.name, mc.func, mc.arg, mc.status, mc.waiter, some .user, mc.launched⟩),
      some c, ⟨post ++ pre ++ [c], rt.queue.cap⟩⟩ := by
    simp only [co_yield, hsave, hpick]
  refine ⟨⟨_, _, hsave, hpick, rfl, rfl, hy⟩, ?_, ?_⟩
  · intro r pc hr
    rw [hy] at hr
    obtain ⟨x, xc, hx, _, hrc, _⟩ := co_yield_dispatch_ok _ r pc hr
    have hrc' : r.current = some c := hrc
    refine ⟨hrc', ?_⟩
    rw [hrc', hcur]
    constructor
    · intro h h'
      exact h (by rw [h'])
    · intro h h'
      exact h (Option.some.inj h')
  · intro hcm hrun
    subst hcm
    refine ⟨⟨store rt.heap c
      (some ⟨mc.name, mc.func, mc.arg, mc.status, mc.waiter, some .user, mc.launched⟩),
      some c, ⟨post ++ pre ++ [c], rt.queue.cap⟩⟩, ?_, hcur.symm⟩
    rw [hy]
    simp [co_yield_dispatch, store_same, hrun]

/-- C16, amended, at the state right after main has spawned coroutine 2. -/
theorem co_yield_first_runnable_witness :
    (∃ s1 s2, co_yield_save .user sampleRun1 = some s1 ∧ co_yield_pick 1 s1 = .ok s2 ∧
      s2.current = some 1 ∧ s2.queue.items = [2] ++ [] ++ [1] ∧
      co_yield 1 .user sampleRun1 = co_yield_dispatch s2) ∧
    (∀ r pc, co_yield 1 .user sampleRun1 = .ok (r, pc) →
      r.current = some 1 ∧ (r.current ≠ sampleRun1.current ↔ 1 ≠ 1)) ∧
    (1 = 1 → co_status.CO_RUNNING = .CO_RUNNING →
      ∃ r, co_yield 1 .user sampleRun1 = .ok (r, .user) ∧ r.current = sampleRun1.current) :=
  co_yield_first_runnable sampleRun1 [] [2] 1 1 1
    ⟨"main", none, 0, .CO_RUNNING, none, none, false⟩ rfl rfl rfl
    (by intro a ha; cases ha) ⟨_, rfl, Or.inr rfl⟩ (by decide)

/-! ## Termination of the dispatch scan -/

/-- The body of the loop always finds an item to pop, and only permutes. -/
theorem co_yield_scan_iter_some :
    ∀ (k item : Nat) (q : Queue), ∃ item1 q1, co_yield_scan_iter k item q = some (item1, q1) ∧
      List.Perm (item1 :: q1.items) (item :: q.items) ∧ q1.cap = q.cap := by
  intro k
  induction k with
  | zero => intro item q; exact ⟨item, q, rfl, List.Perm.refl _, rfl⟩
  | succ k ih =>
    intro item q
    obtain ⟨next, q0, hrot⟩ : ∃ next q0, rotate item q = (some next, q0) := by
      obtain ⟨items, cap⟩ := q
      cases items with
      | nil => exact ⟨item, ⟨[], cap⟩, rfl⟩
      | cons x xs => exact ⟨x, ⟨xs ++ [item], cap⟩, rfl⟩
    obtain ⟨h3, h4⟩ := rotate_some item q next q0 hrot
    obtain ⟨item1, q1, h1, h2, h5⟩ := ih next q0
    refine ⟨item1, q1, by simp only [co_yield_scan_iter, hrot]; exact h1, ?_, h5.trans h4⟩
    rw [h3] at h2
    exact h2.trans (List.perm_append_singleton _ _)

/-- While the loop meets only coroutines that are not runnable, `k` loop tests
of the budget are spent on `k` executions of the body. -/
theorem co_yield_scan_iter_spend (h : Heap) :
    ∀ (k f item : Nat) (q : Queue) (item1 : Nat) (q1 : Queue),
      (∀ a ∈ item :: q.items, ∃ ac, h a = some ac ∧ runnable ac.status = false) →
      co_yield_scan_iter k item q = some (item1, q1) →
      co_yield_scan h (k + f) item q = co_yield_scan h f item1 q1 := by
  intro k
  induction k with
  | zero =>
    intro f item q item1 q1 _ hi
    simp only [co_yield_scan_iter, Option.some.injEq, Prod.mk.injEq] at hi
    obtain ⟨rfl, rfl⟩ := hi
    simp
  | succ k ih =>
    intro f item q item1 q1 hall hi
    obtain ⟨ac, ha, hna⟩ := hall item (List.mem_cons_self _ _)
    cases hrot : rotate item q with
    | mk o q0 =>
      cases o with
      | none => simp [co_yield_scan_iter, hrot] at hi
      | some next =>
        simp only [co_yield_scan_iter, hrot] at hi
        obtain ⟨h3, _⟩ := rotate_some item q next q0 hrot
        have hall2 : ∀ a ∈ next :: q0.items, ∃ ac, h a = some ac ∧
            runnable ac.status = false := by
          intro a ha2
          rw [h3] at ha2
          apply hall
          simp only [List.mem_append, List.mem_singleton] at ha2
          rcases ha2 with h' | h'
          · exact List.mem_cons_of_mem _ h'
          · rw [h']
            exact List.mem_cons_self _ _
        have hrec := ih f next q0 item1 q1 hall2 hi
        have hk : k + 1 + f = (k + f) + 1 := by omega
        rw [hk]
        simp only [co_yield_scan, ha, hna, hrot]
        exact hrec

/-- The loop exhausts every budget when nothing in the list is runnable. -/
theorem co_yield_scan_stuck (h : Heap) :
    ∀ (fuel item : Nat) (q : Queue),
      (∀ a ∈ item :: q.items, ∃ ac, h a = some ac ∧ runnable ac.status = false) →
      co_yield_scan h fuel item q = .spin := by
  intro fuel item q hall
  obtain ⟨item1, q1, h1, _, _⟩ := co_yield_scan_iter_some fuel item q
  have := co_yield_scan_iter_spend h fuel 0 item q item1 q1 hall h1
  simpa [co_yield_scan] using this

/-- C17: if every coroutine of a non-empty ready list `x :: xs` is allocated
with status `CO_WAITING` or `CO_DEAD`, the dispatch scan of `co_yield` never
terminates: after any number `k` of executions of the loop body (one enqueue
and one dequeue each) the loop is still running on an item of the list whose
status is `CO_WAITING` or `CO_DEAD`, so its condition still holds and the
items are those of the list; the loop only reads the descriptors, so no
status changes; and for every budget the scan, hence `co_yield`, produces no
dispatched state. -/
theorem co_yield_livelock (rt : Runtime) (x : Nat) (xs : List Nat)
    (hq : rt.queue.items = x :: xs)
    (hall : ∀ a ∈ x :: xs, ∃ ac, rt.heap a = some ac ∧
      (ac.status = .CO_WAITING ∨ ac.status = .CO_DEAD)) :
    (∀ k, ∃ item q, co_yield_scan_iter k x ⟨xs, rt.queue.cap⟩ = some (item, q) ∧
      item ∈ x :: xs ∧ List.Perm (item :: q.items) (x :: xs) ∧
      (∃ ic, rt.heap item = some ic ∧ (ic.status = .CO_WAITING ∨ ic.status = .CO_DEAD) ∧
        runnable ic.status = false) ∧
      ∀ f, co_yield_scan rt.heap (k + f) x ⟨xs, rt.queue.cap⟩
        = co_yield_scan rt.heap f item q) ∧
    (∀ fuel, co_yield_pick fuel rt = .spin) ∧
    (∀ fuel site r pc, co_yield fuel site rt ≠ .ok (r, pc)) := by
  have hall2 : ∀ a ∈ x :: xs, ∃ ac, rt.heap a = some ac ∧ runnable ac.status = false := by
    intro a ha
    obtain ⟨ac, h1, h2⟩ := hall a ha
    exact ⟨ac, h1, (runnable_false_iff _).2 h2⟩
  have hpop : q_pop rt.queue = (some x, ⟨xs, rt.queue.cap⟩) := by
    simp [q_pop, hq]
  have hne : q_is_empty rt.queue = false := by simp [q_is_empty, hq]
  refine ⟨?_, ?_, ?_⟩
  · intro k
    obtain ⟨item, q, h1, h2, _⟩ := co_yield_scan_iter_some k x ⟨xs, rt.queue.cap⟩
    have hmem : item ∈ x :: xs := h2.mem_iff.1 (List.mem_cons_self _ _)
    obtain ⟨ic, h3, h4⟩ := hall item hmem
    exact ⟨item, q, h1, hmem, h2, ⟨ic, h3, h4, (runnable_false_iff _).2 h4⟩,
      fun f => co_yield_scan_iter_spend rt.heap k f x ⟨xs, rt.queue.cap⟩ item q hall2 h1⟩
  · intro fuel
    have hs := co_yield_scan_stuck rt.heap fuel x ⟨xs, rt.queue.cap⟩ hall2
    simp [co_yield_pick, hne, hpop, hs]
  · intro fuel site r pc hy
    obtain ⟨me, mc, s2, _, hm, hp, _⟩ := co_yield_ok fuel site rt r pc hy
    have hall3 : ∀ a ∈ x :: xs, ∃ ac, store rt.heap me
        (some ⟨mc.name, mc.func, mc.arg, mc.status, mc.waiter, some site, mc.launched⟩) a
        = some ac ∧ runnable ac.status = false := by
      intro a ha
      obtain ⟨ac, h1, h2⟩ := hall2 a ha
      by_cases ham : a = me
      · subst ham
        rw [hm] at h1
        cases h1
        exact ⟨_, store_same _ _ _, h2⟩
      · exact ⟨ac, by rw [store_other _ _ _ _ ham]; exact h1, h2⟩
    have hs := co_yield_scan_stuck _ fuel x ⟨xs, rt.queue.cap⟩ hall3
    simp [co_yield_pick, hne, hpop, hs] at hp

/-- C17 at a ready list of two coroutines waiting on each other. -/
theorem co_yield_livelock_witness :
    (∀ k, ∃ item q, co_yield_scan_iter k 1 ⟨[2], sampleStuck.queue.cap⟩ = some (item, q) ∧
      item ∈ [1, 2] ∧ List.Perm (item :: q.items) [1, 2] ∧
      (∃ ic, sampleStuck.heap item = some ic ∧
        (ic.status = .CO_WAITING ∨ ic.status = .CO_DEAD) ∧ runnable ic.status = false) ∧
      ∀ f, co_yield_scan sampleStuck.heap (k + f) 1 ⟨[2], sampleStuck.queue.cap⟩
        = co_yield_scan sampleStuck.heap f item q) ∧
    (∀ fuel, co_yield_pick fuel sampleStuck = .spin) ∧
    (∀ fuel site r pc, co_yield fuel site sampleStuck ≠ .ok (r, pc)) :=
  co_yield_livelock sampleStuck 1 [2] rfl (by
    intro a ha
    simp only [List.mem_cons, List.mem_singleton, List.not_mem_nil, or_false] at ha
    rcases ha with rfl | rfl
    · exact ⟨_, rfl, Or.inl rfl⟩
    · exact ⟨_, rfl, Or.inl rfl⟩)

/-- The loop exhausts a budget that does not reach the first runnable item. -/
theorem co_yield_scan_short (h : Heap) (c cap : Nat) :
    ∀ (pre post : List Nat) (fuel item : Nat) (rest : List Nat),
      (∀ a ∈ pre, ∃ ac, h a = some ac ∧ runnable ac.status = false) →
      item :: rest = pre ++ c :: post → fuel ≤ pre.length →
      co_yield_scan h fuel item ⟨rest, cap⟩ = .spin := by
  intro pre
  induction pre with
  | nil =>
    intro post fuel item rest _ _ hf
    simp only [List.length_nil, Nat.le_zero_eq] at hf
    subst hf
    rfl
  | cons a pre ih =>
    intro post fuel item rest hpre hl hf
    cases fuel with
    | zero => rfl
    | succ f =>
      simp only [List.cons_append, List.cons.injEq] at hl
      obtain ⟨rfl, rfl⟩ := hl
      obtain ⟨ac, ha, hna⟩ := hpre item (List.mem_cons_self _ _)
      obtain ⟨x, xs, hx⟩ : ∃ x xs, pre ++ c :: post = x :: xs := by
        cases pre <;> simp
      have hrec := ih (post ++ [item]) f x (xs ++ [item])
        (fun b hb => hpre b (List.mem_cons_of_mem _ hb))
        (by rw [← List.cons_append, ← hx]; simp)
        (by simp at hf; omega)
      simp only [co_yield_scan, ha, hna, hx, rotate_cons]
      simpa using hrec

/-- A list of allocated coroutines that holds a runnable one splits at the
first runnable one. -/
theorem first_runnable_split (h : Heap) :
    ∀ l : List Nat, (∀ a ∈ l, h a ≠ none) →
      (∃ c ∈ l, ∃ cc, h c = some cc ∧ runnable cc.status = true) →
      ∃ pre c post, l = pre ++ [c] ++ post ∧
        (∀ a ∈ pre, ∃ ac, h a = some ac ∧ runnable ac.status = false) ∧
        ∃ cc, h c = some cc ∧ runnable cc.status = true := by
  intro l
  induction l with
  | nil =>
    intro _ hrun
    obtain ⟨c, hc, _⟩ := hrun
    cases hc
  | cons a l ih =>
    intro hlive hrun
    obtain ⟨ac, hac⟩ := Option.ne_none_iff_exists'.1 (hlive a (List.mem_cons_self _ _))
    by_cases hr : runnable ac.status = true
    · exact ⟨[], a, l, by simp, (fun b hb => absurd hb (List.not_mem_nil b)), ac, hac, hr⟩
    · have hrun2 : ∃ c ∈ l, ∃ cc, h c = some cc ∧ runnable cc.status = true := by
        obtain ⟨c, hc, cc, h1, h2⟩ := hrun
        simp only [List.mem_cons] at hc
        rcases hc with rfl | hc
        · rw [hac] at h1
          cases h1
          exact absurd h2 hr
        · exact ⟨c, hc, cc, h1, h2⟩
      obtain ⟨pre, c, post, h1, h2, h3⟩ :=
        ih (fun b hb => hlive b (List.mem_cons_of_mem _ hb)) hrun2
      refine ⟨a :: pre, c, post, by simp [h1], ?_, h3⟩
      intro b hb
      simp only [List.mem_cons] at hb
      rcases hb with rfl | hb
      · exact ⟨ac, hac, by simpa using hr⟩
      · exact h2 b hb

/-- C18: if the ready list, of length `n`, holds only allocated coroutines and
at least one with status `CO_NEW` or `CO_RUNNING`, the dispatch scan of
`co_yield` terminates after a number `d` of dequeues with `1 <= d <= n` (it
ends with a budget of `d` loop tests, each of which follows one dequeue, and
with any larger budget, and with no smaller one); each enqueue puts back the
item dequeued just before, so at every iteration the queue holds `n - 1`
items beside the item in hand, never more than `n`, and the scan ends with a
ready list of length `n`. -/
theorem co_yield_pick_terminates (rt : Runtime)
    (hlive : ∀ a ∈ rt.queue.items, rt.heap a ≠ none)
    (hrun : ∃ c ∈ rt.queue.items, ∃ cc, rt.heap c = some cc ∧
      (cc.status = .CO_NEW ∨ cc.status = .CO_RUNNING)) :
    ∃ d r, 1 ≤ d ∧ d ≤ rt.queue.items.length ∧
      (∀ fuel, d ≤ fuel → co_yield_pick fuel rt = .ok r) ∧
      (∀ fuel, fuel < d → co_yield_pick fuel rt = .spin) ∧
      r.queue.items.length = rt.queue.items.length ∧
      List.Perm r.queue.items rt.queue.items ∧
      ∃ x xs, q_pop rt.queue = (some x, ⟨xs, rt.queue.cap⟩) ∧
        ∀ k, ∃ item q, co_yield_scan_iter k x ⟨xs, rt.queue.cap⟩ = some (item, q) ∧
          q.items.length + 1 = rt.queue.items.length ∧
          (q_push q item).items.length = rt.queue.items.length := by
  obtain ⟨pre, c, post, hsplit, hpre, hc⟩ := first_runnable_split rt.heap rt.queue.items hlive
    (by
      obtain ⟨c, h1, cc, h2, h3⟩ := hrun
      exact ⟨c, h1, cc, h2, (runnable_iff _).2 h3⟩)
  obtain ⟨x, xs, hx⟩ : ∃ x xs, pre ++ [c] ++ post = x :: xs := by
    cases pre <;> simp
  have hitems : rt.queue.items = x :: xs := by rw [hsplit, hx]
  have hpop : q_pop rt.queue = (some x, ⟨xs, rt.queue.cap⟩) := by
    simp [q_pop, hitems]
  have hne : q_is_empty rt.queue = false := by simp [q_is_empty, hitems]
  refine ⟨pre.length + 1, ⟨rt.heap, some c, ⟨post ++ pre ++ [c], rt.queue.cap⟩⟩, by omega, ?_,
    ?_, ?_, ?_, ?_, x, xs, hpop, ?_⟩
  · rw [hsplit]
    simp only [List.length_append, List.length_cons, List.length_nil]
    omega
  · intro fuel hf
    exact co_yield_pick_eq rt pre post c fuel hsplit hpre hc (by omega)
  · intro fuel hf
    have hs := co_yield_scan_short rt.heap c rt.queue.cap pre post fuel x xs hpre
      (by rw [← hx]; simp) (by omega)
    simp [co_yield_pick, hne, hpop, hs]
  · rw [hsplit]
    simp only [List.length_append, List.length_cons, List.length_nil]
    omega
  · rw [hsplit]
    simp only [List.append_assoc, List.singleton_append]
    refine List.Perm.trans List.perm_append_comm ?_
    simp only [List.append_assoc, List.cons_append, List.nil_append]
    exact List.Perm.refl _
  · intro k
    obtain ⟨item, q, h1, h2, _⟩ := co_yield_scan_iter_some k x ⟨xs, rt.queue.cap⟩
    have hlen := h2.length_eq
    simp only [List.length_cons] at hlen
    refine ⟨item, q, h1, ?_, ?_⟩
    · rw [hitems]
      simp only [List.length_cons]
      omega
    · rw [hitems]
      simp only [q_push, List.length_append, List.length_cons, List.length_nil]
      omega

/-- C18 at the sample state `[1, 2, 3]`, whose first coroutine is waiting. -/
theorem co_yield_pick_terminates_witness :
    ∃ d r, 1 ≤ d ∧ d ≤ sampleRt.queue.items.length ∧
      (∀ fuel, d ≤ fuel → co_yield_pick fuel sampleRt = .ok r) ∧
      (∀ fuel, fuel < d → co_yield_pick fuel sampleRt = .spin) ∧
      r.queue.items.length = sampleRt.queue.items.length ∧
      List.Perm r.queue.items sampleRt.queue.items ∧
      ∃ x xs, q_pop sampleRt.queue = (some x, ⟨xs, sampleRt.queue.cap⟩) ∧
        ∀ k, ∃ item q, co_yield_scan_iter k x ⟨xs, sampleRt.queue.cap⟩ = some (item, q) ∧
          q.items.length + 1 = sampleRt.queue.items.length ∧
          (q_push q item).items.length = sampleRt.queue.items.length :=
  co_yield_pick_terminates sampleRt (by
    intro a ha
    simp only [sampleRt, List.mem_cons, List.mem_singleton, List.not_mem_nil, or_false] at ha
    rcases ha with rfl | rfl | rfl <;> simp [sampleRt, store])
    ⟨2, by decide, _, rfl, Or.inr rfl⟩

/-! ## What one transition does to a descriptor -/

/-- The state left by a `co_start` that returns. -/
theorem co_start_ok (name : String) (func : Option Nat) (arg p : Nat) (m2 : Bool)
    (h : Option Nat) (s r : Runtime)
    (hst : co_start name func arg (some p) m2 s = .ok (h, r)) :
    r.heap = store s.heap p (some ⟨name, func, arg, .CO_NEW, none, none, false⟩) ∧
    r.current = s.current ∧
    ((h = none ∧ r.queue = s.queue) ∨
      (h = some p ∧ q_is_full s.queue = false ∧ r.queue = q_push s.queue p)) := by
  unfold co_start at hst
  by_cases hm : m2 = false
  · simp only [hm, if_true, Res.ok.injEq, Prod.mk.injEq] at hst
    obtain ⟨rfl, rfl⟩ := hst
    exact ⟨rfl, rfl, Or.inl ⟨rfl, rfl⟩⟩
  · simp only [hm, if_false] at hst
    by_cases hfull : q_is_full s.queue = true
    · simp [hfull] at hst
    · simp only [hfull, Bool.false_eq_true, if_false, Res.ok.injEq, Prod.mk.injEq] at hst
      obtain ⟨rfl, rfl⟩ := hst
      exact ⟨rfl, rfl, Or.inr ⟨rfl, by simpa using hfull, rfl⟩⟩

/-- What `co_yield` does to each descriptor. -/
theorem co_yield_move (fuel : Nat) (site : Site) (s r : Runtime) (pc : Pc)
    (hy : co_yield fuel site s = .ok (r, pc)) (a : Nat) :
    (s.heap a = none → r.heap a = none) ∧
    ∀ ac, s.heap a = some ac → ∃ ac1, r.heap a = some ac1 ∧ YieldMove site s r a ac ac1 := by
  obtain ⟨me, mc, s2, hc, hm, hp, hd⟩ := co_yield_ok fuel site s r pc hy
  obtain ⟨hheap0, _, _, x, xc, hx, _, _, _⟩ := co_yield_pick_ok fuel _ s2 hp
  have hheap : s2.heap = store s.heap me
      (some ⟨mc.name, mc.func, mc.arg, mc.status, mc.waiter, some site, mc.launched⟩) := hheap0
  obtain ⟨c, cc, hc2, hcc, hrc, _, hcase⟩ := co_yield_dispatch_ok s2 r pc hd
  rw [hheap] at hcc
  have hrcur : r.current = some c := by rw [hrc, hc2]
  -- the descriptor at `a` once the context is saved
  have hsaved : (s.heap a = none → store s.heap me
        (some ⟨mc.name, mc.func, mc.arg, mc.status, mc.waiter, some site, mc.launched⟩) a
        = none) ∧
      ∀ ac, s.heap a = some ac → ∃ ac0, store s.heap me
        (some ⟨mc.name, mc.func, mc.arg, mc.status, mc.waiter, some site, mc.launched⟩) a
        = some ac0 ∧ ac0.name = ac.name ∧ ac0.func = ac.func ∧ ac0.arg = ac.arg ∧
        ac0.waiter = ac.waiter ∧ ac0.status = ac.status ∧ ac0.launched = ac.launched ∧
        (s.current ≠ some a → ac0.context = ac.context) ∧
        (s.current = some a → ac0.context = some site) := by
    by_cases ham : a = me
    · subst ham
      refine ⟨fun h => absurd h (by rw [hm]; simp), ?_⟩
      intro ac ha
      rw [hm] at ha
      cases ha
      exact ⟨_, store_same _ _ _, rfl, rfl, rfl, rfl, rfl, rfl,
        fun h => absurd hc h, fun _ => rfl⟩
    · refine ⟨fun h => by rw [store_other _ _ _ _ ham]; exact h, ?_⟩
      intro ac ha
      refine ⟨ac, by rw [store_other _ _ _ _ ham]; exact ha, rfl, rfl, rfl, rfl, rfl, rfl,
        fun _ => rfl, ?_⟩
      intro h
      rw [hc] at h
      exact absurd (Option.some.inj h).symm ham
  rcases hcase with ⟨_, hrh, _⟩ | ⟨hst, _, hrh⟩
  · rw [hheap] at hrh
    refine ⟨fun h => by rw [hrh]; exact hsaved.1 h, ?_⟩
    intro ac ha
    obtain ⟨ac0, h0, h1, h2, h3, h4, h5, h6, h7, h8⟩ := hsaved.2 ac ha
    exact ⟨ac0, by rw [hrh]; exact h0, ⟨h1, h2, h3, h4⟩, h7, h8, Or.inl ⟨h5, h6⟩⟩
  · rw [hheap] at hrh
    by_cases hac : a = c
    · subst hac
      refine ⟨fun h => ?_, ?_⟩
      · rw [hsaved.1 h] at hcc
        cases hcc
      · intro ac ha
        obtain ⟨ac0, h0, h1, h2, h3, h4, h5, h6, h7, h8⟩ := hsaved.2 ac ha
        rw [hcc] at h0
        cases h0
        refine ⟨⟨cc.name, cc.func, cc.arg, .CO_RUNNING, cc.waiter, cc.context, true⟩,
          by rw [hrh]; exact store_same _ _ _, ⟨h1, h2, h3, h4⟩, h7, h8,
          Or.inr ⟨by rw [← h5]; exact hst, rfl, rfl, hrcur⟩⟩
    · refine ⟨fun h => by rw [hrh, store_other _ _ _ _ hac]; exact hsaved.1 h, ?_⟩
      intro ac ha
      obtain ⟨ac0, h0, h1, h2, h3, h4, h5, h6, h7, h8⟩ := hsaved.2 ac ha
      exact ⟨ac0, by rw [hrh, store_other _ _ _ _ hac]; exact h0, ⟨h1, h2, h3, h4⟩, h7, h8,
        Or.inl ⟨h5, h6⟩⟩

/-- Leaving a descriptor alone is a marking. -/
theorem Marks.refl (rt s : Runtime) (a : Nat) (ac : co) : Marks rt s a ac ac :=
  ⟨⟨rfl, rfl, rfl, rfl, rfl⟩, Or.inl rfl, Or.inl rfl⟩

/-- What lines 166-167 of `co_wait` do to each descriptor. -/
theorem co_wait_mark_marks (s : Runtime) (t me : Nat) (tc mc : co)
    (hcur : s.current = some me) (ht : s.heap t = some tc) (hm : s.heap me = some mc)
    (hnd : tc.status ≠ .CO_DEAD) (hrun : mc.status = .CO_RUNNING) :
    ∃ s1, co_wait_mark t s = some s1 ∧ s1.current = s.current ∧ s1.queue = s.queue ∧
      (∃ mc1, s1.heap me = some mc1 ∧ mc1.status = .CO_WAITING) ∧
      (∃ tc1, s1.heap t = some tc1 ∧ tc1.waiter = some me) ∧
      ∀ a, (s.heap a = none → s1.heap a = none) ∧
        ∀ ac, s.heap a = some ac → ∃ ac1, s1.heap a = some ac1 ∧ Marks s s1 a ac ac1 := by
  by_cases htm : t = me
  · subst htm
    rw [ht] at hm
    cases hm
    refine ⟨⟨store (store s.heap t
        (some ⟨tc.name, tc.func, tc.arg, tc.status, some t, tc.context, tc.launched⟩)) t
        (some ⟨tc.name, tc.func, tc.arg, .CO_WAITING, some t, tc.context, tc.launched⟩),
        s.current, s.queue⟩, ?_, rfl, rfl, ⟨_, store_same _ _ _, rfl⟩,
        ⟨_, store_same _ _ _, rfl⟩, ?_⟩
    · simp [co_wait_mark, ht, hcur, store_same]
    · intro a
      by_cases hat : a = t
      · subst hat
        refine ⟨fun h => absurd h (by rw [ht]; simp), ?_⟩
        intro ac ha
        rw [ht] at ha
        cases ha
        exact ⟨_, store_same _ _ _, ⟨rfl, rfl, rfl, rfl, rfl⟩,
          Or.inr (Or.inl ⟨hcur, hrun, Or.inl rfl⟩), Or.inr ⟨hnd, hcur.symm⟩⟩
      · refine ⟨fun h => ?_, fun ac ha => ⟨ac, ?_, Marks.refl _ _ _ _⟩⟩
        · show store (store s.heap t _) t _ a = none
          rw [store_other _ _ _ _ hat, store_other _ _ _ _ hat]
          exact h
        · show store (store s.heap t _) t _ a = some ac
          rw [store_other _ _ _ _ hat, store_other _ _ _ _ hat]
          exact ha
  · have hmt : me ≠ t := fun h => htm h.symm
    refine ⟨⟨store (store s.heap t
        (some ⟨tc.name, tc.func, tc.arg, tc.status, some me, tc.context, tc.launched⟩)) me
        (some ⟨mc.name, mc.func, mc.arg, .CO_WAITING, mc.waiter, mc.context, mc.launched⟩),
        s.current, s.queue⟩, ?_, rfl, rfl, ⟨_, store_same _ _ _, rfl⟩,
        ⟨⟨tc.name, tc.func, tc.arg, tc.status, some me, tc.context, tc.launched⟩, ?_, rfl⟩, ?_⟩
    · simp [co_wait_mark, ht, hcur, store_other _ _ _ _ hmt, hm]
    · show store (store s.heap t _) me _ t = _
      rw [store_other _ _ _ _ htm, store_same]
    · intro a
      by_cases ham : a = me
      · subst ham
        refine ⟨fun h => absurd h (by rw [hm]; simp), ?_⟩
        intro ac ha
        rw [hm] at ha
        cases ha
        exact ⟨_, store_same _ _ _, ⟨rfl, rfl, rfl, rfl, rfl⟩,
          Or.inr (Or.inl ⟨hcur, hrun, Or.inl rfl⟩), Or.inl rfl⟩
      · by_cases hat : a = t
        · subst hat
          refine ⟨fun h => absurd h (by rw [ht]; simp), ?_⟩
          intro ac ha
          rw [ht] at ha
          cases ha
          refine ⟨⟨tc.name, tc.func, tc.arg, tc.status, some me, tc.context, tc.launched⟩,
            ?_, ⟨rfl, rfl, rfl, rfl, rfl⟩, Or.inl rfl, Or.inr ⟨hnd, hcur.symm⟩⟩
          show store (store s.heap a _) me _ a = _
          rw [store_other _ _ _ _ ham, store_same]
        · refine ⟨fun h => ?_, fun ac ha => ⟨ac, ?_, Marks.refl _ _ _ _⟩⟩
          · show store (store s.heap t _) me _ a = none
            rw [store_other _ _ _ _ ham, store_other _ _ _ _ hat]
            exact h
          · show store (store s.heap t _) me _ a = some ac
            rw [store_other _ _ _ _ ham, store_other _ _ _ _ hat]
            exact ha

/-- What lines 145-150 of `co_yield` do to each descriptor. -/
theorem co_yield_death_marks (s : Runtime) (me : Nat) (mc : co)
    (hcur : s.current = some me) (hm : s.heap me = some mc)
    (hrun : mc.status = .CO_RUNNING)
    (hw : ∀ w, mc.waiter = some w →
      w ≠ me ∧ ∃ wc, s.heap w = some wc ∧ wc.status = .CO_WAITING) :
    ∃ s1, co_yield_death s = some s1 ∧ s1.current = s.current ∧ s1.queue = s.queue ∧
      (∃ mc1, s1.heap me = some mc1 ∧ mc1.status = .CO_DEAD) ∧
      ∀ a, (s.heap a = none → s1.heap a = none) ∧
        ∀ ac, s.heap a = some ac → ∃ ac1, s1.heap a = some ac1 ∧ Marks s s1 a ac ac1 := by
  obtain ⟨s1, hdeath, h1c, h1q, hm1, hwoken, hsame⟩ :=
    co_yield_death_view s me mc hcur hm (fun w hw0 => ⟨(hw w hw0).1, by
      obtain ⟨wc, hx, _⟩ := (hw w hw0).2
      exact ⟨wc, hx⟩⟩)
  refine ⟨s1, hdeath, h1c, h1q, ⟨_, hm1, rfl⟩, ?_⟩
  intro a
  by_cases ham : a = me
  · subst ham
    refine ⟨fun h => absurd h (by rw [hm]; simp), ?_⟩
    intro ac ha
    rw [hm] at ha
    cases ha
    exact ⟨_, hm1, ⟨rfl, rfl, rfl, rfl, rfl⟩, Or.inr (Or.inl ⟨hcur, hrun, Or.inr rfl⟩),
      Or.inl rfl⟩
  · by_cases hwa : mc.waiter = some a
    · obtain ⟨_, wc, hwc, hws⟩ := hw a hwa
      refine ⟨fun h => absurd h (by rw [hwc]; simp), ?_⟩
      intro ac ha
      rw [hwc] at ha
      cases ha
      exact ⟨_, hwoken a wc hwa hwc, ⟨rfl, rfl, rfl, rfl, rfl⟩,
        Or.inr (Or.inr ⟨hws, rfl, me, mc, _, hcur, fun h => ham h.symm, hm, hwa, hm1, rfl⟩),
        Or.inl rfl⟩
    · refine ⟨fun h => by rw [hsame a ham hwa]; exact h, ?_⟩
      intro ac ha
      exact ⟨ac, by rw [hsame a ham hwa]; exact ha, Marks.refl _ _ _ _⟩

/-- A transition that leaves a descriptor alone. -/
theorem Evolves.unchanged (rt r : Runtime) (a : Nat) (ac : co) : Evolves rt r a ac ac := by
  refine ⟨⟨rfl, rfl, rfl⟩, fun h => h, fun h => h, ?_, fun h => absurd rfl h,
    fun h1 h2 => absurd h1 h2, fun h => h⟩
  rintro (⟨h1, h2⟩ | h)
  · exact absurd h1 h2
  · exact absurd rfl h

/-- A marking followed by a `co_yield` is a transition. -/
theorem Evolves.of_moves (site : Site) (rt s r : Runtime) (a : Nat) (ac ac0 ac1 : co)
    (hm : Marks rt s a ac ac0) (hy : YieldMove site s r a ac0 ac1)
    (hall : ∀ x xc, s.heap x = some xc →
      ∃ xc1, r.heap x = some xc1 ∧ YieldMove site s r x xc xc1)
    (hsite : s.current = some a → site = .death → ac0.status = .CO_DEAD) :
    Evolves rt r a ac ac1 := by
  obtain ⟨⟨m1, m2, m3, m4, m5⟩, mst, mw⟩ := hm
  obtain ⟨⟨y1, y2, y3, y4⟩, yo, yc, ymv⟩ := hy
  have hdead : ac.status = .CO_DEAD → ac1.status = .CO_DEAD := by
    intro hd
    have h0 : ac0.status = .CO_DEAD := by
      rcases mst with h | ⟨_, h, _⟩ | ⟨h, _⟩
      · rw [h, hd]
      · rw [hd] at h; cases h
      · rw [hd] at h; cases h
    rcases ymv with ⟨g, _⟩ | ⟨g, _⟩
    · rw [g, h0]
    · rw [h0] at g; cases g
  refine ⟨⟨y1.trans m1, y2.trans m2, y3.trans m3⟩, hdead, ?_, ?_, ?_, ?_, ?_⟩
  · intro h1
    rcases ymv with ⟨g, _⟩ | ⟨_, g, _⟩
    · rw [g] at h1
      rcases mst with h | ⟨_, _, h | h⟩ | ⟨_, h, _⟩
      · rw [← h, h1]
      · rw [h1] at h; cases h
      · rw [h1] at h; cases h
      · rw [h1] at h; cases h
    · rw [h1] at g; cases g
  · intro hp
    rcases ymv with ⟨g1, g2⟩ | ⟨g1, g2, g3, g4⟩
    · exfalso
      rcases hp with ⟨p1, p2⟩ | p
      · rcases mst with h | ⟨_, h, _⟩ | ⟨h, _⟩
        · exact p2 (by rw [g1, h, p1])
        · rw [p1] at h; cases h
        · rw [p1] at h; cases h
      · exact p (by rw [g2, m5])
    · refine ⟨?_, g2, g3, g4⟩
      rcases mst with h | ⟨_, _, h | h⟩ | ⟨_, h, _⟩
      · rw [← h, g1]
      · rw [g1] at h; cases h
      · rw [g1] at h; cases h
      · rw [g1] at h; cases h
  · intro hne
    rw [y4] at hne
    rcases mw with h | h
    · exact absurd h hne
    · exact ⟨h.1, by rw [y4]; exact h.2⟩
  · intro hw hnw
    rcases mst with h | ⟨_, h, _⟩ | ⟨_, h, me, mc, mc0, k1, _, k3, k4, k5, k6⟩
    · exfalso
      rcases ymv with ⟨g, _⟩ | ⟨g, _⟩
      · exact hnw (by rw [g, h, hw])
      · rw [h, hw] at g; cases g
    · rw [hw] at h; cases h
    · have h1 : ac1.status = .CO_RUNNING := by
        rcases ymv with ⟨g, _⟩ | ⟨_, g, _⟩
        · rw [g, h]
        · exact g
      obtain ⟨mc1, k7, k8⟩ := hall me mc0 k5
      have k9 : mc1.status = .CO_DEAD := by
        rcases k8.move with ⟨g, _⟩ | ⟨g, _⟩
        · rw [g, k6]
        · rw [k6] at g; cases g
      exact ⟨h1, me, mc, mc1, k1, k3, k4, k7, k9⟩
  · intro hwf hctx
    by_cases hcur : s.current = some a
    · have hs : site = .death := by
        rw [yc hcur] at hctx
        exact Option.some.inj hctx
      have h0 := hsite hcur hs
      rcases ymv with ⟨g, _⟩ | ⟨g, _⟩
      · rw [g, h0]
      · rw [h0] at g; cases g
    · rw [yo hcur, m4] at hctx
      exact hdead (hwf hctx)

/-- The function `co_yield` only permutes the ready list. -/
theorem co_yield_queue (fuel : Nat) (site : Site) (s r : Runtime) (pc : Pc)
    (hy : co_yield fuel site s = .ok (r, pc)) :
    List.Perm r.queue.items s.queue.items := by
  obtain ⟨me, mc, s2, _, _, hp, hd⟩ := co_yield_ok fuel site s r pc hy
  obtain ⟨_, hperm, _⟩ := co_yield_pick_ok fuel _ s2 hp
  obtain ⟨_, _, _, _, _, hrq, _⟩ := co_yield_dispatch_ok s2 r pc hd
  rw [hrq]
  exact hperm

/-- What a transition from a state satisfying the invariant does to the
descriptor at `a`: a block not in use stays so unless `co_start` allocates it;
a descriptor is released only by the reclamation of a finished coroutine, and
otherwise evolves. -/
theorem Step.evolves (rt : Runtime) (pc : Pc) (l : Label) (r : Runtime) (pc1 : Pc)
    (hinv : Inv rt pc) (hs : Step rt pc l r pc1) (a : Nat) :
    (rt.heap a = none → r.heap a = none ∨
      ∃ name func arg, r.heap a = some ⟨name, func, arg, .CO_NEW, none, none, false⟩) ∧
    ∀ ac, rt.heap a = some ac →
      (r.heap a = none ∧ l = .reclaimed a ∧ ac.status = .CO_DEAD) ∨
      ∃ ac1, r.heap a = some ac1 ∧ Evolves rt r a ac ac1 := by
  have hrec : ∀ t, r.heap = store rt.heap t none → l = .reclaimed t →
      (∃ tc, rt.heap t = some tc ∧ tc.status = .CO_DEAD) →
      (rt.heap a = none → r.heap a = none ∨
        ∃ name func arg, r.heap a = some ⟨name, func, arg, .CO_NEW, none, none, false⟩) ∧
      ∀ ac, rt.heap a = some ac →
        (r.heap a = none ∧ l = .reclaimed a ∧ ac.status = .CO_DEAD) ∨
        ∃ ac1, r.heap a = some ac1 ∧ Evolves rt r a ac ac1 := by
    intro t hrh hl ⟨tc, htc, htd⟩
    by_cases hat : a = t
    · subst hat
      refine ⟨fun _ => Or.inl (by rw [hrh]; exact store_same _ _ _), ?_⟩
      intro ac ha
      rw [htc] at ha
      cases ha
      exact Or.inl ⟨by rw [hrh]; exact store_same _ _ _, hl, htd⟩
    · refine ⟨fun h => Or.inl (by rw [hrh, store_other _ _ _ _ hat]; exact h), ?_⟩
      intro ac ha
      exact Or.inr ⟨ac, by rw [hrh, store_other _ _ _ _ hat]; exact ha, Evolves.unchanged _ _ _ _⟩
  have hmoves : ∀ (site : Site) (fuel : Nat) (s : Runtime),
      co_yield fuel site s = .ok (r, pc1) →
      (∀ x, (rt.heap x = none → s.heap x = none) ∧
        ∀ xc, rt.heap x = some xc → ∃ xc0, s.heap x = some xc0 ∧ Marks rt s x xc xc0) →
      (∀ x xc0, s.current = some x → site = .death → s.heap x = some xc0 →
        xc0.status = .CO_DEAD) →
      (rt.heap a = none → r.heap a = none ∨
        ∃ name func arg, r.heap a = some ⟨name, func, arg, .CO_NEW, none, none, false⟩) ∧
      ∀ ac, rt.heap a = some ac →
        (r.heap a = none ∧ l = .reclaimed a ∧ ac.status = .CO_DEAD) ∨
        ∃ ac1, r.heap a = some ac1 ∧ Evolves rt r a ac ac1 := by
    intro site fuel s hy hmark hsite
    refine ⟨fun h => Or.inl ((co_yield_move fuel site s r pc1 hy a).1 ((hmark a).1 h)), ?_⟩
    intro ac ha
    obtain ⟨ac0, h0, hm⟩ := (hmark a).2 ac ha
    obtain ⟨ac1, h1, hy1⟩ := (co_yield_move fuel site s r pc1 hy a).2 ac0 h0
    refine Or.inr ⟨ac1, h1, Evolves.of_moves site rt s r a ac ac0 ac1 hm hy1
      (fun x xc hx => (co_yield_move fuel site s r pc1 hy x).2 xc hx)
      (fun hc hd => hsite a ac0 hc hd h0)⟩
  obtain ⟨me, mc, hc, hm, hst, hq⟩ := hinv.cur
  cases hs with
  | start name func arg p m2 h0 _ hf hst0 =>
    obtain ⟨hrh, _, _⟩ := co_start_ok name func arg p m2 h0 rt r hst0
    by_cases hap : a = p
    · subst hap
      refine ⟨fun _ => Or.inr ⟨name, func, arg, by rw [hrh]; exact store_same _ _ _⟩, ?_⟩
      intro ac ha
      have hfree : rt.heap a = none := hf
      rw [hfree] at ha
      cases ha
    · refine ⟨fun h => Or.inl (by rw [hrh, store_other _ _ _ _ hap]; exact h), ?_⟩
      intro ac ha
      exact Or.inr ⟨ac, by rw [hrh, store_other _ _ _ _ hap]; exact ha, Evolves.unchanged _ _ _ _⟩
  | yield fuel _ _ hy =>
    refine hmoves .user fuel rt hy (fun x => ⟨fun h => h, fun xc hx =>
      ⟨xc, hx, Marks.refl _ _ _ _⟩⟩) ?_
    intro x xc0 _ hd
    cases hd
  | block fuel t tc _ _ _ htc hnd hw =>
    obtain ⟨tc1, ht1, hcase⟩ := co_wait_ok fuel t rt r pc1 hw
    rw [htc] at ht1
    cases ht1
    rcases hcase with ⟨_, s1, hmark, hy⟩ | ⟨hd, _⟩
    · obtain ⟨s1', hmark', _, _, _, _, hall⟩ :=
        co_wait_mark_marks rt t me tc mc hc htc hm hnd hst
      rw [hmark] at hmark'
      cases hmark'
      refine hmoves (.wait t) fuel s1 hy hall ?_
      intro x xc0 _ hd
      cases hd
    · exact absurd hd hnd
  | join fuel t tc _ _ _ htc hd hw =>
    obtain ⟨tc1, ht1, hcase⟩ := co_wait_ok fuel t rt r pc1 hw
    rw [htc] at ht1
    cases ht1
    rcases hcase with ⟨hnd, _⟩ | ⟨_, _, hr⟩
    · exact absurd hd hnd
    · obtain ⟨hrh, _⟩ := co_wait_reclaim_ok fuel t rt r hr
      exact hrec t hrh rfl ⟨tc, htc, hd⟩
  | ret fuel me0 mc0 _ _ _ _ _ hr =>
    have hwait : ∀ w, mc.waiter = some w →
        w ≠ me ∧ ∃ wc, rt.heap w = some wc ∧ wc.status = .CO_WAITING := by
      intro w hw
      obtain ⟨wc, hw1, hw2, _⟩ := hinv.sound.waiter me mc w hm (by rw [hst]; simp) hw
      refine ⟨?_, wc, hw1, hw2⟩
      intro hwm
      subst hwm
      rw [hm] at hw1
      cases hw1
      rw [hst] at hw2
      cases hw2
    obtain ⟨s1, hdeath, h1c, _, ⟨mc1, hm1, hd1⟩, hall⟩ :=
      co_yield_death_marks rt me mc hc hm hst hwait
    have hy : co_yield fuel .death s1 = .ok (r, pc1) := by
      unfold co_yield_return at hr
      rw [hdeath] at hr
      exact hr
    refine hmoves .death fuel s1 hy hall ?_
    intro x xc0 hx _ hx0
    rw [h1c, hc] at hx
    cases hx
    rw [hm1] at hx0
    cases hx0
    exact hd1
  | reclaim fuel t _ hr =>
    obtain ⟨hrh, _⟩ := co_wait_reclaim_ok fuel t rt r hr
    exact hrec t hrh rfl (hinv.resumed t rfl).1

/-! ## What one transition does in any state -/

/-- What lines 166-167 of `co_wait` do to each descriptor, whenever they
complete. -/
theorem co_wait_mark_touch (t : Nat) (s s1 : Runtime) (tc : co) (ht : s.heap t = some tc)
    (hnd : tc.status ≠ .CO_DEAD) (hm : co_wait_mark t s = some s1) :
    s1.current = s.current ∧ s1.queue = s.queue ∧
    ∀ a, (s.heap a = none → s1.heap a = none) ∧
      ∀ ac, s.heap a = some ac → ∃ ac0, s1.heap a = some ac0 ∧ Marked s a ac ac0 := by
  unfold co_wait_mark at hm
  simp only [ht] at hm
  rcases Option.eq_none_or_eq_some s.current with hc | ⟨me, hc⟩
  · simp [hc] at hm
  simp only [hc] at hm
  rcases Option.eq_none_or_eq_some (store s.heap t
      (some ⟨tc.name, tc.func, tc.arg, tc.status, some me, tc.context, tc.launched⟩) me)
    with h1 | ⟨mc, h1⟩
  · simp [h1] at hm
  simp only [h1, Option.some.injEq] at hm
  subst hm
  have hcur : s.current ≠ none := by rw [hc]; simp
  refine ⟨hc.symm, rfl, ?_⟩
  intro a
  by_cases ham : a = me
  · subst ham
    by_cases hat : a = t
    · subst hat
      rw [store_same] at h1
      cases h1
      refine ⟨fun h => absurd h (by rw [ht]; simp), ?_⟩
      intro ac ha
      rw [ht] at ha
      cases ha
      exact ⟨_, store_same _ _ _, ⟨rfl, rfl, rfl, rfl⟩, (fun h => by cases h),
        fun _ => ⟨hnd, hc.symm, hcur⟩⟩
    · rw [store_other _ _ _ _ hat] at h1
      refine ⟨fun h => absurd h (by rw [h1]; simp), ?_⟩
      intro ac ha
      rw [h1] at ha
      cases ha
      exact ⟨_, store_same _ _ _, ⟨rfl, rfl, rfl, rfl⟩, (fun h => by cases h),
        fun h => absurd rfl h⟩
  · by_cases hat : a = t
    · subst hat
      refine ⟨fun h => absurd h (by rw [ht]; simp), ?_⟩
      intro ac ha
      rw [ht] at ha
      cases ha
      refine ⟨⟨tc.name, tc.func, tc.arg, tc.status, some me, tc.context, tc.launched⟩, ?_,
        ⟨rfl, rfl, rfl, rfl⟩, fun h => h, fun _ => ⟨hnd, hc.symm, hcur⟩⟩
      show store (store s.heap a _) me _ a = _
      rw [store_other _ _ _ _ ham, store_same]
    · refine ⟨fun h => ?_, fun ac ha => ⟨ac, ?_, ⟨rfl, rfl, rfl, rfl⟩, fun h => h,
        fun h => absurd rfl h⟩⟩
      · show store (store s.heap t _) me _ a = none
        rw [store_other _ _ _ _ ham, store_other _ _ _ _ hat]
        exact h
      · show store (store s.heap t _) me _ a = some ac
        rw [store_other _ _ _ _ ham, store_other _ _ _ _ hat]
        exact ha

/-- What lines 145-150 of `co_yield` do to each descriptor, whenever they
complete. -/
theorem co_yield_death_touch (s s1 : Runtime) (hd : co_yield_death s = some s1) :
    s1.current = s.current ∧ s1.queue = s.queue ∧
    ∀ a, (s.heap a = none → s1.heap a = none) ∧
      ∀ ac, s.heap a = some ac → ∃ ac0, s1.heap a = some ac0 ∧ Marked s a ac ac0 := by
  unfold co_yield_death at hd
  rcases Option.eq_none_or_eq_some s.current with hc | ⟨me, hc⟩
  · simp [hc] at hd
  simp only [hc] at hd
  rcases Option.eq_none_or_eq_some (s.heap me) with hm | ⟨mc, hm⟩
  · simp [hm] at hd
  simp only [hm] at hd
  -- the descriptor at `a` once the caller is marked `CO_DEAD`
  have hfirst : ∀ a, (s.heap a = none → store s.heap me
        (some ⟨mc.name, mc.func, mc.arg, .CO_DEAD, mc.waiter, mc.context, mc.launched⟩) a
          = none) ∧
      ∀ ac, s.heap a = some ac → ∃ ac0, store s.heap me
        (some ⟨mc.name, mc.func, mc.arg, .CO_DEAD, mc.waiter, mc.context, mc.launched⟩) a
          = some ac0 ∧ ac0.name = ac.name ∧ ac0.func = ac.func ∧ ac0.arg = ac.arg ∧
          ac0.launched = ac.launched ∧ ac0.waiter = ac.waiter ∧
          (ac0.status = .CO_NEW → ac.status = .CO_NEW) := by
    intro a
    by_cases ham : a = me
    · subst ham
      refine ⟨fun h => absurd h (by rw [hm]; simp), ?_⟩
      intro ac ha
      rw [hm] at ha
      cases ha
      exact ⟨_, store_same _ _ _, rfl, rfl, rfl, rfl, rfl, (fun h => by cases h)⟩
    · refine ⟨fun h => by rw [store_other _ _ _ _ ham]; exact h, ?_⟩
      intro ac ha
      exact ⟨ac, by rw [store_other _ _ _ _ ham]; exact ha, rfl, rfl, rfl, rfl, rfl, fun h => h⟩
  rcases Option.eq_none_or_eq_some mc.waiter with hw | ⟨w, hw⟩
  · simp only [hw, Option.some.injEq] at hd
    subst hd
    refine ⟨hc.symm, rfl, ?_⟩
    intro a
    have hf := hfirst a
    rw [hw] at hf
    refine ⟨hf.1, ?_⟩
    intro ac ha
    obtain ⟨ac0, h0, h1, h2, h3, h4, h5, h6⟩ := hf.2 ac ha
    exact ⟨ac0, h0, ⟨h1, h2, h3, h4⟩, h6, fun h => absurd h5 h⟩
  · simp only [hw] at hd
    rcases Option.eq_none_or_eq_some (store s.heap me
        (some ⟨mc.name, mc.func, mc.arg, .CO_DEAD, some w, mc.context, mc.launched⟩) w)
      with h1 | ⟨wc, h1⟩
    · simp [h1] at hd
    simp only [h1, Option.some.injEq] at hd
    subst hd
    refine ⟨hc.symm, rfl, ?_⟩
    intro a
    have hf := hfirst a
    rw [hw] at hf
    by_cases haw : a = w
    · subst haw
      refine ⟨fun h => ?_, ?_⟩
      · rw [hf.1 h] at h1
        cases h1
      · intro ac ha
        obtain ⟨ac0, h0, k1, k2, k3, k4, k5, _⟩ := hf.2 ac ha
        rw [h1] at h0
        cases h0
        exact ⟨_, store_same _ _ _, ⟨k1, k2, k3, k4⟩, (fun h => by cases h),
          fun h => absurd k5 h⟩
    · refine ⟨fun h => ?_, ?_⟩
      · show store (store s.heap me _) w _ a = none
        rw [store_other _ _ _ _ haw]
        exact hf.1 h
      · intro ac ha
        obtain ⟨ac0, h0, k1, k2, k3, k4, k5, k6⟩ := hf.2 ac ha
        refine ⟨ac0, ?_, ⟨k1, k2, k3, k4⟩, k6, fun h => absurd k5 h⟩
        show store (store s.heap me _) w _ a = some ac0
        rw [store_other _ _ _ _ haw]
        exact h0

/-- Leaving a descriptor alone marks nothing. -/
theorem Marked.nothing (rt : Runtime) (a : Nat) (ac : co) : Marked rt a ac ac :=
  ⟨⟨rfl, rfl, rfl, rfl⟩, fun h => h, fun h => absurd rfl h⟩

/-- A marking followed by a `co_yield`, in any state. -/
theorem Touched.of_yield (site : Site) (rt s r : Runtime) (a : Nat) (ac ac0 ac1 : co)
    (hm : Marked rt a ac ac0) (hy : YieldMove site s r a ac0 ac1) : Touched rt r a ac ac1 := by
  obtain ⟨⟨m1, m2, m3, m4⟩, mf, mw⟩ := hm
  obtain ⟨⟨y1, y2, y3, y4⟩, _, _, ymv⟩ := hy
  refine ⟨⟨y1.trans m1, y2.trans m2, y3.trans m3⟩, ?_, ?_, ?_⟩
  · intro h1
    rcases ymv with ⟨g, _⟩ | ⟨_, g, _⟩
    · exact mf (by rw [← g]; exact h1)
    · rw [h1] at g
      cases g
  · intro hne
    rcases ymv with ⟨_, g⟩ | ⟨g1, g2, g3, g4⟩
    · exact absurd (g.trans m4) hne
    · refine ⟨mf g1, ?_, g2, g3, g4⟩
      cases hl : ac.launched with
      | false => rfl
      | true => exact absurd (by rw [g3, hl]) hne
  · intro hne
    rw [y4] at hne
    obtain ⟨h1, h2, h3⟩ := mw hne
    exact ⟨h1, by rw [y4]; exact h2, h3⟩

/-- A descriptor left alone by a transition. -/
theorem Touched.untouched (rt r : Runtime) (a : Nat) (ac : co) : Touched rt r a ac ac :=
  ⟨⟨rfl, rfl, rfl⟩, fun h => h, fun h => absurd rfl h, fun h => absurd rfl h⟩

/-- What a transition does to the descriptor at `a`, in any state whatever: a
block not in use stays so unless `co_start` puts a new descriptor in it; a
descriptor is released only by lines 171-181 run on its address. -/
theorem Step.touches (rt : Runtime) (pc : Pc) (l : Label) (r : Runtime) (pc1 : Pc)
    (hs : Step rt pc l r pc1) (a : Nat) :
    (rt.heap a = none → r.heap a = none ∨
      ∃ name func arg, r.heap a = some ⟨name, func, arg, .CO_NEW, none, none, false⟩) ∧
    ∀ ac, rt.heap a = some ac →
      (r.heap a = none ∧ l = .reclaimed a) ∨
      ∃ ac1, r.heap a = some ac1 ∧ Touched rt r a ac ac1 := by
  have hrec : ∀ t, r.heap = store rt.heap t none → l = .reclaimed t →
      (rt.heap a = none → r.heap a = none ∨
        ∃ name func arg, r.heap a = some ⟨name, func, arg, .CO_NEW, none, none, false⟩) ∧
      ∀ ac, rt.heap a = some ac →
        (r.heap a = none ∧ l = .reclaimed a) ∨
        ∃ ac1, r.heap a = some ac1 ∧ Touched rt r a ac ac1 := by
    intro t hrh hl
    by_cases hat : a = t
    · subst hat
      exact ⟨fun _ => Or.inl (by rw [hrh]; exact store_same _ _ _),
        fun ac _ => Or.inl ⟨by rw [hrh]; exact store_same _ _ _, hl⟩⟩
    · refine ⟨fun h => Or.inl (by rw [hrh, store_other _ _ _ _ hat]; exact h), ?_⟩
      intro ac ha
      exact Or.inr ⟨ac, by rw [hrh, store_other _ _ _ _ hat]; exact ha,
        Touched.untouched _ _ _ _⟩
  have hmoves : ∀ (site : Site) (fuel : Nat) (s : Runtime),
      co_yield fuel site s = .ok (r, pc1) →
      (∀ x, (rt.heap x = none → s.heap x = none) ∧
        ∀ xc, rt.heap x = some xc → ∃ xc0, s.heap x = some xc0 ∧ Marked rt x xc xc0) →
      (rt.heap a = none → r.heap a = none ∨
        ∃ name func arg, r.heap a = some ⟨name, func, arg, .CO_NEW, none, none, false⟩) ∧
      ∀ ac, rt.heap a = some ac →
        (r.heap a = none ∧ l = .reclaimed a) ∨
        ∃ ac1, r.heap a = some ac1 ∧ Touched rt r a ac ac1 := by
    intro site fuel s hy hmark
    refine ⟨fun h => Or.inl ((co_yield_move fuel site s r pc1 hy a).1 ((hmark a).1 h)), ?_⟩
    intro ac ha
    obtain ⟨ac0, h0, hm⟩ := (hmark a).2 ac ha
    obtain ⟨ac1, h1, hy1⟩ := (co_yield_move fuel site s r pc1 hy a).2 ac0 h0
    exact Or.inr ⟨ac1, h1, Touched.of_yield site rt s r a ac ac0 ac1 hm hy1⟩
  cases hs with
  | start name func arg p m2 h0 _ hf hst0 =>
    obtain ⟨hrh, _, _⟩ := co_start_ok name func arg p m2 h0 rt r hst0
    by_cases hap : a = p
    · subst hap
      refine ⟨fun _ => Or.inr ⟨name, func, arg, by rw [hrh]; exact store_same _ _ _⟩, ?_⟩
      intro ac ha
      have hfree : rt.heap a = none := hf
      rw [hfree] at ha
      cases ha
    · refine ⟨fun h => Or.inl (by rw [hrh, store_other _ _ _ _ hap]; exact h), ?_⟩
      intro ac ha
      exact Or.inr ⟨ac, by rw [hrh, store_other _ _ _ _ hap]; exact ha,
        Touched.untouched _ _ _ _⟩
  | yield fuel _ _ hy =>
    exact hmoves .user fuel rt hy (fun x => ⟨fun h => h, fun xc hx =>
      ⟨xc, hx, Marked.nothing _ _ _⟩⟩)
  | block fuel t tc _ _ _ htc hnd hw =>
    obtain ⟨tc1, ht1, hcase⟩ := co_wait_ok fuel t rt r pc1 hw
    rw [htc] at ht1
    cases ht1
    rcases hcase with ⟨_, s1, hmark, hy⟩ | ⟨hd, _⟩
    · exact hmoves (.wait t) fuel s1 hy (co_wait_mark_touch t rt s1 tc htc hnd hmark).2.2
    · exact absurd hd hnd
  | join fuel t tc _ _ _ htc hd hw =>
    obtain ⟨tc1, ht1, hcase⟩ := co_wait_ok fuel t rt r pc1 hw
    rw [htc] at ht1
    cases ht1
    rcases hcase with ⟨hnd, _⟩ | ⟨_, _, hr⟩
    · exact absurd hd hnd
    · obtain ⟨hrh, _⟩ := co_wait_reclaim_ok fuel t rt r hr
      exact hrec t hrh rfl
  | ret fuel me0 mc0 _ _ _ _ _ hr =>
    rcases Option.eq_none_or_eq_some (co_yield_death rt) with hd | ⟨s1, hd⟩
    · simp [co_yield_return, hd] at hr
    · have hy : co_yield fuel .death s1 = .ok (r, pc1) := by
        unfold co_yield_return at hr
        rw [hd] at hr
        exact hr
      exact hmoves .death fuel s1 hy (co_yield_death_touch rt s1 hd).2.2
  | reclaim fuel t _ hr =>
    obtain ⟨hrh, _⟩ := co_wait_reclaim_ok fuel t rt r hr
    exact hrec t hrh rfl

/-! ## Well-formed descriptors -/

/-- The state left by the startup constructor, written out. -/
theorem co_constructor_ok (cap : Nat) (m1 : Option Nat) (m2 : Bool) (rt : Runtime)
    (hc : co_constructor (some (q_new cap)) m1 m2 = .ok rt) :
    ∃ p, rt.current = some p ∧ rt.queue.items = [p] ∧
      rt.heap p = some ⟨"main", none, 0, .CO_RUNNING, none, none, false⟩ ∧
      ∀ a, a ≠ p → rt.heap a = none := by
  unfold co_constructor co_start at hc
  cases m1 with
  | none => simp at hc
  | some p =>
    cases m2 with
    | false => simp at hc
    | true =>
      by_cases hfull : q_is_full (q_new cap) = true
      · simp [hfull] at hc
      · simp only [hfull, if_false, Bool.false_eq_true, store_same, Res.ok.injEq,
          Bool.true_eq_false] at hc
        subst hc
        refine ⟨p, rfl, by simp [q_push, q_new], store_same _ _ _, ?_⟩
        intro a ha
        simp [store, ha]

/-- What a transition does to the ready list, in any state in which it lists
no coroutine twice: it is permuted, or gains at its tail the handle created,
or loses the handle reclaimed. -/
theorem Step.queue (rt : Runtime) (pc : Pc) (l : Label) (r : Runtime) (pc1 : Pc)
    (hnd : rt.queue.items.Nodup) (hs : Step rt pc l r pc1) :
    List.Perm r.queue.items (l.apply rt.queue.items) ∧
    (∀ p, l = .created p →
      r.queue.items = rt.queue.items ++ [p] ∧ rt.heap p = none ∧ r.heap p ≠ none) ∧
    (∀ t, l = .reclaimed t → t ∈ rt.queue.items ∧ t ∉ r.queue.items) := by
  have hrec : ∀ t fuel, co_wait_reclaim fuel t rt = .ok r → l = .reclaimed t →
      List.Perm r.queue.items (l.apply rt.queue.items) ∧
      (∀ p, l = .created p →
        r.queue.items = rt.queue.items ++ [p] ∧ rt.heap p = none ∧ r.heap p ≠ none) ∧
      (∀ t, l = .reclaimed t → t ∈ rt.queue.items ∧ t ∉ r.queue.items) := by
    intro t fuel hr hl
    obtain ⟨_, _, _, hperm, _⟩ := co_wait_reclaim_ok fuel t rt r hr
    have hnd1 : (t :: r.queue.items).Nodup := hperm.nodup_iff.2 hnd
    subst hl
    refine ⟨?_, (fun p hp => by cases hp), ?_⟩
    · have h1 := hperm.erase t
      rw [List.erase_cons_head] at h1
      exact h1
    · intro t1 ht1
      cases ht1
      exact ⟨hperm.mem_iff.1 (List.mem_cons_self _ _), (List.nodup_cons.1 hnd1).1⟩
  have hquiet : List.Perm r.queue.items rt.queue.items → l = .quiet →
      List.Perm r.queue.items (l.apply rt.queue.items) ∧
      (∀ p, l = .created p →
        r.queue.items = rt.queue.items ++ [p] ∧ rt.heap p = none ∧ r.heap p ≠ none) ∧
      (∀ t, l = .reclaimed t → t ∈ rt.queue.items ∧ t ∉ r.queue.items) := by
    intro hperm hl
    subst hl
    exact ⟨hperm, (fun p hp => by cases hp), (fun t ht => by cases ht)⟩
  cases hs with
  | start name func arg p m2 h0 _ hf hst0 =>
    obtain ⟨hrh, _, hcase⟩ := co_start_ok name func arg p m2 h0 rt r hst0
    rcases hcase with ⟨rfl, hrq⟩ | ⟨rfl, _, hrq⟩
    · exact hquiet (by rw [hrq]) rfl
    · refine ⟨by rw [hrq]; exact List.Perm.refl _, ?_, (fun t ht => by cases ht)⟩
      intro p1 hp1
      simp only [Label.ofHandle, Label.created.injEq] at hp1
      subst hp1
      exact ⟨by rw [hrq]; rfl, hf, by rw [hrh, store_same]; simp⟩
  | yield fuel _ _ hy => exact hquiet (co_yield_queue fuel .user rt r pc1 hy) rfl
  | block fuel t tc _ _ _ htc hnd0 hw =>
    obtain ⟨tc1, ht1, hcase⟩ := co_wait_ok fuel t rt r pc1 hw
    rw [htc] at ht1
    cases ht1
    rcases hcase with ⟨_, s1, hmark, hy⟩ | ⟨hd, _⟩
    · have h1q := (co_wait_mark_touch t rt s1 tc htc hnd0 hmark).2.1
      have := co_yield_queue fuel (.wait t) s1 r pc1 hy
      rw [h1q] at this
      exact hquiet this rfl
    · exact absurd hd hnd0
  | join fuel t tc _ _ _ htc hd hw =>
    obtain ⟨tc1, ht1, hcase⟩ := co_wait_ok fuel t rt r pc1 hw
    rw [htc] at ht1
    cases ht1
    rcases hcase with ⟨hnd0, _⟩ | ⟨_, _, hr⟩
    · exact absurd hd hnd0
    · exact hrec t fuel hr rfl
  | ret fuel me0 mc0 _ _ _ _ _ hr =>
    rcases Option.eq_none_or_eq_some (co_yield_death rt) with hd | ⟨s1, hd⟩
    · simp [co_yield_return, hd] at hr
    · have hy : co_yield fuel .death s1 = .ok (r, pc1) := by
        unfold co_yield_return at hr
        rw [hd] at hr
        exact hr
      have h1q := (co_yield_death_touch rt s1 hd).2.1
      have := co_yield_queue fuel .death s1 r pc1 hy
      rw [h1q] at this
      exact hquiet this rfl
  | reclaim fuel t _ hr => exact hrec t fuel hr rfl

/-- A transition keeps the ready list free of repetitions and of released
blocks, in any state. -/
theorem Step.keeps_listed (rt : Runtime) (pc : Pc) (l : Label) (r : Runtime) (pc1 : Pc)
    (hql : ∀ a ∈ rt.queue.items, rt.heap a ≠ none) (hnd : rt.queue.items.Nodup)
    (hs : Step rt pc l r pc1) :
    (∀ a ∈ r.queue.items, r.heap a ≠ none) ∧ r.queue.items.Nodup := by
  obtain ⟨hperm, hcre, hrecl⟩ := Step.queue rt pc l r pc1 hnd hs
  have hkeep : ∀ a, rt.heap a ≠ none → l ≠ .reclaimed a → r.heap a ≠ none := by
    intro a ha hl
    obtain ⟨ac, hac⟩ := Option.ne_none_iff_exists'.1 ha
    rcases (Step.touches rt pc l r pc1 hs a).2 ac hac with ⟨_, h1⟩ | ⟨ac1, h1, _⟩
    · exact absurd h1 hl
    · rw [h1]
      simp
  cases l with
  | quiet =>
    refine ⟨?_, hperm.nodup_iff.2 hnd⟩
    intro a ha
    exact hkeep a (hql a (hperm.mem_iff.1 ha)) (fun h => by cases h)
  | created p =>
    obtain ⟨_, hfree, hnew⟩ := hcre p rfl
    have hpq : p ∉ rt.queue.items := fun hp => hql p hp hfree
    refine ⟨?_, hperm.nodup_iff.2 ?_⟩
    · intro a ha
      have := hperm.mem_iff.1 ha
      simp only [Label.apply, List.mem_append, List.mem_singleton] at this
      rcases this with h | h
      · exact hkeep a (hql a h) (fun h0 => by cases h0)
      · rw [h]
        exact hnew
    · refine List.Nodup.append hnd (List.nodup_singleton p) ?_
      intro a ha hb
      simp only [List.mem_singleton] at hb
      subst hb
      exact hpq ha
  | reclaimed t =>
    refine ⟨?_, hperm.nodup_iff.2 (hnd.erase t)⟩
    intro a ha
    have h1 : a ∈ rt.queue.items.erase t := hperm.mem_iff.1 ha
    have h2 := (hnd.mem_erase_iff).1 h1
    exact hkeep a (hql a h2.2) (fun h0 => h2.1 (by cases h0; rfl))

/-- In every reachable state the ready list lists no coroutine twice and no
released block. -/
theorem Reachable.listed (rt : Runtime) (pc : Pc) (h : Reachable rt pc) :
    (∀ a ∈ rt.queue.items, rt.heap a ≠ none) ∧ rt.queue.items.Nodup := by
  revert rt pc
  refine Reachable.induct _ ?_ ?_
  · intro cap m1 m2 rt hc
    obtain ⟨p, _, hq, hp, _⟩ := co_constructor_ok cap m1 m2 rt hc
    refine ⟨?_, by rw [hq]; exact List.nodup_singleton p⟩
    intro a ha
    rw [hq] at ha
    simp only [List.mem_singleton] at ha
    subst ha
    rw [hp]
    simp
  · intro rt pc l r pc1 _ ih hs
    exact Step.keeps_listed rt pc l r pc1 ih.1 ih.2 hs

/-- A transition keeps a descriptor well formed. -/
theorem Evolves.keeps_wf (rt r : Runtime) (a : Nat) (ac ac1 : co) (he : Evolves rt r a ac ac1)
    (hw : Wf ac) : Wf ac1 := by
  refine ⟨he.ctx hw.1, ?_⟩
  intro hl hn
  have h0 := he.fresh hn
  by_cases hch : ac1.launched = ac.launched
  · exact hw.2 (by rw [← hch]; exact hl) h0
  · have := (he.launch (Or.inr hch)).2.1
    rw [hn] at this
    cases this

/-- A transition from a state that satisfies the invariant keeps the
descriptors well formed. -/
theorem Step.wf_after (rt : Runtime) (pc : Pc) (l : Label) (r : Runtime) (pc1 : Pc)
    (hinv : Inv rt pc) (hwf : ∀ a ac, rt.heap a = some ac → Wf ac)
    (hs : Step rt pc l r pc1) : ∀ a ac, r.heap a = some ac → Wf ac := by
  intro a ac1 ha1
  obtain ⟨hnone, hsome⟩ := Step.evolves rt pc l r pc1 hinv hs a
  rcases Option.eq_none_or_eq_some (rt.heap a) with h0 | ⟨ac, h0⟩
  · rcases hnone h0 with h1 | ⟨name, func, arg, h1⟩
    · rw [h1] at ha1
      cases ha1
    · rw [h1] at ha1
      cases ha1
      exact ⟨(fun h => by cases h), (fun h => by cases h)⟩
  · rcases hsome ac h0 with ⟨h1, _⟩ | ⟨ac1', h1, he⟩
    · rw [h1] at ha1
      cases ha1
    · rw [h1] at ha1
      cases ha1
      exact Evolves.keeps_wf rt r a ac ac1 he (hwf a ac h0)

/-- In every state of an orderly execution every descriptor is well formed. -/
theorem Disciplined.wf (rt : Runtime) (pc : Pc) (h : Disciplined rt pc) :
    ∀ a ac, rt.heap a = some ac → Wf ac := by
  induction h with
  | startup cap m1 m2 rt hc =>
    intro a ac ha
    obtain ⟨p, _, _, hp, hother⟩ := co_constructor_ok cap m1 m2 rt hc
    by_cases hap : a = p
    · subst hap
      rw [hp] at ha
      cases ha
      exact ⟨(fun h => by cases h), (fun h => by cases h)⟩
    · rw [hother a hap] at ha
      cases ha
  | step rt pc l r pc1 hd hs _ ih =>
    exact Step.wf_after rt pc l r pc1 (Disciplined.inv rt pc hd) ih hs

/-! ## The assertions of `co_yield` -/

/-- The loop of `co_yield` contains no assertion. -/
theorem co_yield_scan_no_abort (h : Heap) :
    ∀ (fuel item : Nat) (q : Queue) (r : Runtime), co_yield_scan h fuel item q ≠ .abort r := by
  intro fuel
  induction fuel with
  | zero => intro item q r hs; simp [co_yield_scan] at hs
  | succ f ih =>
    intro item q r hs
    unfold co_yield_scan at hs
    cases hi : h item with
    | none => simp [hi] at hs
    | some ic =>
      simp only [hi] at hs
      by_cases hr : runnable ic.status = true
      · simp [hr] at hs
      · simp only [hr] at hs
        cases hrot : rotate item q with
        | mk o q1 =>
          cases o with
          | none => simp [hrot] at hs
          | some next =>
            simp only [hrot] at hs
            exact ih next q1 r hs

/-- The loop of `co_wait` contains no assertion. -/
theorem co_wait_scan_no_abort (t : Nat) :
    ∀ (fuel item : Nat) (q : Queue) (r : Runtime), co_wait_scan t fuel item q ≠ .abort r := by
  intro fuel
  induction fuel with
  | zero => intro item q r hs; simp [co_wait_scan] at hs
  | succ f ih =>
    intro item q r hs
    unfold co_wait_scan at hs
    by_cases hr : item = t
    · simp [hr] at hs
    · simp only [hr, if_false] at hs
      cases hrot : rotate item q with
      | mk o q1 =>
        cases o with
        | none => simp [hrot] at hs
        | some next =>
          simp only [hrot] at hs
          exact ih next q1 r hs

/-- On a non-empty ready list the assertions of lines 112 and 115 hold. -/
theorem co_yield_pick_no_abort (fuel : Nat) (s r : Runtime) (hne : s.queue.items ≠ []) :
    co_yield_pick fuel s ≠ .abort r := by
  obtain ⟨x, xs, hx⟩ : ∃ x xs, s.queue.items = x :: xs := by
    cases h : s.queue.items with
    | nil => exact absurd h hne
    | cons x xs => exact ⟨x, xs, rfl⟩
  have hpop : q_pop s.queue = (some x, ⟨xs, s.queue.cap⟩) := by simp [q_pop, hx]
  have hemp : q_is_empty s.queue = false := by simp [q_is_empty, hx]
  intro hp
  simp only [co_yield_pick, hemp, hpop, Bool.false_eq_true, if_false] at hp
  cases hs : co_yield_scan s.heap fuel x ⟨xs, s.queue.cap⟩ with
  | ok a => rw [hs] at hp; cases hp
  | abort r0 => exact co_yield_scan_no_abort _ _ _ _ _ hs
  | undef => rw [hs] at hp; cases hp
  | spin => rw [hs] at hp; cases hp

/-- On a non-empty ready list the assertions of lines 171 and 173 hold. -/
theorem co_wait_reclaim_no_abort (fuel t : Nat) (s r : Runtime)
    (hne : s.queue.items ≠ []) : co_wait_reclaim fuel t s ≠ .abort r := by
  obtain ⟨x, xs, hx⟩ : ∃ x xs, s.queue.items = x :: xs := by
    cases h : s.queue.items with
    | nil => exact absurd h hne
    | cons x xs => exact ⟨x, xs, rfl⟩
  have hpop : q_pop s.queue = (some x, ⟨xs, s.queue.cap⟩) := by simp [q_pop, hx]
  have hemp : q_is_empty s.queue = false := by simp [q_is_empty, hx]
  intro hp
  simp only [co_wait_reclaim, hemp, hpop, Bool.false_eq_true, if_false] at hp
  cases hs : co_wait_scan t fuel x ⟨xs, s.queue.cap⟩ with
  | ok a =>
    rw [hs] at hp
    rcases Option.eq_none_or_eq_some (s.heap t) with h | ⟨tc, h⟩
    · simp [h] at hp
    · simp [h] at hp
  | abort r0 => exact co_wait_scan_no_abort _ _ _ _ _ hs
  | undef => rw [hs] at hp; cases hp
  | spin => rw [hs] at hp; cases hp

/-- No assertion of `co_yield` fails when the caller is listed, no other
`CO_RUNNING` coroutine is suspended at the post-death site, and the caller
itself is not `CO_RUNNING` if it yields from that site. -/
theorem co_yield_no_abort (fuel : Nat) (site : Site) (s : Runtime) (me : Nat) (mc : co)
    (hcur : s.current = some me) (hm : s.heap me = some mc) (hq : me ∈ s.queue.items)
    (hwf : ∀ a ac, s.heap a = some ac → a ≠ me → ac.status = .CO_RUNNING →
      ac.context ≠ some .death)
    (hsite : site = .death → mc.status ≠ .CO_RUNNING) (r : Runtime) :
    co_yield fuel site s ≠ .abort r := by
  intro hy
  have hsave : co_yield_save site s = some ⟨store s.heap me
      (some ⟨mc.name, mc.func, mc.arg, mc.status, mc.waiter, some site, mc.launched⟩),
      s.current, s.queue⟩ := by
    simp [co_yield_save, hcur, hm]
  simp only [co_yield, hsave] at hy
  cases hp : co_yield_pick fuel ⟨store s.heap me
      (some ⟨mc.name, mc.func, mc.arg, mc.status, mc.waiter, some site, mc.launched⟩),
      s.current, s.queue⟩ with
  | abort r0 =>
    exact co_yield_pick_no_abort fuel _ r0 (fun h => by rw [h] at hq; cases hq) hp
  | undef => rw [hp] at hy; cases hy
  | spin => rw [hp] at hy; cases hy
  | ok s2 =>
    rw [hp] at hy
    obtain ⟨hheap0, _, _, x, xc, hx, hxc0, hxr, _⟩ := co_yield_pick_ok fuel _ s2 hp
    have hheap : s2.heap = store s.heap me
      (some ⟨mc.name, mc.func, mc.arg, mc.status, mc.waiter, some site, mc.launched⟩) := hheap0
    have hxc : store s.heap me
      (some ⟨mc.name, mc.func, mc.arg, mc.status, mc.waiter, some site, mc.launched⟩) x
      = some xc := hxc0
    have hrun := (runnable_iff _).1 hxr
    have hx2 : s2.heap x = some xc := by rw [hheap]; exact hxc
    unfold co_yield_dispatch at hy
    simp only [hx, hx2] at hy
    rcases hrun with hn | hrn
    · simp only [hn] at hy
      rcases Option.eq_none_or_eq_some xc.func with hf | ⟨f, hf⟩
      · simp [hf] at hy
      · simp [hf] at hy
    · simp only [hrn] at hy
      have hctx : xc.context ≠ some .death := by
        by_cases hxm : x = me
        · subst hxm
          rw [store_same] at hxc
          cases hxc
          intro hc
          simp only [Option.some.injEq] at hc
          exact hsite hc hrn
        · rw [store_other _ _ _ _ hxm] at hxc
          exact hwf x xc hxc hxm hrn
      rcases Option.eq_none_or_eq_some xc.context with hc | ⟨st, hc⟩
      · simp [hc] at hy
      · cases st with
        | user => simp [hc] at hy
        | wait t => simp [hc] at hy
        | death => exact hctx hc

/-- After a marking of a state with well-formed descriptors, no `CO_RUNNING`
coroutine is suspended at the post-death site. -/
theorem marks_no_death_site (rt s1 : Runtime)
    (hwf : ∀ a ac, rt.heap a = some ac → Wf ac)
    (hall : ∀ a, (rt.heap a = none → s1.heap a = none) ∧
      ∀ ac, rt.heap a = some ac → ∃ ac1, s1.heap a = some ac1 ∧ Marks rt s1 a ac ac1) :
    ∀ a ac0, s1.heap a = some ac0 → ac0.status = .CO_RUNNING →
      ac0.context ≠ some .death := by
  intro a ac0 ha hrun hctx
  rcases Option.eq_none_or_eq_some (rt.heap a) with h0 | ⟨ac, h0⟩
  · rw [(hall a).1 h0] at ha
    cases ha
  · obtain ⟨ac1, h1, hm⟩ := (hall a).2 ac h0
    rw [ha] at h1
    cases h1
    have hd : ac.status = .CO_DEAD := (hwf a ac h0).1 (by rw [← hm.same.2.2.2.1]; exact hctx)
    rcases hm.status with h | ⟨_, h, _⟩ | ⟨h, _⟩
    · rw [h, hd] at hrun
      cases hrun
    · rw [hd] at h
      cases h
    · rw [hd] at h
      cases h

/-- C11 fails once a released block is handed out again. In the sample
execution coroutine `s` (2) records address 4 as its waiter after the
coroutine that waited on it was released; address 4 is then given to `e`,
which runs and finishes, its context saved by the `co_yield` of line 151. The
death of `s` writes `CO_RUNNING` into `e` (state `reuseD22`), and the next
`co_yield` of main chooses `e` and resumes it after line 151, on
`assert(0)`. -/
theorem co_yield_assert_fails :
    Reachable reuseD22 .user ∧ reuseD22.current = some 1 ∧
    reuseD22.heap 4 = some ⟨"e", some 500, 0, .CO_RUNNING, none, some .death, true⟩ ∧
    ∃ r, co_yield 5 .user reuseD22 = .abort r ∧ r.current = some 4 :=
  ⟨Reachable.ret reuseD21 5 2 ⟨"s", some 100, 0, .CO_RUNNING, some 4, some .user, true⟩
      reuseD22 .user reuseD21_reachable rfl rfl rfl rfl,
    rfl, rfl, _, rfl, rfl⟩

/-- C11, amended: in every state of an orderly execution in which user code
runs, no assertion of `co_yield` fails, whether `co_yield` is called from user
code, from `co_wait` on a listed handle, or after the return of the entry
function: the ready list is not empty when the dispatch starts, the coroutine
the scan chooses has status `CO_NEW` or `CO_RUNNING`, the coroutine that holds
the processor after an orderly transition has status `CO_RUNNING` and was not
suspended at the post-death site (so `assert(0)` is not reached), and it is
never a coroutine that was `CO_DEAD`. -/
theorem co_yield_asserts_hold (rt : Runtime) (h : Disciplined rt .user) (fuel : Nat) :
    rt.queue.items ≠ [] ∧
    (∀ r, co_yield fuel .user rt ≠ .abort r) ∧
    (∀ t r, t ∈ rt.queue.items → co_wait fuel (some t) rt ≠ .abort r) ∧
    (∀ r, co_yield_return fuel rt ≠ .abort r) ∧
    (∀ s s2, co_yield_pick fuel s = .ok s2 → ∃ c cc, s2.current = some c ∧
      s2.heap c = some cc ∧ (cc.status = .CO_NEW ∨ cc.status = .CO_RUNNING)) ∧
    (∀ l r pc1, Step rt .user l r pc1 → Orderly rt .user l →
      ∃ c cc, r.current = some c ∧ r.heap c = some cc ∧ cc.status = .CO_RUNNING ∧
        cc.context ≠ some .death ∧
        ∀ a ac, rt.heap a = some ac → ac.status = .CO_DEAD → c ≠ a) := by
  have hinv := Disciplined.inv rt .user h
  have hwf := Disciplined.wf rt .user h
  obtain ⟨me, mc, hc, hm, hst, hq⟩ := hinv.cur
  have hne : rt.queue.items ≠ [] := fun h0 => by rw [h0] at hq; cases hq
  have hwait : ∀ w, mc.waiter = some w →
      w ≠ me ∧ ∃ wc, rt.heap w = some wc ∧ wc.status = .CO_WAITING := by
    intro w hw
    obtain ⟨wc, hw1, hw2, _⟩ := hinv.sound.waiter me mc w hm (by rw [hst]; simp) hw
    refine ⟨?_, wc, hw1, hw2⟩
    intro hwm
    subst hwm
    rw [hm] at hw1
    cases hw1
    rw [hst] at hw2
    cases hw2
  refine ⟨hne, ?_, ?_, ?_, ?_, ?_⟩
  · intro r
    refine co_yield_no_abort fuel .user rt me mc hc hm hq ?_ (fun h0 => by cases h0) r
    intro a ac ha _ hrun hctx
    have := (hwf a ac ha).1 hctx
    rw [this] at hrun
    cases hrun
  · intro t r ht hw
    unfold co_wait at hw
    rcases Option.eq_none_or_eq_some (rt.heap t) with h0 | ⟨tc, h0⟩
    · simp [h0] at hw
    · simp only [h0] at hw
      by_cases hd : tc.status = .CO_DEAD
      · simp only [hd, ne_eq, not_true_eq_false, if_false] at hw
        cases hr : co_wait_reclaim fuel t rt with
        | ok r1 => rw [hr] at hw; cases hw
        | abort r0 => exact co_wait_reclaim_no_abort fuel t rt r0 hne hr
        | undef => rw [hr] at hw; cases hw
        | spin => rw [hr] at hw; cases hw
      · simp only [ne_eq, hd, not_false_eq_true, if_true] at hw
        obtain ⟨s1, hmark, h1c, h1q, ⟨mc1, hm1, hs1⟩, _, hall⟩ :=
          co_wait_mark_marks rt t me tc mc hc h0 hm hd hst
        simp only [hmark] at hw
        refine co_yield_no_abort fuel (.wait t) s1 me mc1 (by rw [h1c, hc]) hm1
          (by rw [h1q]; exact hq) ?_ (fun h1 => by cases h1) r hw
        intro a ac0 ha _ hrun
        exact marks_no_death_site rt s1 hwf hall a ac0 ha hrun
  · intro r hr
    obtain ⟨s1, hdeath, h1c, h1q, ⟨mc1, hm1, hd1⟩, hall⟩ :=
      co_yield_death_marks rt me mc hc hm hst hwait
    simp only [co_yield_return, hdeath] at hr
    refine co_yield_no_abort fuel .death s1 me mc1 (by rw [h1c, hc]) hm1
      (by rw [h1q]; exact hq) ?_ ?_ r hr
    · intro a ac0 ha _ hrun
      exact marks_no_death_site rt s1 hwf hall a ac0 ha hrun
    · intro _ hrun
      rw [hd1] at hrun
      cases hrun
  · intro s s2 hp
    obtain ⟨hheap, _, _, x, xc, hx, hxc, hxr, _⟩ := co_yield_pick_ok fuel s s2 hp
    exact ⟨x, xc, hx, by rw [hheap]; exact hxc, (runnable_iff _).1 hxr⟩
  · intro l r pc1 hs ho
    obtain ⟨c, cc, h1, h2, h3, _⟩ := (Inv.orderly_step rt .user l r pc1 hinv hs ho).cur
    refine ⟨c, cc, h1, h2, h3, ?_, ?_⟩
    · intro hctx
      have := (Step.wf_after rt .user l r pc1 hinv hwf hs c cc h2).1 hctx
      rw [this] at h3
      cases h3
    · intro a ac ha hd hca
      subst hca
      rcases (Step.evolves rt .user l r pc1 hinv hs c).2 ac ha with ⟨h4, _⟩ | ⟨ac1, h4, he⟩
      · rw [h4] at h2
        cases h2
      · rw [h4] at h2
        cases h2
        rw [he.dead hd] at h3
        cases h3

/-- C11 at the sample execution: in the state `reuse7`, where `t` runs, `s` is
blocked in `co_wait(t)` and `z` has finished, no call aborts, and after the
return of the entry function of `t` main holds the processor, `CO_RUNNING` and
suspended at a `co_yield` of user code. -/
theorem co_yield_asserts_hold_witness :
    reuse7.queue.items ≠ [] ∧
    (∀ r, co_yield 5 .user reuse7 ≠ .abort r) ∧
    (∀ t r, t ∈ reuse7.queue.items → co_wait 5 (some t) reuse7 ≠ .abort r) ∧
    (∀ r, co_yield_return 5 reuse7 ≠ .abort r) ∧
    (∃ c cc, reuse8.current = some c ∧ reuse8.heap c = some cc ∧
      cc.status = .CO_RUNNING ∧ cc.context ≠ some .death ∧
      ∀ a ac, reuse7.heap a = some ac → ac.status = .CO_DEAD → c ≠ a) :=
  ⟨(co_yield_asserts_hold reuse7 reuse7_disciplined 5).1,
    (co_yield_asserts_hold reuse7 reuse7_disciplined 5).2.1,
    (co_yield_asserts_hold reuse7 reuse7_disciplined 5).2.2.1,
    (co_yield_asserts_hold reuse7 reuse7_disciplined 5).2.2.2.1,
    (co_yield_asserts_hold reuse7 reuse7_disciplined 5).2.2.2.2.2 .quiet reuse8 .user
      reuse8_step (orderly_quiet _ _)⟩

/-! ## The population of the ready list -/

/-- The bookkeeping of created and reclaimed handles respects permutations. -/
theorem Label.apply_perm (l : Label) (xs ys : List Nat) (h : List.Perm xs ys) :
    List.Perm (l.apply xs) (l.apply ys) := by
  cases l with
  | quiet => exact h
  | created p => exact h.append_right [p]
  | reclaimed t => exact h.erase t

/-- Every reachable state is reached along an execution with its bookkeeping
of created and reclaimed handles. -/
theorem Reachable.tracked (rt : Runtime) (pc : Pc) (h : Reachable rt pc) :
    ∃ live, Tracked rt pc live := by
  revert rt pc
  refine Reachable.induct _ ?_ ?_
  · intro cap m1 m2 rt hc
    obtain ⟨p, hp, _⟩ := co_constructor_ok cap m1 m2 rt hc
    exact ⟨[p], Tracked.startup cap m1 m2 rt p hc hp⟩
  · intro rt pc l r pc1 _ ih hs
    obtain ⟨live, hl⟩ := ih
    exact ⟨l.apply live, Tracked.step rt pc live l r pc1 hl hs⟩

/-- A state with its bookkeeping is reachable. -/
theorem Tracked.to_reachable (rt : Runtime) (pc : Pc) (live : List Nat)
    (h : Tracked rt pc live) : Reachable rt pc := by
  induction h with
  | startup cap m1 m2 rt p hc _ => exact Reachable.startup cap m1 m2 rt hc
  | step rt pc live l r pc1 _ hs ih => exact Reachable.step rt pc l r pc1 ih hs

/-- The ready list is a permutation of the handles created and not reclaimed. -/
theorem Tracked.perm (rt : Runtime) (pc : Pc) (live : List Nat)
    (h : Tracked rt pc live) : List.Perm rt.queue.items live := by
  induction h with
  | startup cap m1 m2 rt p hc hp =>
    obtain ⟨p1, hp1, hq, _⟩ := co_constructor_ok cap m1 m2 rt hc
    rw [hp] at hp1
    cases hp1
    rw [hq]
  | step rt pc live l r pc1 ht hs ih =>
    have hnd := (Reachable.listed rt pc (Tracked.to_reachable rt pc live ht)).2
    exact (Step.queue rt pc l r pc1 hnd hs).1.trans (Label.apply_perm l _ _ ih)

/-- C12 fails once a released block is handed out again. In the sample
execution coroutine `s` (2) records address 4 as its waiter after the
coroutine that waited on it was released; address 4 is then given to `e`,
which calls `co_wait` on itself and blocks. The death of `s` writes
`CO_RUNNING` into `e`, which is resumed at line 171 of its `co_wait(e)` and
removes and frees itself: in the state `reuseS24` the current coroutine is
address 4, which is neither allocated nor in the ready list `[2, 1]`. -/
theorem current_not_in_ready_list :
    Reachable reuseS24 .user ∧ reuseS24.current = some 4 ∧
    reuseS24.queue.items = [2, 1] ∧ 4 ∉ reuseS24.queue.items ∧ reuseS24.heap 4 = none :=
  ⟨reuseS24_reachable, rfl, rfl, by decide, rfl⟩

/-- C12, amended: along every execution from startup, whatever blocks `malloc`
hands out, the ready list holds exactly the handles created (main at startup,
then each handle returned by `co_start`) and not yet taken out by lines
171-181 of `co_wait`, each exactly once and each allocated; a coroutine of
the ready list, `CO_DEAD` or not, is still in it after every transition other
than lines 171-181 run on its address; and in every state of an orderly
execution the current coroutine is allocated and in the ready list. -/
theorem ready_list_exact (rt : Runtime) (pc : Pc) (live : List Nat)
    (h : Tracked rt pc live) :
    Reachable rt pc ∧
    List.Perm rt.queue.items live ∧ live.Nodup ∧ rt.queue.items.Nodup ∧
    (∀ a, a ∈ rt.queue.items ↔ a ∈ live) ∧
    (∀ a ∈ rt.queue.items, rt.heap a ≠ none) ∧
    (∀ l r pc1, Step rt pc l r pc1 →
      ∀ a ∈ rt.queue.items, l ≠ .reclaimed a → a ∈ r.queue.items) ∧
    (Disciplined rt pc →
      ∃ me mc, rt.current = some me ∧ rt.heap me = some mc ∧ me ∈ rt.queue.items) := by
  have hr := Tracked.to_reachable rt pc live h
  obtain ⟨hql, hnd⟩ := Reachable.listed rt pc hr
  have hperm := Tracked.perm rt pc live h
  refine ⟨hr, hperm, hperm.nodup_iff.1 hnd, hnd, fun a => hperm.mem_iff, hql, ?_, ?_⟩
  · intro l r pc1 hs a ha hne
    have hq1 := (Step.queue rt pc l r pc1 hnd hs).1
    apply hq1.mem_iff.2
    cases l with
    | quiet => exact ha
    | created p => exact List.mem_append_left _ ha
    | reclaimed t =>
      have hat : a ≠ t := fun h0 => hne (by rw [h0])
      exact (List.mem_erase_of_ne hat).2 ha
  · intro hd
    obtain ⟨me, mc, hc, hm, _, hq⟩ := (Disciplined.inv rt pc hd).cur
    exact ⟨me, mc, hc, hm, hq⟩

/-- The bookkeeping of the sample execution at the moment main is resumed
inside its `co_wait`: main (1) and coroutine 2 were created, none reclaimed. -/
theorem sampleRun3_tracked : Tracked sampleRun3 (.reclaim 2) [1, 2] :=
  Tracked.step sampleRun2 .user [1, 2] .quiet sampleRun3 (.reclaim 2)
    (Tracked.step sampleRun1 .user [1, 2] .quiet sampleRun2 .user
      (Tracked.step sampleRun0 .user [1] (.created 2) sampleRun1 .user
        (Tracked.startup 8 (some 1) true sampleRun0 1 rfl rfl) sampleRun01_step)
      sampleRun12_step)
    sampleRun23_step

/-- C12 at the sample execution: the ready list `[2, 1]` holds main and
coroutine 2, which is `CO_DEAD` and not yet reclaimed, and main is current. -/
theorem ready_list_exact_witness :
    Reachable sampleRun3 (.reclaim 2) ∧
    List.Perm sampleRun3.queue.items [1, 2] ∧ [1, 2].Nodup ∧ sampleRun3.queue.items.Nodup ∧
    (∀ a, a ∈ sampleRun3.queue.items ↔ a ∈ [1, 2]) ∧
    (∀ a ∈ sampleRun3.queue.items, sampleRun3.heap a ≠ none) ∧
    (∀ l r pc1, Step sampleRun3 (.reclaim 2) l r pc1 →
      ∀ a ∈ sampleRun3.queue.items, l ≠ .reclaimed a → a ∈ r.queue.items) ∧
    (∃ me mc, sampleRun3.current = some me ∧ sampleRun3.heap me = some mc ∧
      me ∈ sampleRun3.queue.items) :=
  (fun t => ⟨t.1, t.2.1, t.2.2.1, t.2.2.2.1, t.2.2.2.2.1, t.2.2.2.2.2.1, t.2.2.2.2.2.2.1,
      t.2.2.2.2.2.2.2 sampleRun3_disciplined⟩)
    (ready_list_exact sampleRun3 (.reclaim 2) [1, 2] sampleRun3_tracked)

/-! ## Statuses that never come back -/

/-- Along orderly transitions, a descriptor is released only by a reclamation
of it, and a property kept by each transition is kept until then. -/
theorem Onward.keeps (rt : Runtime) (pc : Pc) (ls : List Label) (r : Runtime) (pc1 : Pc)
    (h : Disciplined rt pc) (hl : Onward rt pc ls r pc1) (a : Nat) (ac : co)
    (ha : rt.heap a = some ac) (hnr : Label.reclaimed a ∉ ls)
    (P : co → Prop) (hP : P ac)
    (hstep : ∀ s t b b1, Evolves s t a b b1 → Wf b → P b → P b1) :
    ∃ ac1, r.heap a = some ac1 ∧ P ac1 := by
  induction hl with
  | refl => exact ⟨ac, ha, hP⟩
  | next ls r1 pc1 l r2 pc2 hl1 hs _ ih =>
    have hnr1 : Label.reclaimed a ∉ ls := fun h0 => hnr (List.mem_append_left _ h0)
    obtain ⟨ac1, h1, hp1⟩ := ih hnr1
    have hd1 := Onward.disciplined rt pc ls r1 pc1 h hl1
    rcases (Step.evolves r1 pc1 l r2 pc2 (Disciplined.inv r1 pc1 hd1) hs a).2 ac1 h1 with
      ⟨_, h2, _⟩ | ⟨ac2, h2, he⟩
    · exact absurd (by rw [h2]; simp) hnr
    · exact ⟨ac2, h2, hstep r1 r2 ac1 ac2 he (Disciplined.wf r1 pc1 hd1 a ac1 h1) hp1⟩

/-- C13 fails once a released block is handed out again. In the sample
execution coroutine `s` (2) records address 4 as its waiter after the
coroutine that waited on it was released; address 4 is then given to `e`,
which runs and finishes. In the state `reuseD21` coroutine `e` is `CO_DEAD`
and `s` is current; the return of the entry function of `s` (line 149, the
wake-up of the recorded waiter) writes `CO_RUNNING` into `e`, which has not
been reclaimed. -/
theorem dead_becomes_running :
    Reachable reuseD21 .user ∧ reuseD21.current = some 2 ∧
    Step reuseD21 .user .quiet reuseD22 .user ∧
    reuseD21.heap 4 = some ⟨"e", some 500, 0, .CO_DEAD, none, some .death, true⟩ ∧
    reuseD22.heap 4 = some ⟨"e", some 500, 0, .CO_RUNNING, none, some .death, true⟩ :=
  ⟨reuseD21_reachable, rfl,
    Step.ret reuseD21 5 2 ⟨"s", some 100, 0, .CO_RUNNING, some 4, some .user, true⟩
      reuseD22 .user rfl rfl rfl rfl,
    rfl, rfl⟩

/-- C13, amended: in every state of an orderly execution, a coroutine whose
status is `CO_DEAD` keeps that status through every transition (`co_start`,
`co_yield`, `co_wait`, the return of an entry function with its wake-up of the
waiter) unless that transition is the reclamation of this very coroutine,
which releases it and takes it out of the ready list; hence along any orderly
execution it is `CO_DEAD` until it is reclaimed. -/
theorem dead_is_final (rt : Runtime) (pc : Pc) (h : Disciplined rt pc) (a : Nat) (ac : co)
    (ha : rt.heap a = some ac) (hd : ac.status = .CO_DEAD) :
    (∀ l r pc1, Step rt pc l r pc1 →
      (∃ ac1, r.heap a = some ac1 ∧ ac1.status = .CO_DEAD) ∨
      (l = .reclaimed a ∧ r.heap a = none ∧ a ∉ r.queue.items)) ∧
    (∀ ls r pc1, Onward rt pc ls r pc1 →
      Label.reclaimed a ∈ ls ∨ ∃ ac1, r.heap a = some ac1 ∧ ac1.status = .CO_DEAD) := by
  constructor
  · intro l r pc1 hs
    have hinv := Disciplined.inv rt pc h
    rcases (Step.evolves rt pc l r pc1 hinv hs a).2 ac ha with ⟨h1, h2, _⟩ | ⟨ac1, h1, he⟩
    · exact Or.inr ⟨h2, h1, ((Step.queue rt pc l r pc1 hinv.sound.nodup hs).2.2 a h2).2⟩
    · exact Or.inl ⟨ac1, h1, he.dead hd⟩
  · intro ls r pc1 hl
    by_cases hm : Label.reclaimed a ∈ ls
    · exact Or.inl hm
    · exact Or.inr (Onward.keeps rt pc ls r pc1 h hl a ac ha hm
        (fun c => c.status = .CO_DEAD) hd (fun _ _ _ _ he _ hb => he.dead hb))

/-- C13 at the sample execution: in the state `reuse7` coroutine `z` (3) is
`CO_DEAD`; the entry function of `t` then returns and wakes its waiter `s`,
and `z` is still `CO_DEAD` in the state `reuse8`. -/
theorem dead_is_final_witness :
    ((∃ ac1, reuse8.heap 3 = some ac1 ∧ ac1.status = .CO_DEAD) ∨
      (Label.quiet = .reclaimed 3 ∧ reuse8.heap 3 = none ∧ 3 ∉ reuse8.queue.items)) ∧
    (∀ ls r pc1, Onward reuse7 .user ls r pc1 →
      Label.reclaimed 3 ∈ ls ∨ ∃ ac1, r.heap 3 = some ac1 ∧ ac1.status = .CO_DEAD) :=
  ⟨(dead_is_final reuse7 .user reuse7_disciplined 3
      ⟨"z", some 200, 0, .CO_DEAD, none, some .death, true⟩ rfl rfl).1 .quiet reuse8 .user
      reuse8_step,
    (dead_is_final reuse7 .user reuse7_disciplined 3
      ⟨"z", some 200, 0, .CO_DEAD, none, some .death, true⟩ rfl rfl).2⟩

/-! ## The call of the entry function -/

/-- A transition keeps the fact that a launched coroutine is not `CO_NEW`. -/
theorem Touched.keeps_launched (rt r : Runtime) (a : Nat) (ac ac1 : co)
    (ht : Touched rt r a ac ac1) (hw : ac.launched = true → ac.status ≠ .CO_NEW) :
    ac1.launched = true → ac1.status ≠ .CO_NEW := by
  intro hl hn
  have h0 := ht.fresh hn
  by_cases hch : ac1.launched = ac.launched
  · exact hw (by rw [← hch]; exact hl) h0
  · have := (ht.launch hch).2.2.1
    rw [hn] at this
    cases this

/-- In every reachable state, whatever blocks `malloc` hands out, a coroutine
whose entry function has been called is not `CO_NEW`. -/
theorem Reachable.launched (rt : Runtime) (pc : Pc) (h : Reachable rt pc) :
    ∀ a ac, rt.heap a = some ac → ac.launched = true → ac.status ≠ .CO_NEW := by
  revert rt pc
  refine Reachable.induct _ ?_ ?_
  · intro cap m1 m2 rt hc a ac ha hl
    obtain ⟨p, _, _, hp, hother⟩ := co_constructor_ok cap m1 m2 rt hc
    by_cases hap : a = p
    · subst hap
      rw [hp] at ha
      cases ha
      cases hl
    · rw [hother a hap] at ha
      cases ha
  · intro rt pc l r pc1 _ ih hs a ac1 ha1
    obtain ⟨hnone, hsome⟩ := Step.touches rt pc l r pc1 hs a
    rcases Option.eq_none_or_eq_some (rt.heap a) with h0 | ⟨ac, h0⟩
    · rcases hnone h0 with h1 | ⟨name, func, arg, h1⟩
      · rw [h1] at ha1
        cases ha1
      · rw [h1] at ha1
        cases ha1
        intro hl
        cases hl
    · rcases hsome ac h0 with ⟨h1, _⟩ | ⟨ac1', h1, ht⟩
      · rw [h1] at ha1
        cases ha1
      · rw [h1] at ha1
        cases ha1
        exact Touched.keeps_launched rt r a ac ac1 ht (ih a ac h0)

/-- Along transitions, a descriptor is released only by lines 171-181 run on
its address, and a property kept by each transition is kept until then. -/
theorem Later.kept (rt : Runtime) (pc : Pc) (ls : List Label) (r : Runtime) (pc1 : Pc)
    (h : Reachable rt pc) (hl : Later rt pc ls r pc1) (a : Nat) (ac : co)
    (ha : rt.heap a = some ac) (hnr : Label.reclaimed a ∉ ls)
    (P : co → Prop) (hP : P ac)
    (hstep : ∀ s t b b1, Touched s t a b b1 →
      (b.launched = true → b.status ≠ .CO_NEW) → P b → P b1) :
    ∃ ac1, r.heap a = some ac1 ∧ P ac1 := by
  induction hl with
  | refl => exact ⟨ac, ha, hP⟩
  | next ls r1 pc1 l r2 pc2 hl1 hs ih =>
    have hnr1 : Label.reclaimed a ∉ ls := fun h0 => hnr (List.mem_append_left _ h0)
    obtain ⟨ac1, h1, hp1⟩ := ih hnr1
    have hr1 := Later.reachable rt pc ls r1 pc1 h hl1
    rcases (Step.touches r1 pc1 l r2 pc2 hs a).2 ac1 h1 with ⟨_, h2⟩ | ⟨ac2, h2, ht⟩
    · exact absurd (by rw [h2]; simp) hnr
    · exact ⟨ac2, h2, hstep r1 r2 ac1 ac2 ht (Reachable.launched r1 pc1 hr1 a ac1 h1) hp1⟩

/-- C14: in every reachable state, whatever blocks `malloc` hands out, a
`CO_NEW` coroutine has not had its entry function called. Through any
transition a descriptor keeps its entry and argument; its status is `CO_NEW`
afterwards only if it was `CO_NEW` before; its entry function is called (the
`launched` mark changes) only when it was `CO_NEW` and not yet launched, and
then its status is `CO_RUNNING` and it is the coroutine dispatched; once
launched it stays launched and never `CO_NEW`, so it is never launched again,
along any execution, until lines 171-181 release it. A descriptor that appears
in a transition is `CO_NEW` and not launched. -/
theorem entry_called_once (rt : Runtime) (pc : Pc) (h : Reachable rt pc) (a : Nat) (ac : co)
    (ha : rt.heap a = some ac) :
    (ac.status = .CO_NEW → ac.launched = false) ∧
    (∀ l r pc1 ac1, Step rt pc l r pc1 → r.heap a = some ac1 →
      ac1.func = ac.func ∧ ac1.arg = ac.arg ∧
      (ac1.status = .CO_NEW → ac.status = .CO_NEW) ∧
      (ac1.launched ≠ ac.launched → ac.status = .CO_NEW ∧ ac.launched = false ∧
        ac1.status = .CO_RUNNING ∧ ac1.launched = true ∧ r.current = some a) ∧
      (ac.launched = true → ac1.launched = true ∧ ac1.status ≠ .CO_NEW)) ∧
    (∀ ls r pc1, Later rt pc ls r pc1 → Label.reclaimed a ∉ ls →
      ∃ ac2, r.heap a = some ac2 ∧ (ac.status ≠ .CO_NEW → ac2.status ≠ .CO_NEW) ∧
        (ac.launched = true → ac2.launched = true ∧ ac2.status ≠ .CO_NEW)) ∧
    (∀ l r pc1 b bc, Step rt pc l r pc1 → rt.heap b = none → r.heap b = some bc →
      bc.status = .CO_NEW ∧ bc.launched = false) := by
  have hw := Reachable.launched rt pc h a ac ha
  have hnl : ac.status = .CO_NEW → ac.launched = false := by
    intro hn
    cases hl : ac.launched with
    | false => rfl
    | true => exact absurd hn (hw hl)
  have hstay : ∀ (s t : Runtime) (b b1 : co), Touched s t a b b1 →
      (b.launched = true → b.status ≠ .CO_NEW) → b.launched = true → b1.launched = true := by
    intro s t b b1 ht hb hl
    by_contra hch
    have k := (ht.launch (by rw [hl]; exact hch)).1
    exact hb hl k
  refine ⟨hnl, ?_, ?_, ?_⟩
  · intro l r pc1 ac1 hs ha1
    rcases (Step.touches rt pc l r pc1 hs a).2 ac ha with ⟨h1, _⟩ | ⟨ac1', h1, ht⟩
    · rw [h1] at ha1
      cases ha1
    · rw [h1] at ha1
      cases ha1
      refine ⟨ht.same.2.1, ht.same.2.2, ht.fresh, ht.launch, ?_⟩
      intro hl
      have hl1 := hstay rt r ac ac1 ht hw hl
      exact ⟨hl1, Touched.keeps_launched rt r a ac ac1 ht hw hl1⟩
  · intro ls r pc1 hl hnr
    obtain ⟨ac2, h2, ⟨k1, k2⟩, k3⟩ := Later.kept rt pc ls r pc1 h hl a ac ha hnr
      (fun c => ((ac.status ≠ .CO_NEW → c.status ≠ .CO_NEW) ∧
        (ac.launched = true → c.launched = true)) ∧
        (c.launched = true → c.status ≠ .CO_NEW))
      ⟨⟨fun h0 => h0, fun h0 => h0⟩, hw⟩
      (by
        intro s t b b1 ht hwb hb
        exact ⟨⟨fun h0 h1 => hb.1.1 h0 (ht.fresh h1),
          fun h0 => hstay s t b b1 ht hwb (hb.1.2 h0)⟩, Touched.keeps_launched s t a b b1 ht hwb⟩)
    exact ⟨ac2, h2, k1, fun h0 => ⟨k2 h0, k3 (k2 h0)⟩⟩
  · intro l r pc1 b bc hs hb hb1
    rcases (Step.touches rt pc l r pc1 hs b).1 hb with h1 | ⟨name, func, arg, h1⟩
    · rw [h1] at hb1
      cases hb1
    · rw [h1] at hb1
      cases hb1
      exact ⟨rfl, rfl⟩

/-- C14 at the sample execution: coroutine 2 is `CO_NEW` and not launched in
the state `sampleRun1`; the `co_wait(2)` of main dispatches it, and in the
state `sampleRun2` it has been launched, is `CO_RUNNING` and is current. -/
theorem entry_called_once_witness :
    (co_status.CO_NEW = .CO_NEW → false = false) ∧
    (some (100 : Nat) = some 100 ∧ (0 : Nat) = 0 ∧
      (co_status.CO_RUNNING = .CO_NEW → co_status.CO_NEW = .CO_NEW) ∧
      (true ≠ false → co_status.CO_NEW = .CO_NEW ∧ false = false ∧
        co_status.CO_RUNNING = .CO_RUNNING ∧ true = true ∧ sampleRun2.current = some 2) ∧
      (false = true → true = true ∧ co_status.CO_RUNNING ≠ .CO_NEW)) :=
  ⟨(entry_called_once sampleRun1 .user sampleRun1_reachable 2
      ⟨"b", some 100, 0, .CO_NEW, none, none, false⟩ rfl).1,
    (entry_called_once sampleRun1 .user sampleRun1_reachable 2
      ⟨"b", some 100, 0, .CO_NEW, none, none, false⟩ rfl).2.1 .quiet sampleRun2 .user
      ⟨"b", some 100, 0, .CO_RUNNING, some 1, none, true⟩ sampleRun12_step rfl⟩

/-! ## Two waiters on one coroutine -/

theorem sampleWait2_reachable : Reachable sampleWait2 .user :=
  Reachable.start sampleRun1 "c" (some 200) 0 3 true (some 3) sampleWait2
    sampleRun1_reachable rfl rfl

theorem sampleWait12_step : Step sampleRun1 .user (.created 3) sampleWait2 .user :=
  Step.start sampleRun1 "c" (some 200) 0 3 true (some 3) sampleWait2 rfl rfl

theorem sampleWait23_step : Step sampleWait2 .user .quiet sampleWait3 .user :=
  Step.block sampleWait2 2 2 ⟨"b", some 100, 0, .CO_NEW, none, none, false⟩ sampleWait3 .user
    (by decide) rfl (by decide) rfl

theorem sampleWait34_step : Step sampleWait3 .user .quiet sampleWait4 .user :=
  Step.yield sampleWait3 1 sampleWait4 .user rfl

theorem sampleWait45_step : Step sampleWait4 .user .quiet sampleWait5 .user :=
  Step.block sampleWait4 2 2 ⟨"b", some 100, 0, .CO_RUNNING, some 1, some .user, true⟩
    sampleWait5 .user (by decide) rfl (by decide) rfl

theorem sampleWait4_disciplined : Disciplined sampleWait4 .user :=
  Disciplined.step sampleWait3 .user .quiet sampleWait4 .user
    (Disciplined.step sampleWait2 .user .quiet sampleWait3 .user
      (Disciplined.step sampleRun1 .user (.created 3) sampleWait2 .user
        (Disciplined.step sampleRun0 .user (.created 2) sampleRun1 .user
          (Disciplined.startup 8 (some 1) true sampleRun0 rfl) sampleRun01_step
          (orderly_created _ _ _))
        sampleWait12_step (orderly_created _ _ _))
      sampleWait23_step (orderly_quiet _ _))
    sampleWait34_step (orderly_quiet _ _)

/-- C19 fails when two coroutines wait on the same one: in this execution the
waiter field of coroutine 2 is written by the `co_wait` of main (it becomes 1)
and written again by the `co_wait` of coroutine 3 (it becomes 3), while
coroutine 2 is alive. -/
theorem waiter_written_twice :
    Reachable sampleWait2 .user ∧
    Step sampleWait2 .user .quiet sampleWait3 .user ∧
    Step sampleWait3 .user .quiet sampleWait4 .user ∧
    Step sampleWait4 .user .quiet sampleWait5 .user ∧
    (∃ c, sampleWait2.heap 2 = some c ∧ c.waiter = none) ∧
    (∃ c, sampleWait3.heap 2 = some c ∧ c.waiter = some 1) ∧
    (∃ c, sampleWait4.heap 2 = some c ∧ c.waiter = some 1) ∧
    (∃ c, sampleWait5.heap 2 = some c ∧ c.waiter = some 3) :=
  ⟨sampleWait2_reachable, sampleWait23_step, sampleWait34_step, sampleWait45_step,
    ⟨_, rfl, rfl⟩, ⟨_, rfl, rfl⟩, ⟨_, rfl, rfl⟩, ⟨_, rfl, rfl⟩⟩

/-- C19, amended: in every execution, whatever the state and whatever blocks
`malloc` hands out, a descriptor is created with its waiter field unset, and a
transition changes the waiter field of a coroutine only while that
coroutine's status is not `CO_DEAD`, the value written being the coroutine
current at that moment (the caller of `co_wait`); nothing limits the number of
such writes. -/
theorem waiter_written_alive (rt : Runtime) (pc : Pc) (l : Label) (r : Runtime) (pc1 : Pc)
    (hs : Step rt pc l r pc1) (a : Nat) :
    (∀ ac1, rt.heap a = none → r.heap a = some ac1 → ac1.waiter = none) ∧
    (∀ ac ac1, rt.heap a = some ac → r.heap a = some ac1 → ac1.waiter ≠ ac.waiter →
      ac.status ≠ .CO_DEAD ∧ ac1.waiter = rt.current ∧ ac1.waiter ≠ none) ∧
    (∀ ac ac1, rt.heap a = some ac → r.heap a = some ac1 → ac.status = .CO_DEAD →
      ac1.waiter = ac.waiter) := by
  obtain ⟨hnone, hsome⟩ := Step.touches rt pc l r pc1 hs a
  have hev : ∀ ac ac1, rt.heap a = some ac → r.heap a = some ac1 → Touched rt r a ac ac1 := by
    intro ac ac1 ha ha1
    rcases hsome ac ha with ⟨h1, _⟩ | ⟨ac1', h1, he⟩
    · rw [h1] at ha1
      cases ha1
    · rw [h1] at ha1
      cases ha1
      exact he
  refine ⟨?_, ?_, ?_⟩
  · intro ac1 ha ha1
    rcases hnone ha with h1 | ⟨name, func, arg, h1⟩
    · rw [h1] at ha1
      cases ha1
    · rw [h1] at ha1
      cases ha1
      rfl
  · intro ac ac1 ha ha1 hch
    obtain ⟨k1, k2, k3⟩ := (hev ac ac1 ha ha1).waiter hch
    exact ⟨k1, k2, by rw [k2]; exact k3⟩
  · intro ac ac1 ha ha1 hd
    by_contra hch
    exact ((hev ac ac1 ha ha1).waiter hch).1 hd

/-- C19, amended, at two transitions of the sample execution: the `co_start`
that creates coroutine 3 leaves its waiter field unset; and at the second
`co_wait` on coroutine 2, which is `CO_RUNNING`, the waiter field of
coroutine 2 changes from main to coroutine 3, the caller. -/
theorem waiter_written_alive_witness :
    (sampleRun1.heap 3 = none ∧
      sampleWait2.heap 3 = some ⟨"c", some 200, 0, .CO_NEW, none, none, false⟩ ∧
      (none : Option Nat) = none) ∧
    (sampleWait4.heap 2 = some ⟨"b", some 100, 0, .CO_RUNNING, some 1, some .user, true⟩ ∧
      sampleWait5.heap 2 = some ⟨"b", some 100, 0, .CO_RUNNING, some 3, some .user, true⟩ ∧
      (co_status.CO_RUNNING ≠ .CO_DEAD ∧ some 3 = sampleWait4.current ∧
        (some 3 : Option Nat) ≠ none)) :=
  ⟨⟨rfl, rfl,
      (waiter_written_alive sampleRun1 .user (.created 3) sampleWait2 .user sampleWait12_step
        3).1 ⟨"c", some 200, 0, .CO_NEW, none, none, false⟩ rfl rfl⟩,
    ⟨rfl, rfl,
      (waiter_written_alive sampleWait4 .user .quiet sampleWait5 .user sampleWait45_step 2).2.1
        ⟨"b", some 100, 0, .CO_RUNNING, some 1, some .user, true⟩
        ⟨"b", some 100, 0, .CO_RUNNING, some 3, some .user, true⟩ rfl rfl (by decide)⟩⟩

/-- A `co_wait` on an unfinished target leaves the caller `CO_WAITING` and
recorded as the waiter of the target. -/
theorem co_wait_block_ok (fuel t me : Nat) (tc mc : co) (rt r : Runtime) (pc : Pc)
    (hc : rt.current = some me) (hm : rt.heap me = some mc) (hst : mc.status = .CO_RUNNING)
    (ht : rt.heap t = some tc) (hnd : tc.status ≠ .CO_DEAD)
    (hw : co_wait fuel (some t) rt = .ok (r, pc)) :
    (∃ tc1, r.heap t = some tc1 ∧ tc1.waiter = some me) ∧
    (∃ mc1, r.heap me = some mc1 ∧ mc1.status = .CO_WAITING) := by
  obtain ⟨tc0, ht0, hcase⟩ := co_wait_ok fuel t rt r pc hw
  rw [ht] at ht0
  cases ht0
  rcases hcase with ⟨_, s1, hmark, hy⟩ | ⟨hd, _⟩
  swap
  · exact absurd hd hnd
  obtain ⟨s1', hmark', _, _, ⟨mc1, hm1, hs1⟩, ⟨tc1, ht1, hw1⟩, _⟩ :=
    co_wait_mark_marks rt t me tc mc hc ht hm hnd hst
  rw [hmark] at hmark'
  cases hmark'
  obtain ⟨tc2, ht2, hy2⟩ := (co_yield_move fuel (.wait t) s1 r pc hy t).2 tc1 ht1
  obtain ⟨mc2, hm2, hy3⟩ := (co_yield_move fuel (.wait t) s1 r pc hy me).2 mc1 hm1
  refine ⟨⟨tc2, ht2, by rw [hy2.same.2.2.2, hw1]⟩, mc2, hm2, ?_⟩
  rcases hy3.move with ⟨g, _⟩ | ⟨g, _⟩
  · rw [g, hs1]
  · rw [hs1] at g
    cases g

/-- A coroutine that nothing can wake stays so through every transition from
a state that satisfies the invariant. -/
theorem Orphan.preserved (rt : Runtime) (pc : Pc) (l : Label) (r : Runtime) (pc1 : Pc)
    (hinv : Inv rt pc) (hs : Step rt pc l r pc1) (a : Nat) (ho : Orphan rt a) :
    Orphan r a := by
  obtain ⟨me, mc, hc, hm, hst, _⟩ := hinv.cur
  obtain ⟨⟨ac, ha, hwt⟩, hnone⟩ := ho
  have ham : a ≠ me := by
    intro h0
    subst h0
    rw [hm] at ha
    cases ha
    rw [hst] at hwt
    cases hwt
  constructor
  · rcases (Step.evolves rt pc l r pc1 hinv hs a).2 ac ha with ⟨_, _, h1⟩ | ⟨ac1, h1, he⟩
    · rw [hwt] at h1
      cases h1
    · refine ⟨ac1, h1, ?_⟩
      by_contra hnw
      obtain ⟨_, me1, mc1, _, k1, k2, k3, _⟩ := he.wake hwt hnw
      rw [hc] at k1
      cases k1
      rw [hm] at k2
      cases k2
      exact hnone me mc hm (by rw [hst]; simp) k3
  · intro z zc1 hz hzd hzw
    obtain ⟨h0, h1⟩ := Step.evolves rt pc l r pc1 hinv hs z
    rcases Option.eq_none_or_eq_some (rt.heap z) with hz0 | ⟨zc, hz0⟩
    · rcases h0 hz0 with h2 | ⟨name, func, arg, h2⟩
      · rw [h2] at hz
        cases hz
      · rw [h2] at hz
        cases hz
        cases hzw
    · rcases h1 zc hz0 with ⟨h2, _⟩ | ⟨zc1', h2, he⟩
      · rw [h2] at hz
        cases hz
      · rw [h2] at hz
        cases hz
        by_cases hch : zc1.waiter = zc.waiter
        · exact hnone z zc hz0 (fun hd => hzd (he.dead hd)) (by rw [← hch]; exact hzw)
        · have k := (he.waiter hch).2
          rw [hzw, hc] at k
          exact ham (Option.some.inj k)

/-- C20 fails once a released block is handed out again. In the sample
execution coroutine `s` (2) records address 4 as its waiter after the
coroutine that waited on it was released; address 4 is then given to `e`.
Coroutine `e` (A) blocks in `co_wait(f)`, with `f` (B) at address 3; main (C)
then calls `co_wait(f)` too, in the state `reuseW23`, and the waiter recorded
in `f` is main. Two transitions later `s` returns from its entry function:
line 149 writes `CO_RUNNING` into address 4, and `e` is dispatched, at line
171 of its `co_wait(f)`, although `f` has not finished. -/
theorem first_waiter_dispatched :
    Reachable reuseW23 .user ∧ reuseW23.current = some 1 ∧
    reuseW23.heap 4 = some ⟨"e", some 500, 0, .CO_WAITING, none, some (.wait 3), true⟩ ∧
    reuseW23.heap 3 = some ⟨"f", some 600, 0, .CO_NEW, some 4, none, false⟩ ∧
    3 ∈ reuseW23.queue.items ∧
    co_wait 5 (some 3) reuseW23 = .ok (reuseW24, .user) ∧
    reuseW24.heap 3 = some ⟨"f", some 600, 0, .CO_RUNNING, some 1, none, true⟩ ∧
    Later reuseW24 .user [.quiet, .quiet] reuseW26 (.reclaim 3) ∧
    reuseW26.current = some 4 ∧
    reuseW26.heap 4 = some ⟨"e", some 500, 0, .CO_RUNNING, none, some (.wait 3), true⟩ ∧
    reuseW26.heap 3 = some ⟨"f", some 600, 0, .CO_RUNNING, some 1, some .user, true⟩ :=
  ⟨reuseW23_reachable, rfl, rfl, rfl, by decide, rfl, rfl,
    Later.next reuseW24 .user [.quiet] reuseW25 .user .quiet reuseW26 (.reclaim 3)
      (Later.next reuseW24 .user [] reuseW24 .user .quiet reuseW25 .user
        (Later.refl reuseW24 .user) (Step.yield reuseW24 5 reuseW25 .user rfl))
      (Step.ret reuseW25 5 2 ⟨"s", some 100, 0, .CO_RUNNING, some 4, some .user, true⟩
        reuseW26 (.reclaim 3) rfl rfl rfl rfl),
    rfl, rfl, rfl⟩

/-- C20, amended: in a state of an orderly execution let `A` be blocked in
`co_wait(B)` (status `CO_WAITING`, suspended at the site `wait B`) while `B` is
not `CO_DEAD`, and let the current coroutine `C` call `co_wait(B)`. Then the
call records `C` in `B.waiter` before it yields, and once the yield has
dispatched a coroutine `B.waiter` is `C`; in every later state of the orderly
execution `A` is allocated with status `CO_WAITING` and is not the current
coroutine, so it is never dispatched; and when, in a later state, the entry
function of `B` returns with `C` still recorded as its waiter, lines 145-150
make `B` `CO_DEAD` and `C` `CO_RUNNING` and change no other descriptor, `A`
staying `CO_WAITING`. -/
theorem co_wait_second_waiter (rt : Runtime) (A B C fuel : Nat) (ac bc : co)
    (h : Disciplined rt .user) (hcur : rt.current = some C)
    (hA : rt.heap A = some ac) (hAs : ac.status = .CO_WAITING)
    (hAc : ac.context = some (.wait B))
    (hB : rt.heap B = some bc) (hBs : bc.status ≠ .CO_DEAD) (hBq : B ∈ rt.queue.items) :
    A ≠ C ∧
    (∃ s, co_wait_mark B rt = some s ∧
      (∃ bc1, s.heap B = some bc1 ∧ bc1.waiter = some C) ∧
      co_wait fuel (some B) rt = co_yield fuel (.wait B) s) ∧
    ∀ r pc, co_wait fuel (some B) rt = .ok (r, pc) →
    (∃ bc1, r.heap B = some bc1 ∧ bc1.waiter = some C) ∧
    ∀ ls r2 pc2, Onward r pc ls r2 pc2 →
      (∃ ac2, r2.heap A = some ac2 ∧ ac2.status = .CO_WAITING) ∧
      r2.current ≠ some A ∧
      ∀ bc2, pc2 = .user → r2.current = some B → r2.heap B = some bc2 →
        bc2.waiter = some C →
        ∃ r3, co_yield_death r2 = some r3 ∧
          (∃ b3, r3.heap B = some b3 ∧ b3.status = .CO_DEAD) ∧
          (∃ c3, r3.heap C = some c3 ∧ c3.status = .CO_RUNNING) ∧
          (∀ a, a ≠ B → a ≠ C → r3.heap a = r2.heap a) ∧
          ∃ a3, r3.heap A = some a3 ∧ a3.status = .CO_WAITING := by
  have hinv := Disciplined.inv rt .user h
  obtain ⟨me, mc, hc, hm, hst, _⟩ := hinv.cur
  have hme : me = C := by
    rw [hcur] at hc
    exact (Option.some.inj hc).symm
  subst hme
  have hAC : A ≠ me := by
    intro h0
    subst h0
    rw [hm] at hA
    cases hA
    rw [hst] at hAs
    cases hAs
  obtain ⟨s1, hmark, _, _, _, ⟨tc1, ht1, hw1⟩, _⟩ :=
    co_wait_mark_marks rt B me bc mc hcur hB hm hBs hst
  refine ⟨hAC, ⟨s1, hmark, ⟨tc1, ht1, hw1⟩, by simp [co_wait, hB, hBs, hmark]⟩, ?_⟩
  intro r pc hw
  have hstep : Step rt .user .quiet r pc := Step.block rt fuel B bc r pc hBq hB hBs hw
  have hr : Disciplined r pc :=
    Disciplined.step rt .user .quiet r pc h hstep (orderly_quiet _ _)
  obtain ⟨⟨bc1, hb1, hbw⟩, ⟨mc1, hm1, hms⟩⟩ :=
    co_wait_block_ok fuel B me bc mc rt r pc hcur hm hst hB hBs hw
  -- after the call nothing can wake `A`
  have horph : Orphan r A := by
    constructor
    · rcases (Step.evolves rt .user .quiet r pc hinv hstep A).2 ac hA with
        ⟨_, _, h1⟩ | ⟨ac1, h1, he⟩
      · rw [hAs] at h1
        cases h1
      · refine ⟨ac1, h1, ?_⟩
        by_contra hnw
        obtain ⟨_, me1, mc0, mc2, k1, _, _, k4, k5⟩ := he.wake hAs hnw
        rw [hcur] at k1
        cases k1
        rw [hm1] at k4
        cases k4
        rw [hms] at k5
        cases k5
    · intro z zc1 hz hzd hzw
      obtain ⟨h0, h1⟩ := Step.evolves rt .user .quiet r pc hinv hstep z
      rcases Option.eq_none_or_eq_some (rt.heap z) with hz0 | ⟨zc, hz0⟩
      · rcases h0 hz0 with h2 | ⟨name, func, arg, h2⟩
        · rw [h2] at hz
          cases hz
        · rw [h2] at hz
          cases hz
          cases hzw
      · rcases h1 zc hz0 with ⟨h2, _⟩ | ⟨zc1', h2, he⟩
        · rw [h2] at hz
          cases hz
        · rw [h2] at hz
          cases hz
          by_cases hch : zc1.waiter = zc.waiter
          · have hzw0 : zc.waiter = some A := by rw [← hch]; exact hzw
            obtain ⟨wc, hw1, _, hw3⟩ :=
              hinv.sound.waiter z zc A hz0 (fun hd => hzd (he.dead hd)) hzw0
            rw [hA] at hw1
            cases hw1
            rw [hAc] at hw3
            simp only [Option.some.injEq, Site.wait.injEq] at hw3
            subst hw3
            rw [hb1] at h2
            cases h2
            rw [hbw] at hzw
            exact hAC (Option.some.inj hzw).symm
          · have k := (he.waiter hch).2
            rw [hzw, hcur] at k
            exact hAC (Option.some.inj k)
  refine ⟨⟨bc1, hb1, hbw⟩, ?_⟩
  intro ls r2 pc2 hl
  have hboth : Disciplined r2 pc2 ∧ Orphan r2 A := by
    induction hl with
    | refl => exact ⟨hr, horph⟩
    | next ls r1 pc1 l r2 pc2 _ hs ho ih =>
      exact ⟨Disciplined.step r1 pc1 l r2 pc2 ih.1 hs ho,
        Orphan.preserved r1 pc1 l r2 pc2 (Disciplined.inv r1 pc1 ih.1) hs A ih.2⟩
  obtain ⟨hr2, ⟨⟨ac2, ha2, has2⟩, horph2⟩⟩ := hboth
  have hinv2 := Disciplined.inv r2 pc2 hr2
  obtain ⟨me2, mc2, hc2, hm2, hst2, _⟩ := hinv2.cur
  have hA2 : A ≠ me2 := by
    intro h0
    subst h0
    rw [hm2] at ha2
    cases ha2
    rw [hst2] at has2
    cases has2
  refine ⟨⟨ac2, ha2, has2⟩, ?_, ?_⟩
  · rw [hc2]
    intro h0
    exact hA2 (Option.some.inj h0).symm
  · intro bc2 _ hcb hb2 hbw2
    have hmb : me2 = B := by
      rw [hc2] at hcb
      exact Option.some.inj hcb
    subst hmb
    rw [hm2] at hb2
    cases hb2
    obtain ⟨wc, hw1, hw2, _⟩ := hinv2.sound.waiter me2 mc2 me hm2 (by rw [hst2]; simp) hbw2
    have hwm : me ≠ me2 := by
      intro h0
      subst h0
      rw [hm2] at hw1
      cases hw1
      rw [hst2] at hw2
      cases hw2
    obtain ⟨r3, hdeath, _, _, hd3, hwoken, hsame⟩ :=
      co_yield_death_view r2 me2 mc2 hc2 hm2 (fun w hw0 => by
        rw [hbw2] at hw0
        cases hw0
        exact ⟨hwm, wc, hw1⟩)
    refine ⟨r3, hdeath, ⟨_, hd3, rfl⟩, ⟨_, hwoken me wc hbw2 hw1, rfl⟩, ?_, ?_⟩
    · intro a hab hac
      exact hsame a hab (by rw [hbw2]; intro h0; exact hac (Option.some.inj h0).symm)
    · refine ⟨ac2, ?_, has2⟩
      rw [hsame A hA2 (by rw [hbw2]; intro h0; exact hAC (Option.some.inj h0).symm)]
      exact ha2

/-- C20 at the sample execution: main (1) waits on 2, then coroutine 3 waits
on 2 as well, which leads to the state `sampleWait5`, where coroutine 2 runs
with 3 recorded as its waiter. In every later state of an orderly execution
main is `CO_WAITING` and not current; and when the entry function of
coroutine 2 returns in `sampleWait5`, coroutine 2 becomes `CO_DEAD`,
coroutine 3 `CO_RUNNING`, and main stays `CO_WAITING`. -/
theorem co_wait_second_waiter_witness :
    1 ≠ 3 ∧
    (∃ s, co_wait_mark 2 sampleWait4 = some s ∧
      (∃ bc1, s.heap 2 = some bc1 ∧ bc1.waiter = some 3) ∧
      co_wait 2 (some 2) sampleWait4 = co_yield 2 (.wait 2) s) ∧
    co_wait 2 (some 2) sampleWait4 = .ok (sampleWait5, .user) ∧
    (∃ bc1, sampleWait5.heap 2 = some bc1 ∧ bc1.waiter = some 3) ∧
    (∀ ls r2 pc2, Onward sampleWait5 .user ls r2 pc2 →
      (∃ ac2, r2.heap 1 = some ac2 ∧ ac2.status = .CO_WAITING) ∧ r2.current ≠ some 1) ∧
    (∃ r3, co_yield_death sampleWait5 = some r3 ∧
      (∃ b3, r3.heap 2 = some b3 ∧ b3.status = .CO_DEAD) ∧
      (∃ c3, r3.heap 3 = some c3 ∧ c3.status = .CO_RUNNING) ∧
      (∀ a, a ≠ 2 → a ≠ 3 → r3.heap a = sampleWait5.heap a) ∧
      ∃ a3, r3.heap 1 = some a3 ∧ a3.status = .CO_WAITING) :=
  (fun t => ⟨t.1, t.2.1, rfl, (t.2.2 sampleWait5 .user rfl).1,
      fun ls r2 pc2 hl =>
        ⟨((t.2.2 sampleWait5 .user rfl).2 ls r2 pc2 hl).1,
          ((t.2.2 sampleWait5 .user rfl).2 ls r2 pc2 hl).2.1⟩,
      ((t.2.2 sampleWait5 .user rfl).2 [] sampleWait5 .user (Onward.refl _ _)).2.2
        ⟨"b", some 100, 0, .CO_RUNNING, some 3, some .user, true⟩ rfl rfl rfl rfl⟩)
    (co_wait_second_waiter sampleWait4 1 2 3 2
      ⟨"main", none, 0, .CO_WAITING, none, some (.wait 2), false⟩
      ⟨"b", some 100, 0, .CO_RUNNING, some 1, some .user, true⟩
      sampleWait4_disciplined rfl rfl rfl rfl rfl (by decide) (by decide))

end Libco
